import Mathlib

/-!
Ultimate Tic-Tac-Toe engine: the game state of `Engines/UTTT.hpp` and the Monte Carlo tree
search of `Engines/Iridium.cpp`, as a shallow embedding, followed by theorems about them.

Conventions of the embedding.

* C++ `int` values that the code only ever uses as array indices, shift amounts or move numbers
  (cells, sub-boards, moves) are `Nat`; `turn`, `forcingBoard` and results of `evaluate` are `Int`.
* `position[0]` and `position[1]` of a sub-board are the bit patterns of the two C++ `int`s,
  as `Nat`; the complement `~x` is the 32-bit complement.
* `std::vector` is `List`, `push_back` appends at the end, `back` is the last element.
* The array `metaposition[9]` is a function on `Fin 9`; a loop `for (i = 0; i < 9; i++)` runs over
  the list `[0, ..., 8]`.
-/

namespace Board

/-- One 3x3 sub-board: `position[0]` is the bit set of the first player, `position[1]` the bit
set of the second player. The `movestack` member is declared by the source and used by none of
its functions. -/
structure State where
  position0 : Nat
  position1 : Nat
  movestack : List Nat
  deriving DecidableEq

/-- The member initialisers of `Board::State`: both sets empty. -/
def State.init : State := { position0 := 0, position1 := 0, movestack := [] }

/-- The 32-bit complement `~x` of an `int` bit pattern. -/
def bnot32 (x : Nat) : Nat := (2 ^ 32 - 1) ^^^ (x % 2 ^ 32)

/-- Models `Board::State::play(i, turn)`: sets bit `i` of `position[0]` when `turn == 1`, of
`position[1]` otherwise. -/
def State.play (b : State) (i : Nat) (turn : Int) : State :=
  if turn = 1 then { b with position0 := b.position0 ||| (1 <<< i) }
  else { b with position1 := b.position1 ||| (1 <<< i) }

/-- Models `Board::State::unplay(prevmove, turn)`: clears bit `prevmove` of `position[1]` when
`turn == 1`, of `position[0]` otherwise. -/
def State.unplay (b : State) (prevmove : Nat) (turn : Int) : State :=
  if turn = 1 then { b with position1 := b.position1 &&& bnot32 (1 <<< prevmove) }
  else { b with position0 := b.position0 &&& bnot32 (1 <<< prevmove) }

/-- Models `Board::State::pos_filled(i)`. -/
def State.pos_filled (b : State) (i : Nat) : Bool :=
  ((b.position0 ||| b.position1) &&& (1 <<< i)) != 0

/-- Models `Board::State::player_at(i)`: true when the first player holds cell `i`. -/
def State.player_at (b : State) (i : Nat) : Bool :=
  (b.position0 &&& (1 <<< i)) != 0

/-- The loop bounds `0 .. 8` of the source. -/
def cells : List Nat := [0, 1, 2, 3, 4, 5, 6, 7, 8]

/-- Models `Board::State::is_full()`: the loop returns false at the first cell that is not
filled. -/
def State.is_full (b : State) : Bool :=
  cells.all (fun i => b.pos_filled i)

/-- One of the four line tests of `evaluate`: when the three cells are filled and held by the
same player the function returns `1` or `-1` (`some`), otherwise control falls through (`none`).
The test is the same text in `Board::State::evaluate` and `UTTT::State::evaluate`, over the
respective `pos_filled` and `player_at`. -/
def lineCheck (filled player : Nat → Bool) (x y z : Nat) : Option Int :=
  if filled x && filled y && filled z then
    if player x == player y && player y == player z then
      if player x then some 1 else some (-1)
    else none
  else none

/-- The body shared by the two `evaluate` functions: first diagonal, second diagonal, the rows
`i = 0, 1, 2`, the columns `i = 0, 1, 2`, each returning at the first completed line; `0` when
none is. -/
def evaluateWith (filled player : Nat → Bool) : Int :=
  match lineCheck filled player 0 4 8 with
  | some r => r
  | none =>
    match lineCheck filled player 2 4 6 with
    | some r => r
    | none =>
      match [0, 1, 2].findSome?
          (fun i => lineCheck filled player (i * 3) (i * 3 + 1) (i * 3 + 2)) with
      | some r => r
      | none =>
        match [0, 1, 2].findSome? (fun i => lineCheck filled player i (i + 3) (i + 6)) with
        | some r => r
        | none => 0

/-- Models `Board::State::evaluate()`. -/
def State.evaluate (b : State) : Int :=
  evaluateWith b.pos_filled b.player_at

/-- Models `Board::State::is_board_dead()`. -/
def State.is_board_dead (b : State) : Bool :=
  (b.evaluate != 0) || b.is_full

end Board

namespace UTTT

/-- The game state `UTTT::State`. -/
structure State where
  metaposition : Fin 9 → Board.State
  forcingBoard : Int
  turn : Int
  movestack : List Nat

/-- The default constructor `UTTT::State::State()`. -/
def State.init : State :=
  { metaposition := fun _ => Board.State.init, forcingBoard := -1, turn := 1, movestack := [] }

/-- The loop bounds `0 .. 8` over sub-boards, as indices of the array. -/
def boards : List (Fin 9) := [0, 1, 2, 3, 4, 5, 6, 7, 8]

/-- Models `UTTT::State::play(i)`. The write `metaposition[board]` changes the entry whose index is
`i / 9`; for `i > 80` that index is outside the array (undefined behaviour in the source) and no
entry changes. -/
def State.play (s : State) (i : Nat) : State :=
  let board := i / 9
  let square := i % 9
  { metaposition := fun j =>
      if j.val = board then (s.metaposition j).play square s.turn else s.metaposition j
    movestack := s.movestack ++ [i]
    turn := -s.turn
    forcingBoard := (square : Int) }

/-- Models `UTTT::State::unplay()`. On an empty history `movestack.back()` is undefined behaviour in
the source; the model leaves the state unchanged there. -/
def State.unplay (s : State) : State :=
  match s.movestack.getLast? with
  | none => s
  | some prevmove =>
    let board := prevmove / 9
    let square := prevmove % 9
    { metaposition := fun j =>
        if j.val = board then (s.metaposition j).unplay square (-s.turn) else s.metaposition j
      movestack := s.movestack.dropLast
      turn := -s.turn
      forcingBoard := (square : Int) }

/-- Models `UTTT::State::board_won(board)`. -/
def State.board_won (s : State) (board : Fin 9) : Bool :=
  (s.metaposition board).evaluate != 0

/-- Models `UTTT::State::board_over(board)`. -/
def State.board_over (s : State) (board : Fin 9) : Bool :=
  (s.metaposition board).is_board_dead

/-- Models `UTTT::State::winner_of_board(board)`. -/
def State.winner_of_board (s : State) (board : Fin 9) : Bool :=
  (s.metaposition board).evaluate == 1

/-- Models `UTTT::State::is_full()`. -/
def State.is_full (s : State) : Bool :=
  boards.all (fun i => s.board_over i)

/-- Models `UTTT::State::pos_filled(board)`, for the board numbers `0 .. 8` that `evaluate`
passes. -/
def State.pos_filled (s : State) (board : Nat) : Bool :=
  if h : board < 9 then s.board_over ⟨board, h⟩ else false

/-- Models `UTTT::State::player_at(board)`, for the board numbers `0 .. 8` that `evaluate`
passes. -/
def State.player_at (s : State) (board : Nat) : Bool :=
  if h : board < 9 then s.winner_of_board ⟨board, h⟩ else false

/-- Models `UTTT::State::evaluate()`: the same line tests as `Board::State::evaluate`, over
`pos_filled` and `player_at` of the sub-boards. -/
def State.evaluate (s : State) : Int :=
  Board.evaluateWith s.pos_filled s.player_at

/-- Models `UTTT::State::legal_moves()`: the outer loop over `board`, the `continue` test, the inner
loop over `square` and the `push_back`. -/
def State.legal_moves (s : State) : List Nat :=
  boards.foldl (fun moves board =>
    if (((board.val : Int) ≠ s.forcingBoard ∧ s.forcingBoard ≠ -1)
        ∨ (s.metaposition board).is_board_dead = true) then moves
    else
      Board.cells.foldl (fun moves square =>
        if !(s.metaposition board).pos_filled square then moves ++ [board.val * 9 + square]
        else moves) moves) []

/-- Models `UTTT::State::is_game_over()`. -/
def State.is_game_over (s : State) : Bool :=
  (s.evaluate != 0) || s.is_full || (s.legal_moves.length == 0)

/-- Models `UTTT::State::random_play()`, with the value returned by `rand()` as the argument `r`.
When `moves` is empty the source computes `rand() % 0` (undefined behaviour); the model leaves the
state unchanged there. -/
def State.random_play (s : State) (r : Nat) : State :=
  let moves := s.legal_moves
  match moves[r % moves.length]? with
  | some m => s.play m
  | none => s

/-- The states reachable from the initial position by playing legal moves. -/
inductive Reachable : State → Prop
  | init : Reachable State.init
  | play (s : State) (m : Nat) : Reachable s → m ∈ s.legal_moves → Reachable (s.play m)

/-- Plays the moves of a list in order. -/
def State.playAll (s : State) (ms : List Nat) : State :=
  ms.foldl State.play s

/-- Checks that every move of the list is legal when it is played and that the game is not over
before it is played. -/
def State.legalPath (s : State) : List Nat → Bool
  | [] => true
  | m :: ms => !s.is_game_over && s.legal_moves.contains m && (s.play m).legalPath ms

/-- The `continue` test of `legal_moves` for one sub-board. -/
def State.skipped (s : State) (board : Fin 9) : Prop :=
  ((board.val : Int) ≠ s.forcingBoard ∧ s.forcingBoard ≠ -1)
    ∨ (s.metaposition board).is_board_dead = true

instance (s : State) : DecidablePred s.skipped := fun board => by
  unfold State.skipped; exact inferInstance

/-- The sub-board numbered `n`, for `n` in `0 .. 8`. -/
def State.boardAt (s : State) (n : Nat) : Board.State :=
  s.metaposition ⟨n % 9, Nat.mod_lt _ (by decide)⟩

/-- Cell `m % 9` of sub-board `m / 9` is empty. -/
def State.cellEmpty (s : State) (m : Nat) : Bool :=
  !(s.boardAt (m / 9)).pos_filled (m % 9)

/-- Sub-board `m / 9` is decided: it has a three-in-a-row or is full. -/
def State.boardDecided (s : State) (m : Nat) : Bool :=
  (s.boardAt (m / 9)).is_board_dead

/-- The empty cells of all undecided sub-boards, as move numbers `subboard * 9 + cell` in
ascending order. -/
def State.openCells (s : State) : List Nat :=
  (List.range 81).filter (fun m => !s.boardDecided m && s.cellEmpty m)

/-- The empty cells of sub-board `f`, as move numbers `f * 9 + c` in ascending order of `c`. -/
def State.openCellsOf (s : State) (f : Nat) : List Nat :=
  ((List.range 9).filter (fun c => !(s.boardAt f).pos_filled c)).map (fun c => f * 9 + c)

end UTTT

/-! ## The search tree and the search of `Engines/Iridium.cpp`

Nodes live in a heap, a list of `TreeNode`; a `TreeNode *` is an index into the heap
(`new TreeNode` appends a node and returns its index) and `nullptr` is `none`. The counters
`winScore`, `visits` (`int_fast32_t`) and `playerNo` (`int_fast8_t`) are `Int`: the code stores
`1` and `-1` in `playerNo`, and its counters stay far from the bounds of their types. -/

/-- The class `TreeNode`. -/
structure TreeNode where
  winScore : Int
  visits : Int
  playerNo : Int
  board : UTTT.State
  parent : Option Nat
  children : List Nat

/-- The constructor `TreeNode(const State &board)`: zero counters, no parent, no children. The
source leaves `playerNo` uninitialised until `set_player_no`; the model starts it at 0. -/
def TreeNode.new (board : UTTT.State) : TreeNode :=
  { winScore := 0, visits := 0, playerNo := 0, board := board, parent := none, children := [] }

/-- The heap of tree nodes, addressed by index. -/
abbrev Arena := List TreeNode

/-- Dereferences a node pointer. -/
def Arena.node (t : Arena) (p : Nat) : TreeNode :=
  t.getD p (TreeNode.new UTTT.State.init)

/-- Writes through a node pointer: replaces the node at `p` by `f` of it. -/
def Arena.update (t : Arena) (p : Nat) (f : TreeNode → TreeNode) : Arena :=
  t.set p (f (t.node p))

/-- Models `std::max_element(first, last, comp)` as the distance of its result from `first`: the
position of the first element that no earlier scan step replaced, `largest` being replaced by a
later element exactly when `comp(*largest, *it)`. -/
def max_element {α : Type} (comp : α → α → Bool) : List α → Nat
  | [] => 0
  | x :: xs =>
    (xs.foldl (fun (acc : Nat × α × Nat) y =>
      if comp acc.2.1 y then (acc.2.2, y, acc.2.2 + 1) else (acc.1, acc.2.1, acc.2.2 + 1))
      (0, x, 1)).1

/-- The parts of the program that `Engines/Iridium.cpp` uses and that are not modelled from the
sources: `uct_less a b` is the test `uct_value(a) < uct_value(b)` of `UCT::uct_compare`, on the
argument triples `(totalVisit, nodeWinScore, nodeVisit)`, which the source computes in `double`
arithmetic with `sqrt`, `log` and the constant `gameexpfactor` (not defined under the sources);
`mem_setup` is the method `State::mem_setup()` (not defined under the sources), as a function of
the state it is called on; `state_eq` is `State::operator==` (not defined under the sources). -/
structure Externals where
  uct_less : Int × Int × Int → Int × Int × Int → Bool
  mem_setup : UTTT.State → UTTT.State
  state_eq : UTTT.State → UTTT.State → Bool

/-- Models `WIN_SCORE`. -/
def WIN_SCORE : Int := 10

/-- Models `INT_MIN` of `<climits>`. -/
def INT_MIN : Int := -2147483648

/-- Models `TreeNode::expand()` on the node at `p`. The loop runs over the list
`board.legal_moves()` computed once, before the first `play`; `children.reserve` changes no
contents. -/
def TreeNode.expand (t : Arena) (p : Nat) : Arena :=
  (t.node p).board.legal_moves.foldl (fun t move =>
    let t := t.update p (fun nd => { nd with board := nd.board.play move })
    let child := t.length
    let t := t ++ [TreeNode.new (t.node p).board]
    let t := t.update p (fun nd => { nd with children := nd.children ++ [child] })
    let t := t.update child (fun nd => { nd with parent := some p })
    let t := t.update child (fun nd => { nd with playerNo := -(t.node p).playerNo })
    t.update p (fun nd => { nd with board := nd.board.unplay })) t

/-- Models `TreeNode::random_child()`, with the value `r` returned by `rand()`; `none` when
there is no child (the source then computes `rand() % 0`). -/
def TreeNode.random_child (t : Arena) (p : Nat) (r : Nat) : Option Nat :=
  (t.node p).children[r % (t.node p).children.length]?

/-- Models `TreeNode::best_child()`: the child at the position `std::max_element` returns for the
comparison of visit counts; `none` when there is no child. -/
def TreeNode.best_child (t : Arena) (p : Nat) : Option Nat :=
  (t.node p).children[max_element (fun a b => decide ((t.node a).visits < (t.node b).visits))
    (t.node p).children]?

/-- Models `TreeNode::best_child_as_move()`: the element of `board.legal_moves()` at the position
`std::max_element` returns; `none` when that position is outside the list. -/
def TreeNode.best_child_as_move (t : Arena) (p : Nat) : Option Nat :=
  (t.node p).board.legal_moves[max_element
    (fun a b => decide ((t.node a).visits < (t.node b).visits)) (t.node p).children]?

/-- Models `TreeNode::get_parent_visits()`. With no parent the source dereferences `nullptr`;
the model reads 0 there. -/
def TreeNode.get_parent_visits (t : Arena) (p : Nat) : Int :=
  match (t.node p).parent with
  | some q => (t.node q).visits
  | none => 0

namespace UCT

/-- Models `UCT::uct_compare(a, b)`. -/
def uct_compare (ext : Externals) (t : Arena) (a b : Nat) : Bool :=
  ext.uct_less
    (TreeNode.get_parent_visits t a, (t.node a).winScore, (t.node a).visits)
    (TreeNode.get_parent_visits t b, (t.node b).winScore, (t.node b).visits)

/-- Models `UCT::best_node_uct(node)`; `none` when the node has no child. -/
def best_node_uct (ext : Externals) (t : Arena) (p : Nat) : Option Nat :=
  (t.node p).children[max_element (uct_compare ext t) (t.node p).children]?

end UCT

namespace MCTS

/-- Models `MCTS::select_promising_node(rootNode)`: the loop descends while the node has children;
`fuel` bounds the number of descents. -/
def select_promising_node (ext : Externals) : Nat → Arena → Nat → Nat
  | 0, _, node => node
  | fuel + 1, t, node =>
    if (t.node node).children.length != 0 then
      match UCT.best_node_uct ext t node with
      | some c => select_promising_node ext fuel t c
      | none => node
    else node

/-- Models `MCTS::backpropagate(nodeToExplore, winner)`: the loop over `tempNode`, from the node up
through the parent pointers until `nullptr`; `fuel` bounds the number of steps. -/
def backpropagate : Nat → Arena → Option Nat → Int → Arena
  | 0, t, _, _ => t
  | _ + 1, t, none, _ => t
  | fuel + 1, t, some p, winner =>
    let t := t.update p (fun nd =>
      { nd with
        visits := nd.visits + 1
        winScore := if nd.playerNo = winner then nd.winScore + WIN_SCORE else nd.winScore })
    backpropagate fuel t (t.node p).parent winner

/-- The rollout loop of `simulate_playout`: `while (!is_game_over()) random_play()`. The `k`-th
call of `rand()` returns `rand k`; `calls` counts the calls made so far; `fuel` bounds the number
of moves. -/
def playout (rand : Nat → Nat) : Nat → UTTT.State → Nat → UTTT.State × Nat
  | 0, s, calls => (s, calls)
  | fuel + 1, s, calls =>
    if s.is_game_over then (s, calls)
    else playout rand fuel (s.random_play (rand calls)) (calls + 1)

/-- Models `MCTS::simulate_playout(node)`: returns the tree, the result and the number of `rand()`
calls. The write to the parent's score goes through `node->get_parent()`; with no parent the
source dereferences `nullptr`, and the model changes nothing. -/
def simulate_playout (ext : Externals) (rand : Nat → Nat) (opponent : Int) (t : Arena)
    (node : Nat) (calls : Nat) : Arena × Int × Nat :=
  let tempState := ext.mem_setup (t.node node).board
  let boardStatus := tempState.evaluate
  if boardStatus = opponent then
    match (t.node node).parent with
    | some parent =>
      (t.update parent (fun nd => { nd with winScore := INT_MIN }), boardStatus, calls)
    | none => (t, boardStatus, calls)
  else
    let r := playout rand 81 tempState calls
    (t, r.1.evaluate, r.2)

/-- Models `MCTS::prune(parent, target)`: the first child whose state equals `target`, its parent
pointer cleared; the `delete`s free memory and change no node that remains reachable. -/
def prune (ext : Externals) (t : Arena) (parent : Nat) (target : UTTT.State) :
    Arena × Option Nat :=
  match (t.node parent).children.find? (fun child => ext.state_eq (t.node child).board target) with
  | some out => (t.update out (fun nd => { nd with parent := none }), some out)
  | none => (t, none)

/-- One pass of the `while` loop of `find_best_next_board`, on the tree, the root pointer and the
number of `rand()` calls made so far. -/
def iteration (ext : Externals) (rand : Nat → Nat) (opponent : Int) (rootNode : Nat)
    (st : Arena × Nat) : Arena × Nat :=
  let promisingNode := select_promising_node ext st.1.length st.1 rootNode
  let t := if !(st.1.node promisingNode).board.is_game_over then TreeNode.expand st.1 promisingNode
    else st.1
  let pick : Nat × Nat :=
    if (t.node promisingNode).children.length != 0 then
      ((TreeNode.random_child t promisingNode (rand st.2)).getD promisingNode, st.2 + 1)
    else (promisingNode, st.2)
  let sim := simulate_playout ext rand opponent t pick.1 pick.2
  (backpropagate sim.1.length sim.1 (some pick.1) sim.2.1, sim.2.2)

/-- What a call of `find_best_next_board` computes: `out`, the state it returns, read from
`rootNode->best_child()`; `action`, the value of `rootNode->best_child_as_move()`; the tree and the
new `preservedNode`. A field `out` or `action` that is `none` marks a read outside a vector
(no child, or a position outside `legal_moves()`), undefined behaviour in the source. -/
structure Found where
  out : Option UTTT.State
  action : Option Nat
  tree : Arena
  preservedNode : Option Nat

/-- Models `MCTS::find_best_next_board(board)` for a search object whose retained tree is `t` with
`preservedNode` as given (`[]` and `none` for a fresh object). `iterations` is the number of
passes of the `while` loop that the clock allows, `rand k` the value of the `k`-th call of
`rand()` during this search. The counter `nodes` and the local `row`, `col`, computed from
`action` and used by nothing, are left out. -/
def find_best_next_board (ext : Externals) (rand : Nat → Nat) (iterations : Nat)
    (t : Arena) (preservedNode : Option Nat) (board : UTTT.State) : Found :=
  let opponent := -board.turn
  let pruned : Arena × Option Nat :=
    match preservedNode with
    | some p => prune ext t p board
    | none => (t, none)
  let start : Arena × Nat :=
    match pruned.2 with
    | some r => (pruned.1, r)
    | none => (pruned.1 ++ [{ TreeNode.new board with playerNo := opponent }], pruned.1.length)
  let rootNode := start.2
  let st := Nat.iterate (iteration ext rand opponent rootNode) iterations (start.1, 0)
  match TreeNode.best_child st.1 rootNode with
  | none =>
    { out := none, action := TreeNode.best_child_as_move st.1 rootNode, tree := st.1,
      preservedNode := none }
  | some best =>
    let out := (st.1.node best).board
    let kept := prune ext st.1 rootNode out
    { out := some out, action := TreeNode.best_child_as_move st.1 rootNode, tree := kept.1,
      preservedNode := kept.2 }

/-- Models `Zero::engine_move()` on a `Zero` whose `node` is `board` and whose search object is
fresh: the new value of `node`. -/
def engine_move (ext : Externals) (rand : Nat → Nat) (iterations : Nat) (board : UTTT.State) :
    Option UTTT.State :=
  (find_best_next_board ext rand iterations [] none board).out

end MCTS

open UTTT

/-! ## Positions used as concrete inputs -/

/-- The position after the legal moves 27, 3, 33, 57, 30: the first player holds cells 0, 3, 6
of sub-board 3 and the last move sends the second player to sub-board 3. -/
def decidedForcingState : State := State.init.playAll [27, 3, 33, 57, 30]

/-- The 25 moves that lead to `metaWonState`. -/
def metaWonPath : List Nat :=
  [62, 72, 0, 3, 35, 75, 28, 9, 2, 19, 14, 48, 33, 60, 59, 45, 1, 15, 58, 41, 53, 78, 57, 30, 34]

/-- The position after 25 legal moves in which the first player has won sub-boards 3, 0 and 6
(the left column of the meta-board) and the second player is sent to the empty sub-board 7. -/
def metaWonState : State := State.init.playAll metaWonPath

/-- The root that `find_best_next_board` creates for the initial position on a fresh search
object: `playerNo` is `opponent`, that is `-turn`. -/
def freshRoot : TreeNode := { TreeNode.new State.init with playerNo := -1 }

/-- The tree after `expand()` on that root. -/
def firstExpansion : Arena := TreeNode.expand [freshRoot] 0

/-- A choice of the parts that the sources do not define, for concrete runs. -/
def sampleExternals : Externals :=
  { uct_less := fun _ _ => false, mem_setup := fun s => s, state_eq := fun _ _ => false }

namespace Board

/-- The eight lines of a 3x3 grid in the order in which `evaluate` tests them: the two
diagonals, the three rows, the three columns. -/
def lines : List (Nat × Nat × Nat) :=
  [(0, 4, 8), (2, 4, 6), (0, 1, 2), (3, 4, 5), (6, 7, 8), (0, 3, 6), (1, 4, 7), (2, 5, 8)]

/-- The bit set `p` contains all three cells of at least one of the eight lines. -/
def hasLine (p : Nat) : Bool :=
  lines.any (fun l => p.testBit l.1 && p.testBit l.2.1 && p.testBit l.2.2)

end Board

namespace UTTT

/-- The synthetic 3x3 board of sub-board outcomes: cell `i` is in the first player's set when
sub-board `i` evaluates to 1, in the second player's set when it evaluates to -1, and empty
otherwise. -/
def State.metaBoard (s : State) : Board.State :=
  { position0 := boards.foldl (fun acc b =>
      if (s.metaposition b).evaluate = 1 then acc ||| (1 <<< b.val) else acc) 0
    position1 := boards.foldl (fun acc b =>
      if (s.metaposition b).evaluate = -1 then acc ||| (1 <<< b.val) else acc) 0
    movestack := [] }

/-- The player with win value `v` owns all three sub-boards of at least one of the eight lines
of the meta-board, a sub-board being owned by the player whose value its `evaluate()` returns. -/
def State.ownsLine (s : State) (v : Int) : Bool :=
  Board.lines.any (fun l =>
    decide ((s.boardAt l.1).evaluate = v) && decide ((s.boardAt l.2.1).evaluate = v)
      && decide ((s.boardAt l.2.2).evaluate = v))

end UTTT

/-- The sub-board in which the first player holds the diagonal 0, 4, 8. -/
def diagonalBoard : Board.State := { position0 := 273, position1 := 0, movestack := [] }

/-- The game state whose sub-boards 0, 4 and 8 are `diagonalBoard` and whose other sub-boards are
empty. -/
def diagonalWonState : State :=
  { metaposition := fun j => if j.val = 0 ∨ j.val = 4 ∨ j.val = 8 then diagonalBoard
      else Board.State.init
    forcingBoard := -1, turn := 1, movestack := [] }

/-- The 39 moves that lead to `drawnLineState`. -/
def drawnLinePath : List Nat :=
  [40, 38, 22, 39, 32, 45, 4, 36, 8, 75, 30, 31, 37, 15, 62, 79, 68, 53, 76, 41, 51, 59, 47, 24,
    61, 67, 42, 57, 29, 21, 27, 5, 49, 43, 65, 18, 6, 58, 44]

/-- The position after 39 legal moves in which the second player has won sub-boards 2 and 6 and
sub-board 4 is full with no three-in-a-row. -/
def drawnLineState : State := State.init.playAll drawnLinePath

/-- Models `INT_MAX` of `<climits>`. -/
def INT_MAX : Int := 2147483647

namespace UCT

/-- Models `UCT::uct_value(totalVisit, nodeWinScore, nodeVisit)`, the `double` arithmetic read
over the reals. `EXP_FACTOR` is the constant `gameexpfactor`, which the sources do not define,
as a parameter. -/
noncomputable def uct_value (EXP_FACTOR : ℝ) (totalVisit nodeWinScore nodeVisit : ℝ) : ℝ :=
  if nodeVisit = 0 then ((INT_MAX : Int) : ℝ)
  else (nodeWinScore / nodeVisit)
    + 1.41 * Real.sqrt (Real.log totalVisit / nodeVisit) * EXP_FACTOR

end UCT

namespace MCTS

/-- The root set-up of `find_best_next_board` before its loop: `prune` on the retained tree when
`preservedNode` is set, and a fresh node wrapping `board`, credited to `opponent`, when that
gives no node. Returns the tree and the root pointer. -/
def root_setup (ext : Externals) (t : Arena) (preservedNode : Option Nat) (board : UTTT.State) :
    Arena × Nat :=
  let pruned : Arena × Option Nat :=
    match preservedNode with
    | some p => prune ext t p board
    | none => (t, none)
  match pruned.2 with
  | some r => (pruned.1, r)
  | none =>
    (pruned.1 ++ [{ TreeNode.new board with playerNo := -board.turn }], pruned.1.length)

end MCTS

/-- A choice of the parts that the sources do not define in which `operator==` compares the
move histories of two states. -/
def historyExternals : Externals :=
  { uct_less := fun _ _ => false, mem_setup := fun s => s,
    state_eq := fun a b => decide (a.movestack = b.movestack) }

namespace MCTS

/-- The nodes that the loop of `backpropagate` visits, in order: the node, its parent, the
parent of that one, and so on until `nullptr`; `fuel` bounds the number of steps. -/
def path : Nat → Arena → Option Nat → List Nat
  | 0, _, _ => []
  | _ + 1, _, none => []
  | fuel + 1, t, some p => p :: path fuel t (t.node p).parent

/-- The walk along the parent pointers from a pointer reaches `nullptr` within `fuel` steps. -/
def pathEnds : Nat → Arena → Option Nat → Bool
  | _, _, none => true
  | 0, _, some _ => false
  | fuel + 1, t, some p => pathEnds fuel t (t.node p).parent

end MCTS

/-- A well-formed tree: every parent pointer points inside the heap, and from every node the walk
along the parent pointers reaches `nullptr` (there is no cycle). -/
def Arena.wellFormed (t : Arena) : Bool :=
  (List.range t.length).all (fun k =>
    (match (t.node k).parent with
      | none => true
      | some q => decide (q < t.length))
    && MCTS.pathEnds t.length t (some k))

/-- The body of the loop of `TreeNode::expand()` for one move, on the node at `p`. -/
def TreeNode.expandStep (p : Nat) (t : Arena) (move : Nat) : Arena :=
  let t := t.update p (fun nd => { nd with board := nd.board.play move })
  let child := t.length
  let t := t ++ [TreeNode.new (t.node p).board]
  let t := t.update p (fun nd => { nd with children := nd.children ++ [child] })
  let t := t.update child (fun nd => { nd with parent := some p })
  let t := t.update child (fun nd => { nd with playerNo := -(t.node p).playerNo })
  t.update p (fun nd => { nd with board := nd.board.unplay })

/-- The shape of a heap built by a search from a fresh root: node 0 is the root and has no
parent, every other node has a parent that was created before it, and every child pointer points
inside the heap. -/
def Arena.rooted (t : Arena) : Prop :=
  0 < t.length
    ∧ (t.node 0).parent = none
    ∧ (∀ k, 0 < k → k < t.length → ∃ q, (t.node k).parent = some q ∧ q < k)
    ∧ (∀ k, k < t.length → ∀ c ∈ (t.node k).children, c < t.length)

namespace UTTT

/-- The number of occupied cells of the 81 cells of the nine sub-boards. -/
def State.occupied (s : State) : Nat :=
  (List.range 81).countP (fun m => !s.cellEmpty m)

end UTTT

/-- The root that `find_best_next_board` creates for the position after the first 23 moves of
`metaWonPath`, in which the second player is to move: `opponent` is 1, the first player. -/
def forcedLossRoot : TreeNode :=
  { TreeNode.new (State.init.playAll (metaWonPath.take 23)) with playerNo := 1 }

/-- The tree after `expand()` on that root and then `expand()` on its third child (heap index 3,
the child for move 30). -/
def forcedLossTree : Arena := TreeNode.expand (TreeNode.expand [forcedLossRoot] 0) 3

namespace MCTS

/-- The value of `promisingNode` in a pass of the loop of `find_best_next_board`. -/
def promisingNode (ext : Externals) (rootNode : Nat) (st : Arena × Nat) : Nat :=
  select_promising_node ext st.1.length st.1 rootNode

/-- The tree after the `expand_node` step of a pass of the loop. -/
def expanded (ext : Externals) (rootNode : Nat) (st : Arena × Nat) : Arena :=
  if !(st.1.node (promisingNode ext rootNode st)).board.is_game_over then
    TreeNode.expand st.1 (promisingNode ext rootNode st)
  else st.1

/-- The value of `nodeToExplore` in a pass of the loop, with the number of `rand()` calls made
once it is chosen. -/
def nodeToExplore (ext : Externals) (rand : Nat → Nat) (rootNode : Nat) (st : Arena × Nat) :
    Nat × Nat :=
  if ((expanded ext rootNode st).node (promisingNode ext rootNode st)).children.length != 0 then
    ((TreeNode.random_child (expanded ext rootNode st) (promisingNode ext rootNode st)
      (rand st.2)).getD (promisingNode ext rootNode st), st.2 + 1)
  else (promisingNode ext rootNode st, st.2)

end MCTS

/-- The links of a search tree in both directions: the children of a node are distinct nodes
whose parent pointer points back to it, and a node with a parent is among the children of that
parent. -/
def Arena.linked (t : Arena) : Prop :=
  (∀ k, k < t.length → ∀ c ∈ (t.node k).children, (t.node c).parent = some k)
    ∧ (∀ k, k < t.length → (t.node k).children.Nodup)
    ∧ (∀ k q, k < t.length → (t.node k).parent = some q → k ∈ (t.node q).children)

/-- The sum of the visit counts of the children of a node. -/
def Arena.childVisits (t : Arena) (k : Nat) : Int :=
  ((t.node k).children.map (fun c => (t.node c).visits)).sum

namespace UCT

/-- The value that `uct_compare` computes for a node with `uct_value`: the arguments are the
visit count of the parent, the win-score and the visit count of the node, converted to
`double`, read here as reals. -/
noncomputable def node_value (EXP_FACTOR : ℝ) (t : Arena) (a : Nat) : ℝ :=
  uct_value EXP_FACTOR ((TreeNode.get_parent_visits t a : Int) : ℝ)
    (((t.node a).winScore : Int) : ℝ) (((t.node a).visits : Int) : ℝ)

end UCT

/-- A choice of the parts that the sources do not define in which the test of `uct_compare` is
the comparison of the values of `uct_value` over the reals, with exploration factor `E`. -/
noncomputable def realExternals (E : ℝ) : Externals :=
  { uct_less := fun a b =>
      decide (UCT.uct_value E ((a.1 : Int) : ℝ) ((a.2.1 : Int) : ℝ) ((a.2.2 : Int) : ℝ)
        < UCT.uct_value E ((b.1 : Int) : ℝ) ((b.2.1 : Int) : ℝ) ((b.2.2 : Int) : ℝ))
    mem_setup := fun s => s
    state_eq := fun _ _ => false }

namespace MCTS

/-- The nodes that the loop of `select_promising_node` passes, from the start node down to the
node it returns; `fuel` bounds the number of descents as it does there. -/
def descent (ext : Externals) : Nat → Arena → Nat → List Nat
  | 0, _, node => [node]
  | fuel + 1, t, node =>
    if (t.node node).children.length != 0 then
      match UCT.best_node_uct ext t node with
      | some c => node :: descent ext fuel t c
      | none => [node]
    else [node]

end MCTS

/-- Child pointers point forward inside the heap: every child of a node was created, by `new`,
after the node. -/
def Arena.ordered (t : Arena) : Prop :=
  ∀ k, k < t.length → ∀ c ∈ (t.node k).children, k < c ∧ c < t.length

/-- From the node `r` on, the parent pointer of every child points back to the node whose child
it is. -/
def Arena.linkedFrom (t : Arena) (r : Nat) : Prop :=
  ∀ k, r ≤ k → k < t.length → ∀ c ∈ (t.node k).children, (t.node c).parent = some k

/-- Every node is credited to minus the turn of its state, and every child to the opposite of
the player its parent is credited to. -/
def Arena.credited (t : Arena) : Prop :=
  (∀ k, k < t.length → (t.node k).playerNo = -(t.node k).board.turn)
    ∧ (∀ k, k < t.length → ∀ c ∈ (t.node k).children,
        (t.node c).playerNo = -(t.node k).playerNo)

namespace MCTS

/-- The states of a search object, as the retained tree and `preservedNode`: a fresh object has
no tree, and each call of `find_best_next_board`, for any position, any number of passes of its
loop and any values of `rand()`, leaves the tree and the `preservedNode` it computes. -/
inductive Retained (ext : Externals) : Arena → Option Nat → Prop
  | fresh : Retained ext [] none
  | call (t : Arena) (preservedNode : Option Nat) (rand : Nat → Nat) (iterations : Nat)
      (board : UTTT.State) :
      Retained ext t preservedNode →
      Retained ext (find_best_next_board ext rand iterations t preservedNode board).tree
        (find_best_next_board ext rand iterations t preservedNode board).preservedNode

end MCTS

/-- A choice of the parts that the sources do not define in which `operator==` is equality of
states: of the nine sub-boards, `forcingBoard`, `turn` and the move history. -/
def exactExternals : Externals :=
  { uct_less := fun _ _ => false
    mem_setup := fun s => s
    state_eq := fun a b =>
      boards.all (fun j => decide (a.metaposition j = b.metaposition j))
        && decide (a.forcingBoard = b.forcingBoard) && decide (a.turn = b.turn)
        && decide (a.movestack = b.movestack) }

/-- The result of a first call of `find_best_next_board` on a fresh search object, for the
initial position, with two passes of the loop and `rand()` always 1. -/
def firstSearch : MCTS.Found :=
  MCTS.find_best_next_board exactExternals (fun _ => 1) 2 [] none State.init

/-- The position after the moves 0 and 1. -/
def secondBoard : State := (State.init.play 0).play 1

/-! ## Helper lemmas: the loops of `legal_moves` as list operations -/

theorem foldl_push_if {α β : Type} (p : α → Bool) (f : α → β) (l : List α) (init : List β) :
    l.foldl (fun moves x => if p x then moves ++ [f x] else moves) init
      = init ++ (l.filter p).map f := by
  induction l generalizing init with
  | nil => simp
  | cons a t ih =>
    simp only [List.foldl_cons]
    rw [ih]
    by_cases h : p a = true <;> simp [h, List.filter_cons]

theorem foldl_skip_or_extend {α β : Type} (c : α → Prop) [DecidablePred c] (g : α → List β)
    (l : List α) (init : List β) :
    l.foldl (fun moves x => if c x then moves else moves ++ g x) init
      = init ++ l.flatMap (fun x => if c x then [] else g x) := by
  induction l generalizing init with
  | nil => simp
  | cons a t ih =>
    simp only [List.foldl_cons, List.flatMap_cons]
    rw [ih]
    by_cases h : c a <;> simp [h]

theorem legal_moves_eq_flatMap (s : State) :
    s.legal_moves = boards.flatMap (fun board =>
      if s.skipped board then []
      else (Board.cells.filter (fun square => !(s.metaposition board).pos_filled square)).map
        (fun square => board.val * 9 + square)) := by
  unfold State.legal_moves
  have h := foldl_skip_or_extend s.skipped
    (fun board => (Board.cells.filter (fun square => !(s.metaposition board).pos_filled square)).map
        (fun square => board.val * 9 + square)) boards []
  simp only [List.nil_append] at h
  rw [← h]
  congr 1
  funext moves board
  unfold State.skipped
  split
  · rfl
  · exact foldl_push_if _ _ _ _

theorem range81_eq_flatMap :
    List.range 81
      = boards.flatMap (fun board => Board.cells.map (fun square => board.val * 9 + square)) := by
  decide

theorem mem_cells_lt {c : Nat} (h : c ∈ Board.cells) : c < 9 := by
  simp [Board.cells] at h; omega

theorem boardAt_val (s : State) (b : Fin 9) : s.boardAt b.val = s.metaposition b := by
  unfold State.boardAt
  congr 1
  exact Fin.ext (Nat.mod_eq_of_lt b.isLt)

theorem boardAt_encode (s : State) (b : Fin 9) {c : Nat} (hc : c < 9) :
    s.boardAt ((b.val * 9 + c) / 9) = s.metaposition b := by
  have h : (b.val * 9 + c) / 9 = b.val := by omega
  rw [h, boardAt_val]

/-- The list built by `legal_moves` is the ascending list of the moves `m < 81` whose sub-board
passes the `continue` test and whose cell is not filled. -/
theorem legal_moves_eq_filter (s : State) :
    s.legal_moves = (List.range 81).filter (fun m =>
      !decide (s.skipped ⟨(m / 9) % 9, Nat.mod_lt _ (by decide)⟩) && s.cellEmpty m) := by
  rw [legal_moves_eq_flatMap, range81_eq_flatMap, List.filter_flatMap]
  congr 1
  funext board
  rw [List.filter_map]
  have hcong : ∀ c ∈ Board.cells,
      ((fun m => !decide (s.skipped ⟨(m / 9) % 9, Nat.mod_lt _ (by decide)⟩) && s.cellEmpty m)
        ∘ (fun square => board.val * 9 + square)) c
      = (!decide (s.skipped board) && !(s.metaposition board).pos_filled c) := by
    intro c hc
    have hc9 := mem_cells_lt hc
    have h1 : (board.val * 9 + c) / 9 = board.val := by omega
    have h2 : (board.val * 9 + c) % 9 = c := by omega
    have h3 : (⟨((board.val * 9 + c) / 9) % 9, Nat.mod_lt _ (by decide)⟩ : Fin 9) = board := by
      apply Fin.ext; simp only [h1]; exact Nat.mod_eq_of_lt board.isLt
    simp only [Function.comp, State.cellEmpty, h3, h2, boardAt_encode s board hc9]
  rw [List.filter_congr hcong]
  by_cases hs : s.skipped board
  · simp [hs]
  · simp [hs]

theorem mem_legal_moves_open (s : State) (m : Nat) (hm : m ∈ s.legal_moves) :
    m ≤ 80 ∧ s.cellEmpty m = true ∧ s.boardDecided m = false := by
  rw [legal_moves_eq_filter, List.mem_filter, List.mem_range] at hm
  obtain ⟨hlt, hp⟩ := hm
  rw [Bool.and_eq_true] at hp
  obtain ⟨hskip, hempty⟩ := hp
  refine ⟨by omega, hempty, ?_⟩
  have hns : ¬ s.skipped ⟨(m / 9) % 9, Nat.mod_lt _ (by decide)⟩ := by simpa using hskip
  unfold State.skipped at hns
  unfold State.boardDecided State.boardAt
  cases hd : (s.metaposition ⟨(m / 9) % 9, Nat.mod_lt _ (by decide)⟩).is_board_dead
  · rfl
  · exact absurd (Or.inr hd) hns

/-! ## Legal moves -/

/-- C6. On the freshly constructed initial state `legal_moves()` is exactly the 81-element list
`[0, 1, ..., 80]`, in ascending order. -/
theorem legal_moves_init :
    State.init.legal_moves = List.range 81 ∧ State.init.legal_moves.length = 81 := by
  constructor <;> decide!

/-- C7. For every state the list returned by `legal_moves()` is strictly ascending, each of its
elements `m` is at most 80, and cell `m % 9` is empty in sub-board `m / 9`, which is not decided. -/
theorem legal_moves_ascending_open (s : State) :
    s.legal_moves.Pairwise (· < ·)
      ∧ ∀ m ∈ s.legal_moves, m ≤ 80 ∧ s.cellEmpty m = true ∧ s.boardDecided m = false := by
  refine ⟨?_, mem_legal_moves_open s⟩
  rw [legal_moves_eq_filter]
  exact List.Pairwise.filter _ (List.pairwise_lt_range 81)

theorem skipped_of_forcing_ne (s : State) (f b : Fin 9) (hf : s.forcingBoard = (f.val : Int))
    (hb : b ≠ f) : s.skipped b := by
  unfold State.skipped
  left
  rw [hf]
  constructor
  · intro h
    exact hb (Fin.ext (by exact_mod_cast h))
  · omega

theorem flatMap_boards_single {β : Type} (g : Fin 9 → List β) (f : Fin 9)
    (h : ∀ b : Fin 9, b ≠ f → g b = []) : boards.flatMap g = g f := by
  have h0 := h 0
  have h1 := h 1
  have h2 := h 2
  have h3 := h 3
  have h4 := h 4
  have h5 := h 5
  have h6 := h 6
  have h7 := h 7
  have h8 := h 8
  fin_cases f <;> simp_all [boards, List.flatMap_cons, List.flatMap_nil]

/-- With `forcingBoard` naming sub-board `f`, `legal_moves()` is the move list of that sub-board
alone: empty when `f` is decided, its empty cells otherwise. -/
theorem legal_moves_forced (s : State) (f : Fin 9) (hf : s.forcingBoard = (f.val : Int)) :
    s.legal_moves = if (s.metaposition f).is_board_dead = true then [] else s.openCellsOf f.val := by
  rw [legal_moves_eq_flatMap]
  rw [flatMap_boards_single _ f]
  · have hnf : ¬ ((f.val : Int) ≠ s.forcingBoard ∧ s.forcingBoard ≠ -1) := by
      rw [hf]; simp
    by_cases hd : (s.metaposition f).is_board_dead = true
    · have : s.skipped f := Or.inr hd
      simp [this, hd]
    · have : ¬ s.skipped f := by
        unfold State.skipped
        rintro (h | h)
        · exact hnf h
        · exact hd h
      simp only [this, hd, if_false]
      unfold State.openCellsOf
      rw [boardAt_val]
      rfl
  · intro b hb
    simp [skipped_of_forcing_ne s f b hf hb]

/-- C5. When `forcingBoard = f` names an undecided sub-board, `legal_moves()` is exactly the
list of `f * 9 + c` over the empty cells `c` of sub-board `f`, in ascending `c`, and holds no move
of another sub-board; after `play(4)` on the initial position `forcingBoard == 4` and
`legal_moves() == [36, ..., 44]`. -/
theorem legal_moves_forced_undecided (s : State) (f : Fin 9)
    (hf : s.forcingBoard = (f.val : Int)) (hu : (s.metaposition f).is_board_dead = false) :
    s.legal_moves = s.openCellsOf f.val
      ∧ (∀ m ∈ s.legal_moves, m / 9 = f.val)
      ∧ (State.init.play 4).forcingBoard = 4
      ∧ (State.init.play 4).legal_moves = [36, 37, 38, 39, 40, 41, 42, 43, 44] := by
  have h := legal_moves_forced s f hf
  rw [hu] at h
  simp only [Bool.false_eq_true, if_false] at h
  refine ⟨h, ?_, by decide, by decide⟩
  intro m hm
  rw [h] at hm
  unfold State.openCellsOf at hm
  rw [List.mem_map] at hm
  obtain ⟨c, hc, rfl⟩ := hm
  have hc9 : c < 9 := by
    have := (List.mem_filter.mp hc).1
    exact List.mem_range.mp this
  omega

/-- Witness of C5: the position after `play(4)` on the initial position, with `f = 4`. -/
theorem legal_moves_forced_undecided_witness :
    (State.init.play 4).forcingBoard = ((4 : Fin 9).val : Int)
      ∧ ((State.init.play 4).metaposition 4).is_board_dead = false
      ∧ (State.init.play 4).legal_moves = (State.init.play 4).openCellsOf (4 : Fin 9).val :=
  ⟨by decide, by decide,
    (legal_moves_forced_undecided (State.init.play 4) 4 (by decide) (by decide)).1⟩

theorem legal_moves_unforced (s : State) (h : s.forcingBoard = -1) :
    s.legal_moves = s.openCells := by
  rw [legal_moves_eq_filter]
  unfold State.openCells
  apply List.filter_congr
  intro m _
  have hs : s.skipped ⟨(m / 9) % 9, Nat.mod_lt _ (by decide)⟩ ↔ s.boardDecided m = true := by
    unfold State.skipped State.boardDecided State.boardAt
    rw [h]
    simp
  by_cases hd : s.boardDecided m = true
  · simp [hs.mpr hd, hd]
  · have : ¬ s.skipped ⟨(m / 9) % 9, Nat.mod_lt _ (by decide)⟩ := fun hh => hd (hs.mp hh)
    simp [this, hd]

theorem reachable_playAll (s : State) (ms : List Nat) (hs : Reachable s)
    (hp : s.legalPath ms = true) : Reachable (s.playAll ms) := by
  induction ms generalizing s with
  | nil => exact hs
  | cons m t ih =>
    unfold State.legalPath at hp
    simp only [Bool.and_eq_true] at hp
    obtain ⟨⟨_, hm⟩, ht⟩ := hp
    have hmem : m ∈ s.legal_moves := by simpa using hm
    exact ih (s.play m) (Reachable.play s m hs hmem) ht

/-- C4, as stated, fails: in the position after the moves 27, 3, 33, 57, 30, each legal when
played and played while the game is not over, the forcing sub-board 3 is decided, 70 cells of
undecided sub-boards are empty, and `legal_moves()` is empty. -/
theorem legal_moves_decided_forcing_counterexample :
    Reachable decidedForcingState
      ∧ State.init.legalPath [27, 3, 33, 57, 30] = true
      ∧ decidedForcingState.forcingBoard = 3
      ∧ (decidedForcingState.metaposition 3).is_board_dead = true
      ∧ decidedForcingState.openCells.length = 70
      ∧ decidedForcingState.legal_moves = []
      ∧ decidedForcingState.legal_moves ≠ decidedForcingState.openCells := by
  refine ⟨reachable_playAll _ _ Reachable.init (by decide!), by decide!, by decide!, by decide!,
    by decide!, by decide!, by decide!⟩

/-- C4, amended. With `forcingBoard == -1`, `legal_moves()` is exactly the list of the empty
cells of all undecided sub-boards, as `subboard * 9 + cell` in ascending order; with
`forcingBoard` naming a decided sub-board, `legal_moves()` is empty. -/
theorem legal_moves_unforced_or_decided (s : State) :
    (s.forcingBoard = -1 → s.legal_moves = s.openCells)
      ∧ (∀ f : Fin 9, s.forcingBoard = (f.val : Int) →
          (s.metaposition f).is_board_dead = true → s.legal_moves = []) := by
  refine ⟨legal_moves_unforced s, ?_⟩
  intro f hf hd
  rw [legal_moves_forced s f hf, hd]
  rfl

/-- Witness of C4 (amended): the initial position for the unforced case, the position after
27, 3, 33, 57, 30 for the decided forcing sub-board. -/
theorem legal_moves_unforced_or_decided_witness :
    (State.init.forcingBoard = -1 ∧ State.init.legal_moves = State.init.openCells)
      ∧ (decidedForcingState.forcingBoard = ((3 : Fin 9).val : Int)
          ∧ (decidedForcingState.metaposition 3).is_board_dead = true
          ∧ decidedForcingState.legal_moves = []) :=
  ⟨⟨by decide, (legal_moves_unforced_or_decided State.init).1 (by decide)⟩,
    ⟨by decide!, by decide!,
      (legal_moves_unforced_or_decided decidedForcingState).2 3 (by decide!) (by decide!)⟩⟩

/-! ## Game over and legal moves -/

theorem mem_boards (b : Fin 9) : b ∈ boards := by
  revert b; decide

theorem legal_moves_nil_of_is_full (s : State) (h : s.is_full = true) : s.legal_moves = [] := by
  unfold State.is_full at h
  rw [List.all_eq_true] at h
  rw [legal_moves_eq_flatMap, List.flatMap_eq_nil_iff]
  intro b hb
  have hd : s.skipped b := Or.inr (h b hb)
  simp [hd]

/-- C3, as stated, fails: the position after the 25 moves of `metaWonState` is reachable by legal
moves (the game not being over before any of them), `is_game_over()` is true there because
`evaluate()` is 1, and `legal_moves()` still lists moves. -/
theorem game_over_with_legal_moves_counterexample :
    Reachable metaWonState
      ∧ State.init.legalPath metaWonPath = true
      ∧ metaWonState.evaluate = 1
      ∧ metaWonState.is_game_over = true
      ∧ metaWonState.legal_moves = [63, 64, 65, 66, 67, 68, 69, 70, 71]
      ∧ ¬ (metaWonState.legal_moves = [] ↔ metaWonState.is_game_over = true) := by
  refine ⟨reachable_playAll _ _ Reachable.init (by decide!), by decide!, by decide!, by decide!,
    by decide!, by decide!⟩

/-- C3, amended. For every state, if `legal_moves()` is empty then `is_game_over()` is true, and
if `is_game_over()` is true while the full-game `evaluate()` is 0 then `legal_moves()` is empty. -/
theorem game_over_iff_no_moves_when_unwon (s : State) :
    (s.legal_moves = [] → s.is_game_over = true)
      ∧ (s.is_game_over = true → s.evaluate = 0 → s.legal_moves = []) := by
  constructor
  · intro h
    unfold State.is_game_over
    simp [h]
  · intro hg he
    unfold State.is_game_over at hg
    simp only [he, bne_self_eq_false, Bool.false_or, Bool.or_eq_true, beq_iff_eq] at hg
    rcases hg with hf | hl
    · exact legal_moves_nil_of_is_full s hf
    · exact List.length_eq_zero.mp hl

/-! ## `play` and `unplay` -/

theorem testBit_one_shiftLeft (i c : Nat) : (1 <<< i).testBit c = decide (c = i) := by
  rw [Nat.one_shiftLeft, Nat.testBit_two_pow]
  by_cases h : i = c
  · simp [h]
  · have h' : ¬ c = i := fun e => h e.symm
    simp [h, h']

/-- C8. For every state and every move `m` in `[0, 80]`, `play(m)` negates `turn`, sets
`forcingBoard` to `m % 9`, appends `m` to the history, adds cell `m % 9` of sub-board `m / 9` to
the set of the player whose turn it was (`position[0]` when `turn == 1`, `position[1]`
otherwise) and leaves every other bit of both sets of every sub-board unchanged. -/
theorem play_adds_one_cell (s : State) (m : Nat) (hm : m ≤ 80) :
    (s.play m).turn = -s.turn
      ∧ (s.play m).forcingBoard = ((m % 9 : Nat) : Int)
      ∧ (s.play m).movestack = s.movestack ++ [m]
      ∧ (∀ (b : Fin 9) (c : Nat),
          ((s.play m).metaposition b).position0.testBit c
            = ((s.metaposition b).position0.testBit c
                || decide (s.turn = 1 ∧ b = ⟨m / 9, by omega⟩ ∧ c = m % 9)))
      ∧ (∀ (b : Fin 9) (c : Nat),
          ((s.play m).metaposition b).position1.testBit c
            = ((s.metaposition b).position1.testBit c
                || decide (s.turn ≠ 1 ∧ b = ⟨m / 9, by omega⟩ ∧ c = m % 9))) := by
  refine ⟨rfl, rfl, rfl, ?_, ?_⟩
  · intro b c
    have hb : (b = (⟨m / 9, by omega⟩ : Fin 9)) ↔ b.val = m / 9 := by
      constructor
      · intro h; rw [h]
      · intro h; exact Fin.ext h
    unfold State.play Board.State.play
    by_cases h1 : b.val = m / 9 <;> by_cases h2 : s.turn = 1 <;>
      simp [h1, h2, hb, Nat.testBit_or, testBit_one_shiftLeft, -Nat.testBit_shiftLeft]
  · intro b c
    have hb : (b = (⟨m / 9, by omega⟩ : Fin 9)) ↔ b.val = m / 9 := by
      constructor
      · intro h; rw [h]
      · intro h; exact Fin.ext h
    unfold State.play Board.State.play
    by_cases h1 : b.val = m / 9 <;> by_cases h2 : s.turn = 1 <;>
      simp [h1, h2, hb, Nat.testBit_or, testBit_one_shiftLeft, -Nat.testBit_shiftLeft]

/-- Witness of C8: move 40 (cell 4 of sub-board 4) on the initial position. -/
theorem play_adds_one_cell_witness :
    (40 : Nat) ≤ 80 ∧ (State.init.play 40).turn = -State.init.turn
      ∧ (State.init.play 40).movestack = State.init.movestack ++ [40] :=
  ⟨by decide, (play_adds_one_cell State.init 40 (by decide)).1,
    (play_adds_one_cell State.init 40 (by decide)).2.2.1⟩

theorem pos_filled_eq_testBit (b : Board.State) (i : Nat) :
    b.pos_filled i = (b.position0.testBit i || b.position1.testBit i) := by
  unfold Board.State.pos_filled
  rw [Nat.one_shiftLeft, Nat.and_two_pow, ← Nat.testBit_or]
  cases h : (b.position0 ||| b.position1).testBit i
  · simp
  · have h2 : 2 ^ i ≠ 0 := by positivity
    simp [h2]

/-- After `Board::State::play(i, turn)` followed by `Board::State::unplay(i, turn)` with the
same `turn` argument, as `UTTT::State::play` and `UTTT::State::unplay` call them, cell `i` is
still filled. -/
theorem board_play_unplay_filled (b : Board.State) (i : Nat) (turn : Int) :
    ((b.play i turn).unplay i turn).pos_filled i = true := by
  rw [pos_filled_eq_testBit]
  unfold Board.State.play Board.State.unplay
  by_cases h : turn = 1
  · simp [h, Nat.testBit_or, testBit_one_shiftLeft, -Nat.testBit_shiftLeft]
  · simp [h, Nat.testBit_or, testBit_one_shiftLeft, -Nat.testBit_shiftLeft]

/-- The state after `play(m)` followed by `unplay()`, field by field. -/
theorem unplay_play (s : State) (m : Nat) :
    (s.play m).unplay =
      { metaposition := fun j =>
          if j.val = m / 9 then ((s.metaposition j).play (m % 9) s.turn).unplay (m % 9) s.turn
          else s.metaposition j
        movestack := s.movestack
        turn := s.turn
        forcingBoard := ((m % 9 : Nat) : Int) } := by
  have hlast : (s.play m).movestack.getLast? = some m := by
    simp [State.play]
  unfold State.unplay
  simp only [hlast]
  simp only [State.play, neg_neg, List.dropLast_concat]
  congr 1
  funext j
  by_cases hj : j.val = m / 9 <;> simp [hj]

/-- C1: what the code does. For every state and every move `m` of its `legal_moves()`,
`play(m)` followed by `unplay()` restores `turn` and the history, sets `forcingBoard` to `m % 9`
and leaves cell `m % 9` of sub-board `m / 9`, empty before, filled: the result is never the
prior state. -/
theorem play_unplay_not_restored (s : State) (m : Nat) (hm : m ∈ s.legal_moves) :
    ((s.play m).unplay).turn = s.turn
      ∧ ((s.play m).unplay).movestack = s.movestack
      ∧ ((s.play m).unplay).forcingBoard = ((m % 9 : Nat) : Int)
      ∧ s.cellEmpty m = true
      ∧ ((s.play m).unplay).cellEmpty m = false
      ∧ (s.play m).unplay ≠ s := by
  obtain ⟨hle, hempty, _⟩ := mem_legal_moves_open s m hm
  have hfilled : ((s.play m).unplay).cellEmpty m = false := by
    rw [unplay_play]
    unfold State.cellEmpty State.boardAt
    have h9 : m / 9 % 9 = m / 9 := Nat.mod_eq_of_lt (by omega)
    simp only [h9, if_true]
    rw [board_play_unplay_filled]
    rfl
  refine ⟨?_, ?_, ?_, hempty, hfilled, ?_⟩
  · rw [unplay_play]
  · rw [unplay_play]
  · rw [unplay_play]
  · intro heq
    rw [heq, hempty] at hfilled
    cases hfilled

/-- Witness of C1: the initial position and move 0. After `play(0); unplay()` the first player's
set of sub-board 0 is 1 (it was 0) and `forcingBoard` is 0 (it was -1). -/
theorem play_unplay_not_restored_witness :
    Reachable State.init
      ∧ 0 ∈ State.init.legal_moves
      ∧ (State.init.metaposition 0).position0 = 0
      ∧ (((State.init.play 0).unplay).metaposition 0).position0 = 1
      ∧ State.init.forcingBoard = -1
      ∧ ((State.init.play 0).unplay).forcingBoard = 0
      ∧ (State.init.play 0).unplay ≠ State.init :=
  ⟨Reachable.init, by decide!, by decide, by decide, by decide, by decide,
    (play_unplay_not_restored State.init 0 (by decide!)).2.2.2.2.2⟩

/-- C9: what the code does. For every state whose history ends in a move `m`, `unplay()` removes
`m` from the history and negates `turn`, and it leaves unchanged, in every sub-board, the set of
the player `p = -turn` who made the move (`position[0]` when `p == 1`, `position[1]`
otherwise): the cell is not removed from `p`'s set. After `play(0)` on the initial position,
`unplay()` leaves cell 0 of sub-board 0 filled and held by player 1. -/
theorem unplay_keeps_mover_set (s : State) (m : Nat) (hm : s.movestack.getLast? = some m) :
    s.unplay.movestack = s.movestack.dropLast
      ∧ s.unplay.turn = -s.turn
      ∧ (∀ b : Fin 9, -s.turn = 1 →
          (s.unplay.metaposition b).position0 = (s.metaposition b).position0)
      ∧ (∀ b : Fin 9, -s.turn ≠ 1 →
          (s.unplay.metaposition b).position1 = (s.metaposition b).position1)
      ∧ (((State.init.play 0).unplay).metaposition 0).position0 = 1
      ∧ (((State.init.play 0).unplay).metaposition 0).pos_filled 0 = true
      ∧ (((State.init.play 0).unplay).metaposition 0).player_at 0 = true := by
  refine ⟨?_, ?_, ?_, ?_, by decide, by decide, by decide⟩
  · unfold State.unplay
    simp only [hm]
  · unfold State.unplay
    simp only [hm]
  · intro b hb
    unfold State.unplay
    simp only [hm]
    by_cases hj : b.val = m / 9 <;> simp [hj, hb, Board.State.unplay]
  · intro b hb
    unfold State.unplay
    simp only [hm]
    by_cases hj : b.val = m / 9 <;> simp [hj, hb, Board.State.unplay]

/-- Witness of C9: the state after `play(0)` on the initial position; its history is `[0]`, the
move was made by player 1, and `unplay()` leaves `position[0]` of sub-board 0 unchanged. -/
theorem unplay_keeps_mover_set_witness :
    (State.init.play 0).movestack.getLast? = some 0
      ∧ -(State.init.play 0).turn = 1
      ∧ ((State.init.play 0).unplay).movestack = []
      ∧ ((State.init.play 0).unplay).turn = 1
      ∧ (((State.init.play 0).unplay).metaposition 0).position0
          = ((State.init.play 0).metaposition 0).position0 :=
  ⟨by decide, by decide, by decide, by decide,
    (unplay_keeps_mover_set (State.init.play 0) 0 (by decide)).2.2.1 0 (by decide)⟩

/-- C10: what the code does. For every state whose history ends in a move `m`, after `unplay()`
`forcingBoard` is `m % 9`, the cell of the move just removed. After `play(0); unplay()` the
history is empty and `forcingBoard` is 0, not -1; after `play(0); play(4); unplay()` the move on
top of the history is 0 and `forcingBoard` is 4, not `0 % 9`. -/
theorem unplay_forcingBoard (s : State) (m : Nat) (hm : s.movestack.getLast? = some m) :
    s.unplay.forcingBoard = ((m % 9 : Nat) : Int)
      ∧ ((State.init.play 0).unplay).movestack = []
      ∧ ((State.init.play 0).unplay).forcingBoard = 0
      ∧ (((State.init.play 0).play 4).unplay).movestack = [0]
      ∧ (((State.init.play 0).play 4).unplay).forcingBoard = 4 := by
  refine ⟨?_, by decide, by decide, by decide, by decide⟩
  unfold State.unplay
  simp only [hm]

/-- Witness of C10: the state after `play(0); play(4)` on the initial position, whose history
ends in move 4. -/
theorem unplay_forcingBoard_witness :
    ((State.init.play 0).play 4).movestack.getLast? = some 4
      ∧ (((State.init.play 0).play 4).unplay).forcingBoard = ((4 % 9 : Nat) : Int) :=
  ⟨by decide, (unplay_forcingBoard ((State.init.play 0).play 4) 4 (by decide)).1⟩

/-- Witness of C3 (amended): the position after 27, 3, 33, 57, 30, where `evaluate()` is 0 and
`legal_moves()` is empty. -/
theorem game_over_iff_no_moves_when_unwon_witness :
    decidedForcingState.legal_moves = []
      ∧ decidedForcingState.evaluate = 0
      ∧ decidedForcingState.is_game_over = true :=
  ⟨(game_over_iff_no_moves_when_unwon decidedForcingState).2 (by decide!) (by decide!),
    by decide!,
    (game_over_iff_no_moves_when_unwon decidedForcingState).1 (by decide!)⟩

/-! ## The search from a fresh root -/

theorem lineCheck_some {filled player : Nat → Bool} {x y z : Nat} {r : Int}
    (h : Board.lineCheck filled player x y z = some r) : r = 1 ∨ r = -1 := by
  unfold Board.lineCheck at h
  split at h
  · split at h
    · split at h
      · left; exact (Option.some.inj h).symm
      · right; exact (Option.some.inj h).symm
    · cases h
  · cases h

theorem findSome_three {g : Nat → Option Int} {r : Int}
    (h : [0, 1, 2].findSome? g = some r) : g 0 = some r ∨ g 1 = some r ∨ g 2 = some r := by
  simp only [List.findSome?] at h
  cases h0 : g 0 with
  | some a => rw [h0] at h; left; exact h
  | none =>
    rw [h0] at h
    cases h1 : g 1 with
    | some a => rw [h1] at h; right; left; exact h
    | none =>
      rw [h1] at h
      cases h2 : g 2 with
      | some a => rw [h2] at h; right; right; exact h
      | none => rw [h2] at h; cases h

/-- Both `evaluate` functions return 1, -1 or 0. -/
theorem evaluateWith_range (filled player : Nat → Bool) :
    Board.evaluateWith filled player = 1 ∨ Board.evaluateWith filled player = -1
      ∨ Board.evaluateWith filled player = 0 := by
  unfold Board.evaluateWith
  split
  · rename_i r h
    rcases lineCheck_some h with h | h <;> simp [h]
  · split
    · rename_i r h
      rcases lineCheck_some h with h | h <;> simp [h]
    · split
      · rename_i r h
        rcases findSome_three h with h | h | h <;>
          rcases lineCheck_some h with h | h <;> simp [h]
      · split
        · rename_i r h
          rcases findSome_three h with h | h | h <;>
            rcases lineCheck_some h with h | h <;> simp [h]
        · right; right; rfl

theorem simulate_playout_cases (ext : Externals) (rand : Nat → Nat) (opponent : Int) (t : Arena)
    (node calls : Nat) :
    ∃ (w : Int) (calls' : Nat), (w = 1 ∨ w = -1 ∨ w = 0) ∧
      (MCTS.simulate_playout ext rand opponent t node calls = (t, w, calls')
        ∨ ∃ parent, (t.node node).parent = some parent
            ∧ MCTS.simulate_playout ext rand opponent t node calls
              = (t.update parent (fun nd => { nd with winScore := INT_MIN }), w, calls')) := by
  unfold MCTS.simulate_playout
  by_cases h : (ext.mem_setup (t.node node).board).evaluate = opponent
  · simp only [h, if_true]
    have hr := evaluateWith_range (ext.mem_setup (t.node node).board).pos_filled
      (ext.mem_setup (t.node node).board).player_at
    have he : (ext.mem_setup (t.node node).board).evaluate = opponent := h
    unfold State.evaluate at he
    rw [he] at hr
    cases hp : (t.node node).parent with
    | none => exact ⟨opponent, calls, hr, Or.inl rfl⟩
    | some parent => exact ⟨opponent, calls, hr, Or.inr ⟨parent, rfl, rfl⟩⟩
  · simp only [h, if_false]
    exact ⟨_, _, evaluateWith_range _ _, Or.inl rfl⟩

set_option maxRecDepth 1000000 in
theorem iteration_fresh (ext : Externals) (rand : Nat → Nat) (h : rand 0 % 81 = 1) :
    MCTS.iteration ext rand (-1) 0 ([freshRoot], 0)
      = (MCTS.backpropagate (MCTS.simulate_playout ext rand (-1) firstExpansion 2 1).1.length
          (MCTS.simulate_playout ext rand (-1) firstExpansion 2 1).1 (some 2)
          (MCTS.simulate_playout ext rand (-1) firstExpansion 2 1).2.1,
        (MCTS.simulate_playout ext rand (-1) firstExpansion 2 1).2.2) := by
  have hsel : MCTS.select_promising_node ext [freshRoot].length [freshRoot] 0 = 0 := rfl
  have hgo : (!(Arena.node [freshRoot] 0).board.is_game_over) = true := rfl
  have hlen : ((firstExpansion.node 0).children.length != 0) = true := rfl
  have hl : (firstExpansion.node 0).children.length = 81 := rfl
  have hpick : (TreeNode.random_child firstExpansion 0 (rand 0)).getD 0 = 2 := by
    unfold TreeNode.random_child
    rw [hl, h]
    rfl
  unfold MCTS.iteration
  simp only [hsel, hgo, if_true]
  change _ = (MCTS.backpropagate
    (MCTS.simulate_playout ext rand (-1) (TreeNode.expand [freshRoot] 0) 2 1).1.length _ _ _, _)
  simp only [show TreeNode.expand [freshRoot] 0 = firstExpansion from rfl, hlen, if_true, hpick]

/-- After the first pass from the fresh root, whatever the rollout returned and whether or not
it wrote the forced-loss score: the most visited child of the root is the node at index 2, the
second child, its state has cells 0 and 1 of sub-board 0 in the first player's set, and
`legal_moves()` of the root's own state is empty. -/
theorem first_pass_best_child :
    ∀ w ∈ ([1, -1, 0] : List Int),
      ∀ t ∈ [firstExpansion, firstExpansion.update 0 (fun nd => { nd with winScore := INT_MIN })],
        TreeNode.best_child (MCTS.backpropagate t.length t (some 2) w) 0 = some 2
          ∧ (((MCTS.backpropagate t.length t (some 2) w).node 2).board.metaposition 0).position0 = 3
          ∧ ((MCTS.backpropagate t.length t (some 2) w).node 2).board.movestack = [1]
          ∧ ((MCTS.backpropagate t.length t (some 2) w).node 0).board.legal_moves = []
          ∧ TreeNode.best_child_as_move (MCTS.backpropagate t.length t (some 2) w) 0 = none := by
  decide!

theorem find_fresh_out (ext : Externals) (rand : Nat → Nat) (n : Nat) (board : State) :
    (MCTS.find_best_next_board ext rand n [] none board).out
      = (TreeNode.best_child
          (Nat.iterate (MCTS.iteration ext rand (-board.turn) 0) n
            ([{ TreeNode.new board with playerNo := -board.turn }], 0)).1 0).map
        (fun best => ((Nat.iterate (MCTS.iteration ext rand (-board.turn) 0) n
            ([{ TreeNode.new board with playerNo := -board.turn }], 0)).1.node best).board) := by
  unfold MCTS.find_best_next_board
  simp only [List.nil_append, List.length_nil]
  split
  · rename_i h
    rw [h]; rfl
  · rename_i best h
    rw [h]; rfl

theorem find_fresh_action (ext : Externals) (rand : Nat → Nat) (n : Nat) (board : State) :
    (MCTS.find_best_next_board ext rand n [] none board).action
      = TreeNode.best_child_as_move
          (Nat.iterate (MCTS.iteration ext rand (-board.turn) 0) n
            ([{ TreeNode.new board with playerNo := -board.turn }], 0)).1 0 := by
  unfold MCTS.find_best_next_board
  simp only [List.nil_append, List.length_nil]
  split <;> rfl

theorem play_initial_board0_ne_three :
    ∀ m ∈ State.init.legal_moves, ((State.init.play m).metaposition 0).position0 ≠ 3 := by
  decide!

/-- C2: the code at the failing input. On a fresh search object and the initial position (not
game over), with one pass of the search loop in which the first `rand()` value `r` has
`r % 81 == 1`, whatever the later random values and the parts the sources do not define:
`engine_move` returns the state of the root's second child, in which cells 0 and 1 of sub-board 0
both belong to the first player, a state that is the input with one move played for no legal
move `m`; and `best_child_as_move()` indexes outside the (empty) `legal_moves()` of the root's
state. -/
theorem search_fresh_one_pass (ext : Externals) (rand : Nat → Nat) (h : rand 0 % 81 = 1) :
    State.init.is_game_over = false
      ∧ (MCTS.find_best_next_board ext rand 1 [] none State.init).action = none
      ∧ ∃ out, MCTS.engine_move ext rand 1 State.init = some out
          ∧ (out.metaposition 0).position0 = 3
          ∧ out.movestack = [1]
          ∧ ∀ m ∈ State.init.legal_moves, out ≠ State.init.play m := by
  refine ⟨by decide!, ?_⟩
  unfold MCTS.engine_move
  have hout := find_fresh_out ext rand 1 State.init
  have hact := find_fresh_action ext rand 1 State.init
  have hiter : Nat.iterate (MCTS.iteration ext rand (-State.init.turn) 0) 1
      ([{ TreeNode.new State.init with playerNo := -State.init.turn }], 0)
      = MCTS.iteration ext rand (-1) 0 ([freshRoot], 0) := rfl
  rw [hiter, iteration_fresh ext rand h] at hout hact
  obtain ⟨w, calls', hw, hsim⟩ := simulate_playout_cases ext rand (-1) firstExpansion 2 1
  have hparent : (firstExpansion.node 2).parent = some 0 := by decide!
  have hwmem : w ∈ ([1, -1, 0] : List Int) := by
    rcases hw with hw | hw | hw <;> simp [hw]
  have key : ∀ t ∈ [firstExpansion,
      firstExpansion.update 0 (fun nd => { nd with winScore := INT_MIN })],
      MCTS.simulate_playout ext rand (-1) firstExpansion 2 1 = (t, w, calls') →
      (MCTS.find_best_next_board ext rand 1 [] none State.init).action = none
      ∧ ∃ out, (MCTS.find_best_next_board ext rand 1 [] none State.init).out = some out
          ∧ (out.metaposition 0).position0 = 3
          ∧ out.movestack = [1]
          ∧ ∀ m ∈ State.init.legal_moves, out ≠ State.init.play m := by
    intro t ht hs
    rw [hs] at hout hact
    obtain ⟨hb, hp, hm, _, ha⟩ := first_pass_best_child w hwmem t ht
    simp only [hb, Option.map_some'] at hout
    refine ⟨hact.trans ha, _, hout, hp, hm, ?_⟩
    intro m hmem heq
    apply play_initial_board0_ne_three m hmem
    rw [← heq]
    exact hp
  rcases hsim with hs | ⟨parent, hpar, hs⟩
  · exact key _ (by simp) hs
  · rw [hparent] at hpar
    cases hpar
    exact key _ (by simp) hs

/-- Witness of C2: `rand()` always returning 1, with `sampleExternals`. -/
theorem search_fresh_one_pass_witness :
    (fun _ : Nat => 1) 0 % 81 = 1
      ∧ ∃ out, MCTS.engine_move sampleExternals (fun _ => 1) 1 State.init = some out
          ∧ (out.metaposition 0).position0 = 3 :=
  ⟨by decide,
    let ⟨out, h1, h2, _⟩ := (search_fresh_one_pass sampleExternals (fun _ => 1) (by decide)).2.2
    ⟨out, h1, h2⟩⟩

/-! ## The line test of `evaluate` -/

theorem player_at_eq_testBit (b : Board.State) (i : Nat) :
    b.player_at i = b.position0.testBit i := by
  unfold Board.State.player_at
  rw [Nat.one_shiftLeft, Nat.and_two_pow]
  cases h : b.position0.testBit i
  · simp
  · have h2 : 2 ^ i ≠ 0 := by positivity
    simp [h2]

/-- The body of `evaluate` returns the result of the first line test that succeeds, the lines
taken in the order of `Board.lines`, and 0 when none succeeds. -/
theorem evaluateWith_eq_findSome (filled player : Nat → Bool) :
    Board.evaluateWith filled player
      = ((Board.lines.findSome?
          (fun l => Board.lineCheck filled player l.1 l.2.1 l.2.2)).getD 0) := by
  unfold Board.evaluateWith Board.lines
  simp only [List.findSome?, Nat.zero_mul, Nat.zero_add, Nat.one_mul, Nat.reduceMul,
    Nat.reduceAdd]
  cases Board.lineCheck filled player 0 4 8 <;>
  cases Board.lineCheck filled player 2 4 6 <;>
  cases Board.lineCheck filled player 0 1 2 <;>
  cases Board.lineCheck filled player 3 4 5 <;>
  cases Board.lineCheck filled player 6 7 8 <;>
  cases Board.lineCheck filled player 0 3 6 <;>
  cases Board.lineCheck filled player 1 4 7 <;>
  cases Board.lineCheck filled player 2 5 8 <;> rfl

theorem findSome_congr_mem {α β : Type} {f g : α → Option β} {l : List α}
    (h : ∀ x ∈ l, f x = g x) : l.findSome? f = l.findSome? g := by
  induction l with
  | nil => rfl
  | cons a t ih =>
    have ha := h a (List.mem_cons_self a t)
    have ht := ih (fun x hx => h x (List.mem_cons_of_mem a hx))
    simp only [List.findSome?, ha, ht]

theorem findSome_ite_const {α β : Type} (P : α → Bool) (v : β) (l : List α) :
    l.findSome? (fun x => if P x = true then some v else none)
      = if l.any P = true then some v else none := by
  induction l with
  | nil => rfl
  | cons a t ih =>
    simp only [List.findSome?, List.any_cons]
    by_cases h : P a = true
    · simp [h]
    · have hf : P a = false := by simpa using h
      simp [hf, ih]

/-- One line test on a sub-board whose bit sets are `p0` and `p1`, when no cell of the line is
in both sets. -/
theorem lineCheck_of_bits (a c : Nat → Bool) (x y z : Nat)
    (hx : ¬ (a x = true ∧ c x = true)) (hy : ¬ (a y = true ∧ c y = true))
    (hz : ¬ (a z = true ∧ c z = true)) :
    Board.lineCheck (fun i => a i || c i) a x y z
      = if (a x && a y && a z) = true then some 1
        else if (c x && c y && c z) = true then some (-1) else none := by
  unfold Board.lineCheck
  cases hax : a x <;> cases hay : a y <;> cases haz : a z <;>
    cases hcx : c x <;> cases hcy : c y <;> cases hcz : c z <;> simp_all

theorem mem_lines_lt {l : Nat × Nat × Nat} (h : l ∈ Board.lines) :
    l.1 < 9 ∧ l.2.1 < 9 ∧ l.2.2 < 9 := by
  revert l; decide

/-- C11. For every sub-board whose two sets are disjoint and in which at most one player holds
a complete line, `evaluate()` is 1 when the first player holds all three cells of one of the 8
lines, -1 when the second player does, 0 when neither does; a complete top row (cells 0, 1, 2)
of a player gives that player's value. -/
theorem board_evaluate_line_winner (b : Board.State)
    (hdisj : b.position0 &&& b.position1 = 0)
    (hone : ¬ (Board.hasLine b.position0 = true ∧ Board.hasLine b.position1 = true)) :
    b.evaluate = (if Board.hasLine b.position0 = true then 1
        else if Board.hasLine b.position1 = true then -1 else 0)
      ∧ ((b.position0.testBit 0 = true ∧ b.position0.testBit 1 = true
            ∧ b.position0.testBit 2 = true) → b.evaluate = 1)
      ∧ ((b.position1.testBit 0 = true ∧ b.position1.testBit 1 = true
            ∧ b.position1.testBit 2 = true) → b.evaluate = -1) := by
  have hd : ∀ i, ¬ (b.position0.testBit i = true ∧ b.position1.testBit i = true) := by
    intro i ⟨h0, h1⟩
    have h := Nat.testBit_and b.position0 b.position1 i
    rw [hdisj, h0, h1] at h
    simp at h
  have hfilled : b.pos_filled = fun i => b.position0.testBit i || b.position1.testBit i :=
    funext (pos_filled_eq_testBit b)
  have hplayer : b.player_at = fun i => b.position0.testBit i :=
    funext (player_at_eq_testBit b)
  have heval : b.evaluate = ((Board.lines.findSome? (fun l =>
      if (b.position0.testBit l.1 && b.position0.testBit l.2.1 && b.position0.testBit l.2.2)
          = true then some (1 : Int)
      else if (b.position1.testBit l.1 && b.position1.testBit l.2.1
          && b.position1.testBit l.2.2) = true then some (-1) else none)).getD 0) := by
    unfold Board.State.evaluate
    rw [evaluateWith_eq_findSome, hfilled, hplayer]
    congr 1
    apply findSome_congr_mem
    intro l _
    exact lineCheck_of_bits _ _ _ _ _ (hd _) (hd _) (hd _)
  have main : b.evaluate = (if Board.hasLine b.position0 = true then 1
        else if Board.hasLine b.position1 = true then -1 else 0) := by
    rw [heval]
    by_cases h0 : Board.hasLine b.position0 = true
    · have h1 : Board.hasLine b.position1 = false := by
        cases h : Board.hasLine b.position1
        · rfl
        · exact absurd ⟨h0, h⟩ hone
      have hcong : ∀ l ∈ Board.lines,
          (if (b.position0.testBit l.1 && b.position0.testBit l.2.1
              && b.position0.testBit l.2.2) = true then some (1 : Int)
            else if (b.position1.testBit l.1 && b.position1.testBit l.2.1
              && b.position1.testBit l.2.2) = true then some (-1) else none)
          = (if (b.position0.testBit l.1 && b.position0.testBit l.2.1
              && b.position0.testBit l.2.2) = true then some (1 : Int) else none) := by
        intro l hl
        have hl1 : (b.position1.testBit l.1 && b.position1.testBit l.2.1
            && b.position1.testBit l.2.2) = false := by
          unfold Board.hasLine at h1
          rw [List.any_eq_false] at h1
          simpa using h1 l hl
        rw [hl1]
        simp
      rw [findSome_congr_mem hcong,
        findSome_ite_const (fun l => b.position0.testBit l.1 && b.position0.testBit l.2.1
              && b.position0.testBit l.2.2) 1 Board.lines]
      have h0' := h0
      unfold Board.hasLine at h0'
      rw [h0']
      simp [h0]
    · have h0f : Board.hasLine b.position0 = false := by simpa using h0
      have hcong : ∀ l ∈ Board.lines,
          (if (b.position0.testBit l.1 && b.position0.testBit l.2.1
              && b.position0.testBit l.2.2) = true then some (1 : Int)
            else if (b.position1.testBit l.1 && b.position1.testBit l.2.1
              && b.position1.testBit l.2.2) = true then some (-1) else none)
          = (if (b.position1.testBit l.1 && b.position1.testBit l.2.1
              && b.position1.testBit l.2.2) = true then some (-1 : Int) else none) := by
        intro l hl
        have hl0 : (b.position0.testBit l.1 && b.position0.testBit l.2.1
            && b.position0.testBit l.2.2) = false := by
          unfold Board.hasLine at h0f
          rw [List.any_eq_false] at h0f
          simpa using h0f l hl
        rw [hl0]
        simp
      rw [findSome_congr_mem hcong,
        findSome_ite_const (fun l => b.position1.testBit l.1 && b.position1.testBit l.2.1
              && b.position1.testBit l.2.2) (-1) Board.lines]
      simp only [h0, if_false]
      by_cases h1 : Board.hasLine b.position1 = true
      · have h1' := h1
        unfold Board.hasLine at h1'
        rw [h1']
        simp [h1]
      · have h1f : Board.hasLine b.position1 = false := by simpa using h1
        have h1' := h1f
        unfold Board.hasLine at h1'
        rw [h1']
        simp [h1f]
  refine ⟨main, ?_, ?_⟩
  · rintro ⟨ha, hb, hc⟩
    have h0 : Board.hasLine b.position0 = true := by
      unfold Board.hasLine Board.lines
      simp [ha, hb, hc]
    rw [main, h0]
    rfl
  · rintro ⟨ha, hb, hc⟩
    have h1 : Board.hasLine b.position1 = true := by
      unfold Board.hasLine Board.lines
      simp [ha, hb, hc]
    have h0 : Board.hasLine b.position0 = false := by
      cases h : Board.hasLine b.position0
      · rfl
      · exact absurd ⟨h, h1⟩ hone
    rw [main, h0, h1]
    rfl

/-- Witness of C11: the sub-board whose top row belongs to the second player and whose cells 3
and 4 belong to the first player. -/
theorem board_evaluate_line_winner_witness :
    (24 : Nat) &&& 7 = 0
      ∧ ({ position0 := 24, position1 := 7, movestack := [] } : Board.State).evaluate = -1 :=
  ⟨by decide,
    (board_evaluate_line_winner { position0 := 24, position1 := 7, movestack := [] }
      (by decide) (by decide)).2.2 (by decide)⟩

/-! ## The full-game `evaluate` -/

theorem lineCheck_congr {f f' p p' : Nat → Bool} {x y z : Nat}
    (hx : f x = f' x ∧ p x = p' x) (hy : f y = f' y ∧ p y = p' y)
    (hz : f z = f' z ∧ p z = p' z) :
    Board.lineCheck f p x y z = Board.lineCheck f' p' x y z := by
  unfold Board.lineCheck
  rw [hx.1, hx.2, hy.1, hy.2, hz.1, hz.2]

/-- The body of `evaluate` reads its two arguments at the cells 0 .. 8 only. -/
theorem evaluateWith_congr {f f' p p' : Nat → Bool}
    (h : ∀ i, i < 9 → f i = f' i ∧ p i = p' i) :
    Board.evaluateWith f p = Board.evaluateWith f' p' := by
  rw [evaluateWith_eq_findSome, evaluateWith_eq_findSome]
  congr 1
  apply findSome_congr_mem
  intro l hl
  obtain ⟨h1, h2, h3⟩ := mem_lines_lt hl
  exact lineCheck_congr (h _ h1) (h _ h2) (h _ h3)

theorem testBit_foldl_boards (P : Fin 9 → Prop) [DecidablePred P] (bs : List (Fin 9))
    (init i : Nat) :
    (bs.foldl (fun acc b => if P b then acc ||| (1 <<< b.val) else acc) init).testBit i
      = (init.testBit i || bs.any (fun b => decide (P b) && decide (i = b.val))) := by
  induction bs generalizing init with
  | nil => simp
  | cons a t ih =>
    simp only [List.foldl_cons, List.any_cons]
    rw [ih]
    by_cases h : P a
    · simp [h, Nat.testBit_or, testBit_one_shiftLeft, -Nat.testBit_shiftLeft, Bool.or_assoc]
    · simp [h]

theorem any_boards_eq (Q : Fin 9 → Bool) (b : Fin 9) :
    boards.any (fun c => Q c && decide (b.val = c.val)) = Q b := by
  have h : ∀ c : Fin 9, decide (b.val = c.val) = decide (b = c) := by
    intro c
    by_cases hc : b = c
    · simp [hc]
    · have : b.val ≠ c.val := fun e => hc (Fin.ext e)
      simp [hc, this]
  simp only [h]
  cases hq : Q b
  · rw [List.any_eq_false]
    intro c _
    by_cases hc : b = c
    · subst hc; simp [hq]
    · simp [hc]
  · rw [List.any_eq_true]
    exact ⟨b, mem_boards b, by simp [hq]⟩

theorem metaBoard_testBit0 (s : State) (b : Fin 9) :
    s.metaBoard.position0.testBit b.val = decide ((s.metaposition b).evaluate = 1) := by
  unfold State.metaBoard
  simp only []
  rw [testBit_foldl_boards (fun c => (s.metaposition c).evaluate = 1) boards 0 b.val]
  rw [any_boards_eq (fun c => decide ((s.metaposition c).evaluate = 1)) b]
  simp

theorem metaBoard_testBit1 (s : State) (b : Fin 9) :
    s.metaBoard.position1.testBit b.val = decide ((s.metaposition b).evaluate = -1) := by
  unfold State.metaBoard
  simp only []
  rw [testBit_foldl_boards (fun c => (s.metaposition c).evaluate = -1) boards 0 b.val]
  rw [any_boards_eq (fun c => decide ((s.metaposition c).evaluate = -1)) b]
  simp

/-- C12. For every game state in which no sub-board is full without a winner, the full-game
`evaluate()` equals the sub-board `evaluate()` of the synthetic board of sub-board outcomes
(`metaBoard`); the sub-board with the first player's diagonal 0, 4, 8 and the game state whose
sub-boards 0, 4, 8 are that sub-board both evaluate to 1. -/
theorem evaluate_eq_metaBoard_evaluate (s : State)
    (h : ∀ b : Fin 9, (s.metaposition b).is_full = true → (s.metaposition b).evaluate ≠ 0) :
    s.evaluate = s.metaBoard.evaluate
      ∧ diagonalBoard.evaluate = 1 ∧ diagonalWonState.evaluate = 1 := by
  refine ⟨?_, by decide, by decide!⟩
  unfold State.evaluate Board.State.evaluate
  apply evaluateWith_congr
  intro i hi
  have hb : i = (⟨i, hi⟩ : Fin 9).val := rfl
  have hr := evaluateWith_range (s.metaposition ⟨i, hi⟩).pos_filled
    (s.metaposition ⟨i, hi⟩).player_at
  have hfull := h ⟨i, hi⟩
  constructor
  · rw [pos_filled_eq_testBit]
    rw [hb, metaBoard_testBit0, metaBoard_testBit1]
    unfold State.pos_filled State.board_over Board.State.is_board_dead
    simp only [hi, dite_true]
    unfold Board.State.evaluate at hfull ⊢
    cases hf : (s.metaposition ⟨i, hi⟩).is_full
    · rcases hr with hr | hr | hr <;> simp [hr]
    · have := hfull hf
      rcases hr with hr | hr | hr
      · simp [hr]
      · simp [hr]
      · exact absurd hr this
  · rw [player_at_eq_testBit]
    rw [hb, metaBoard_testBit0]
    unfold State.player_at State.winner_of_board
    simp only [hi, dite_true]
    cases hd : decide ((s.metaposition ⟨i, hi⟩).evaluate = 1) <;> simp_all

/-- Witness of C12: the state whose sub-boards 0, 4, 8 hold the first player's diagonal and whose
other sub-boards are empty; no sub-board of it is full. -/
theorem evaluate_eq_metaBoard_evaluate_witness :
    (∀ b : Fin 9, (diagonalWonState.metaposition b).is_full = true →
        (diagonalWonState.metaposition b).evaluate ≠ 0)
      ∧ diagonalWonState.evaluate = diagonalWonState.metaBoard.evaluate
      ∧ diagonalWonState.metaBoard.position0 = 273 :=
  ⟨by decide, (evaluate_eq_metaBoard_evaluate diagonalWonState (by decide)).1, by decide⟩

/-- C13. For every game state in which sub-boards 0, 4 and 8 all evaluate to the win value `v`
of the same player (1 or -1), the full-game `evaluate()` returns `v`, whatever the other six
sub-boards hold. -/
theorem evaluate_meta_diagonal (s : State) (v : Int) (hv : v = 1 ∨ v = -1)
    (h0 : (s.metaposition 0).evaluate = v) (h4 : (s.metaposition 4).evaluate = v)
    (h8 : (s.metaposition 8).evaluate = v) :
    s.evaluate = v := by
  have hline : Board.lineCheck s.pos_filled s.player_at 0 4 8 = some v := by
    unfold Board.lineCheck State.pos_filled State.player_at State.board_over
      State.winner_of_board Board.State.is_board_dead
    rcases hv with hv | hv <;> subst hv <;> simp [h0, h4, h8]
  unfold State.evaluate Board.evaluateWith
  rw [hline]

/-- Witness of C13: the state whose sub-boards 0, 4, 8 hold the first player's diagonal. -/
theorem evaluate_meta_diagonal_witness :
    (diagonalWonState.metaposition 0).evaluate = 1
      ∧ (diagonalWonState.metaposition 4).evaluate = 1
      ∧ (diagonalWonState.metaposition 8).evaluate = 1
      ∧ diagonalWonState.evaluate = 1 :=
  ⟨by decide, by decide, by decide,
    evaluate_meta_diagonal diagonalWonState 1 (Or.inl rfl) (by decide) (by decide) (by decide)⟩

/-- C14: the code at the failing input. The position after the 39 moves of `drawnLinePath`, each
legal when played and played while the game is not over: sub-boards 2 and 6 evaluate to -1,
sub-board 4 is full and evaluates to 0, no line of three sub-boards evaluates to -1 throughout,
and the full-game `evaluate()` returns -1. -/
theorem evaluate_counts_drawn_board :
    Reachable drawnLineState
      ∧ State.init.legalPath drawnLinePath = true
      ∧ boards.map (fun b => (drawnLineState.metaposition b).evaluate)
          = [0, 0, -1, 0, 0, 1, -1, 0, 0]
      ∧ (drawnLineState.metaposition 4).is_full = true
      ∧ drawnLineState.ownsLine (-1) = false
      ∧ drawnLineState.ownsLine 1 = false
      ∧ drawnLineState.evaluate = -1 := by
  refine ⟨reachable_playAll _ _ Reachable.init (by decide!), by decide!, by decide!, by decide!,
    by decide!, by decide!, by decide!⟩

/-! ## The UCT value -/

theorem uct_value_unvisited (E N s : ℝ) : UCT.uct_value E N s 0 = 2147483647 := by
  unfold UCT.uct_value INT_MAX
  simp

theorem uct_value_visited (E N s v : ℝ) (hv : v ≠ 0) :
    UCT.uct_value E N s v = s / v + 1.41 * Real.sqrt (Real.log N / v) * E := by
  unfold UCT.uct_value
  simp [hv]

/-- C15, as stated, fails: with exploration factor 1 and parent visit count 2, a child with one
visit and win-score 2147483647 has a UCT value that is at least 2147483647, the value of a child
with 0 visits, so the unvisited child is not strictly greater. -/
theorem uct_unvisited_not_greater_counterexample :
    ¬ (UCT.uct_value 1 2 0 0 > UCT.uct_value 1 2 2147483647 1) := by
  rw [uct_value_unvisited, uct_value_visited 1 2 2147483647 1 one_ne_zero]
  intro hlt
  have h : (0 : ℝ) ≤ 1.41 * Real.sqrt (Real.log 2 / 1) * 1 := by positivity
  have h2 : (2147483647 : ℝ) / 1 = 2147483647 := by norm_num
  rw [h2] at hlt
  linarith

/-- C15, amended. For every exploration factor `E` with `0 ≤ E ≤ 10^6`, every parent visit
count `N` with `1 < N ≤ 2^63`, every visit count `v > 0` and every win-score `s ≤ 10 * v`, the
UCT value of a child with 0 visits is strictly greater than the UCT value of a child with `v`
visits and win-score `s`, the arithmetic read over the reals. -/
theorem uct_unvisited_greater (E : ℝ) (N s v : Int) (hE0 : 0 ≤ E) (hE : E ≤ 1000000)
    (hN1 : 1 < N) (hN : N ≤ 2 ^ 63) (hv : 0 < v) (hs : s ≤ 10 * v) (s0 : Int) :
    UCT.uct_value E N s0 0 > UCT.uct_value E N s v := by
  have hvR : (1 : ℝ) ≤ (v : ℝ) := by exact_mod_cast hv
  have hv0 : (v : ℝ) ≠ 0 := by positivity
  have hNR1 : (1 : ℝ) < (N : ℝ) := by exact_mod_cast hN1
  have hNR : (N : ℝ) ≤ 2 ^ 63 := by exact_mod_cast hN
  rw [uct_value_unvisited, uct_value_visited E N s v hv0]
  have hsR : (s : ℝ) ≤ 10 * (v : ℝ) := by exact_mod_cast hs
  have h1 : (s : ℝ) / (v : ℝ) ≤ 10 := by
    rw [div_le_iff₀ (by linarith)]
    exact hsR
  have hlog0 : 0 ≤ Real.log (N : ℝ) := Real.log_nonneg (le_of_lt hNR1)
  have hlog : Real.log (N : ℝ) ≤ 63 := by
    have h2 : Real.log (N : ℝ) ≤ Real.log ((2 : ℝ) ^ 63) :=
      (Real.log_le_log_iff (by linarith) (by positivity)).mpr hNR
    rw [Real.log_pow] at h2
    have h3 : Real.log 2 ≤ 1 := by
      have := Real.log_le_sub_one_of_pos (show (0 : ℝ) < 2 by norm_num)
      linarith
    have h4 : ((63 : ℕ) : ℝ) * Real.log 2 ≤ 63 := by
      have : ((63 : ℕ) : ℝ) = 63 := by norm_num
      rw [this]
      nlinarith
    linarith
  have hquot : Real.log (N : ℝ) / (v : ℝ) ≤ 8 ^ 2 := by
    rw [div_le_iff₀ (by linarith)]
    nlinarith
  have hsqrt : Real.sqrt (Real.log (N : ℝ) / (v : ℝ)) ≤ 8 :=
    (Real.sqrt_le_left (by norm_num)).mpr hquot
  have hsq0 := Real.sqrt_nonneg (Real.log (N : ℝ) / (v : ℝ))
  have h5 : 1.41 * Real.sqrt (Real.log (N : ℝ) / (v : ℝ)) * E ≤ 1.41 * 8 * 1000000 := by
    have h6 : 1.41 * Real.sqrt (Real.log (N : ℝ) / (v : ℝ)) ≤ 1.41 * 8 := by nlinarith
    have h7 : (0 : ℝ) ≤ 1.41 * Real.sqrt (Real.log (N : ℝ) / (v : ℝ)) := by positivity
    calc 1.41 * Real.sqrt (Real.log (N : ℝ) / (v : ℝ)) * E
        ≤ 1.41 * 8 * E := mul_le_mul_of_nonneg_right h6 hE0
      _ ≤ 1.41 * 8 * 1000000 := mul_le_mul_of_nonneg_left hE (by norm_num)
  norm_num at h5 ⊢
  linarith

/-- Witness of C15 (amended): exploration factor 1, parent visit count 2, one visit, win-score
10. -/
theorem uct_unvisited_greater_witness :
    UCT.uct_value 1 ((2 : Int) : ℝ) ((0 : Int) : ℝ) 0
      > UCT.uct_value 1 ((2 : Int) : ℝ) ((10 : Int) : ℝ) ((1 : Int) : ℝ) :=
  uct_unvisited_greater 1 2 10 1 (by norm_num) (by norm_num) (by norm_num) (by norm_num)
    (by norm_num) (by norm_num) 0

/-! ## Nodes of the heap -/

theorem Arena.length_update (t : Arena) (p : Nat) (f : TreeNode → TreeNode) :
    (t.update p f).length = t.length := by
  unfold Arena.update
  simp

theorem Arena.node_update (t : Arena) (p k : Nat) (f : TreeNode → TreeNode) :
    (t.update p f).node k = if k = p ∧ p < t.length then f (t.node p) else t.node k := by
  unfold Arena.update Arena.node
  rw [List.getD_eq_getElem?_getD, List.getD_eq_getElem?_getD, List.getElem?_set]
  by_cases h : p = k
  · subst h
    by_cases hp : p < t.length
    · simp [hp]
    · have hn : t[p]? = none := List.getElem?_eq_none (by omega)
      simp [hp, hn]
  · have h' : ¬ k = p := fun e => h e.symm
    simp [h, h']

theorem Arena.node_update_ne (t : Arena) {p k : Nat} (f : TreeNode → TreeNode) (h : k ≠ p) :
    (t.update p f).node k = t.node k := by
  rw [Arena.node_update]
  simp [h]

theorem Arena.node_update_self (t : Arena) {p : Nat} (f : TreeNode → TreeNode)
    (h : p < t.length) : (t.update p f).node p = f (t.node p) := by
  rw [Arena.node_update]
  simp [h]

theorem Arena.node_of_length_le (t : Arena) {k : Nat} (h : t.length ≤ k) :
    t.node k = TreeNode.new UTTT.State.init := by
  unfold Arena.node
  rw [List.getD_eq_getElem?_getD, List.getElem?_eq_none h]
  rfl

/-! ## `std::max_element` and `best_child` -/

theorem max_element_fold {α : Type} (key : α → Int) (suf pre : List α) (bi : Nat) (bv : α)
    (h1 : pre[bi]? = some bv)
    (h2 : ∀ (j : Nat) a, pre[j]? = some a → key a ≤ key bv)
    (h3 : ∀ (j : Nat) a, j < bi → pre[j]? = some a → key a < key bv) :
    (pre ++ suf)[(suf.foldl (fun (acc : Nat × α × Nat) y =>
        if (decide (key acc.2.1 < key y)) = true then (acc.2.2, y, acc.2.2 + 1)
        else (acc.1, acc.2.1, acc.2.2 + 1)) (bi, bv, pre.length)).1]?
      = some (suf.foldl (fun (acc : Nat × α × Nat) y =>
        if (decide (key acc.2.1 < key y)) = true then (acc.2.2, y, acc.2.2 + 1)
        else (acc.1, acc.2.1, acc.2.2 + 1)) (bi, bv, pre.length)).2.1
    ∧ (∀ (j : Nat) a, (pre ++ suf)[j]? = some a →
        key a ≤ key (suf.foldl (fun (acc : Nat × α × Nat) y =>
          if (decide (key acc.2.1 < key y)) = true then (acc.2.2, y, acc.2.2 + 1)
          else (acc.1, acc.2.1, acc.2.2 + 1)) (bi, bv, pre.length)).2.1)
    ∧ (∀ (j : Nat) a, j < (suf.foldl (fun (acc : Nat × α × Nat) y =>
          if (decide (key acc.2.1 < key y)) = true then (acc.2.2, y, acc.2.2 + 1)
          else (acc.1, acc.2.1, acc.2.2 + 1)) (bi, bv, pre.length)).1 →
        (pre ++ suf)[j]? = some a →
        key a < key (suf.foldl (fun (acc : Nat × α × Nat) y =>
          if (decide (key acc.2.1 < key y)) = true then (acc.2.2, y, acc.2.2 + 1)
          else (acc.1, acc.2.1, acc.2.2 + 1)) (bi, bv, pre.length)).2.1) := by
  induction suf generalizing pre bi bv with
  | nil =>
    simp only [List.foldl_nil, List.append_nil]
    exact ⟨h1, h2, h3⟩
  | cons y t ih =>
    have hbi : bi < pre.length := by
      by_contra hc
      rw [List.getElem?_eq_none (by omega)] at h1
      cases h1
    have happ : pre ++ y :: t = (pre ++ [y]) ++ t := by simp
    have hlen : (pre ++ [y]).length = pre.length + 1 := by simp
    have hget : ∀ (j : Nat) a, (pre ++ [y])[j]? = some a →
        (j < pre.length ∧ pre[j]? = some a) ∨ (j = pre.length ∧ a = y) := by
      intro j a hja
      by_cases hj : j < pre.length
      · left
        rw [List.getElem?_append_left hj] at hja
        exact ⟨hj, hja⟩
      · right
        have hj' : pre.length ≤ j := by omega
        rw [List.getElem?_append_right hj'] at hja
        by_cases hj0 : j - pre.length = 0
        · rw [hj0] at hja
          simp at hja
          exact ⟨by omega, hja.symm⟩
        · have : 1 ≤ j - pre.length := by omega
          rw [List.getElem?_eq_none (by simpa using this)] at hja
          cases hja
    simp only [List.foldl_cons]
    rw [happ]
    by_cases hlt : key bv < key y
    · simp only [hlt, decide_True, if_true]
      have := ih (pre ++ [y]) pre.length y (by simp)
        (by
          intro j a hja
          rcases hget j a hja with ⟨_, hp⟩ | ⟨_, rfl⟩
          · exact le_of_lt (lt_of_le_of_lt (h2 j a hp) hlt)
          · exact le_refl _)
        (by
          intro j a hj hja
          rcases hget j a hja with ⟨_, hp⟩ | ⟨hj', _⟩
          · exact lt_of_le_of_lt (h2 j a hp) hlt
          · omega)
      rw [hlen] at this
      exact this
    · simp only [hlt, decide_False, Bool.false_eq_true, if_false]
      have := ih (pre ++ [y]) bi bv
        (by rw [List.getElem?_append_left hbi]; exact h1)
        (by
          intro j a hja
          rcases hget j a hja with ⟨_, hp⟩ | ⟨_, rfl⟩
          · exact h2 j a hp
          · exact not_lt.mp hlt)
        (by
          intro j a hj hja
          rcases hget j a hja with ⟨_, hp⟩ | ⟨hj', _⟩
          · exact h3 j a hj hp
          · omega)
      rw [hlen] at this
      exact this

/-- The position `std::max_element` returns for a comparison of integer keys: the first position
that holds the greatest key. -/
theorem max_element_spec {α : Type} (key : α → Int) (l : List α) (hl : l ≠ []) :
    ∃ c, l[max_element (fun a b => decide (key a < key b)) l]? = some c
      ∧ (∀ (j : Nat) a, l[j]? = some a → key a ≤ key c)
      ∧ (∀ (j : Nat) a, j < max_element (fun a b => decide (key a < key b)) l →
          l[j]? = some a → key a < key c) := by
  cases l with
  | nil => exact absurd rfl hl
  | cons x xs =>
    have h := max_element_fold key xs [x] 0 x (by simp)
      (by
        intro j a hja
        cases j with
        | zero => simp at hja; rw [hja]
        | succ n => simp at hja)
      (by intro j a hj; omega)
    simp only [List.singleton_append, List.length_singleton] at h
    exact ⟨_, h.1, h.2.1, h.2.2⟩

/-- C16. For every node with at least one child, `best_child()` returns the child at the first
position, in child order, whose visit count is greater than or equal to the visit count of every
child; two trees with the same children of the node and the same visit counts give the same
child, whatever their win-scores. -/
theorem best_child_most_visited (t : Arena) (p : Nat) (h : (t.node p).children ≠ []) :
    (∃ (i : Nat) (c : Nat), (t.node p).children[i]? = some c
        ∧ TreeNode.best_child t p = some c
        ∧ (∀ c' ∈ (t.node p).children, (t.node c').visits ≤ (t.node c).visits)
        ∧ (∀ (j : Nat) c', j < i → (t.node p).children[j]? = some c' →
            (t.node c').visits < (t.node c).visits))
      ∧ (∀ t' : Arena, (t'.node p).children = (t.node p).children →
          (∀ k, (t'.node k).visits = (t.node k).visits) →
          TreeNode.best_child t' p = TreeNode.best_child t p) := by
  constructor
  · obtain ⟨c, hc, hmax, hfirst⟩ := max_element_spec (fun a => (t.node a).visits) _ h
    refine ⟨_, c, hc, hc, ?_, hfirst⟩
    intro c' hc'
    obtain ⟨j, hj⟩ := List.getElem?_of_mem hc'
    exact hmax j c' hj
  · intro t' hch hvis
    unfold TreeNode.best_child
    rw [hch]
    have : (fun a b => decide ((t'.node a).visits < (t'.node b).visits))
        = (fun a b => decide ((t.node a).visits < (t.node b).visits)) := by
      funext a b
      rw [hvis a, hvis b]
    rw [this]

/-- Witness of C16: the root of `firstExpansion`, whose 81 children all have 0 visits;
`best_child()` is the first child. -/
theorem best_child_most_visited_witness :
    (firstExpansion.node 0).children ≠ []
      ∧ TreeNode.best_child firstExpansion 0 = some 1
      ∧ ∃ (i : Nat) (c : Nat), (firstExpansion.node 0).children[i]? = some c
          ∧ TreeNode.best_child firstExpansion 0 = some c :=
  ⟨by decide!, by decide!,
    let ⟨i, c, h1, h2, _⟩ := (best_child_most_visited firstExpansion 0 (by decide!)).1
    ⟨i, c, h1, h2⟩⟩

/-! ## `prune` -/

theorem find_first_match {α : Type} (q : α → Bool) (as bs : List α) (out : α)
    (has : ∀ a ∈ as, q a = false) (hout : q out = true) :
    (as ++ out :: bs).find? q = some out := by
  induction as with
  | nil => simp [List.find?, hout]
  | cons a t ih =>
    have ha := has a (List.mem_cons_self a t)
    simp only [List.cons_append, List.find?, ha]
    exact ih (fun x hx => has x (List.mem_cons_of_mem a hx))

theorem find_no_match {α : Type} (q : α → Bool) (l : List α) (h : ∀ a ∈ l, q a = false) :
    l.find? q = none := by
  induction l with
  | nil => rfl
  | cons a t ih =>
    have ha := h a (List.mem_cons_self a t)
    simp only [List.find?, ha]
    exact ih (fun x hx => h x (List.mem_cons_of_mem a hx))

theorem find_best_next_board_root (ext : Externals) (rand : Nat → Nat) (iterations : Nat)
    (t : Arena) (preservedNode : Option Nat) (board : State) :
    (MCTS.find_best_next_board ext rand iterations t preservedNode board).out
      = (TreeNode.best_child
          (Nat.iterate (MCTS.iteration ext rand (-board.turn)
              (MCTS.root_setup ext t preservedNode board).2) iterations
            ((MCTS.root_setup ext t preservedNode board).1, 0)).1
          (MCTS.root_setup ext t preservedNode board).2).map
        (fun best => ((Nat.iterate (MCTS.iteration ext rand (-board.turn)
              (MCTS.root_setup ext t preservedNode board).2) iterations
            ((MCTS.root_setup ext t preservedNode board).1, 0)).1.node best).board) := by
  unfold MCTS.find_best_next_board MCTS.root_setup
  cases preservedNode with
  | none =>
    simp only []
    split <;> rename_i h <;> rw [h] <;> rfl
  | some p =>
    simp only []
    cases hp : (MCTS.prune ext t p board).2 with
    | none =>
      simp only []
      split <;> rename_i h <;> rw [h] <;> rfl
    | some r =>
      simp only []
      split <;> rename_i h <;> rw [h] <;> rfl

/-- C17. For every node `P` and target position: when the children of `P` are `front`, then
`out`, then `back`, no child of `front` has a state equal to the target and the state of `out`
equals it, `prune` returns `out`, with its parent pointer cleared and its visit count,
win-score, state and children unchanged, and leaves every other node unchanged; when no child
has a state equal to the target, `prune` returns no node and the search starts from a fresh
single node wrapping the target. Equality of states is `operator==`. -/
theorem prune_promotes_first_match (ext : Externals) (t : Arena) (P : Nat) (target : State) :
    (∀ (front back : List Nat) (out : Nat),
        (t.node P).children = front ++ out :: back →
        (∀ c ∈ front, ext.state_eq (t.node c).board target = false) →
        ext.state_eq (t.node out).board target = true →
        (MCTS.prune ext t P target).2 = some out
          ∧ (MCTS.prune ext t P target).1.length = t.length
          ∧ ((MCTS.prune ext t P target).1.node out).parent = none
          ∧ ((MCTS.prune ext t P target).1.node out).visits = (t.node out).visits
          ∧ ((MCTS.prune ext t P target).1.node out).winScore = (t.node out).winScore
          ∧ ((MCTS.prune ext t P target).1.node out).board = (t.node out).board
          ∧ ((MCTS.prune ext t P target).1.node out).children = (t.node out).children
          ∧ ((MCTS.prune ext t P target).1.node out).playerNo = (t.node out).playerNo
          ∧ (∀ k, k ≠ out → (MCTS.prune ext t P target).1.node k = t.node k))
      ∧ ((∀ c ∈ (t.node P).children, ext.state_eq (t.node c).board target = false) →
          MCTS.prune ext t P target = (t, none)
            ∧ MCTS.root_setup ext t (some P) target
              = (t ++ [{ TreeNode.new target with playerNo := -target.turn }], t.length)) := by
  constructor
  · intro front back out hch hfront hout
    have hfind : (t.node P).children.find?
        (fun child => ext.state_eq (t.node child).board target) = some out := by
      rw [hch]
      exact find_first_match _ front back out hfront hout
    have hpr : MCTS.prune ext t P target
        = (t.update out (fun nd => { nd with parent := none }), some out) := by
      unfold MCTS.prune
      rw [hfind]
    rw [hpr]
    simp only []
    refine ⟨trivial, Arena.length_update _ _ _, ?_, ?_, ?_, ?_, ?_, ?_, ?_⟩
    all_goals first
      | (intro k hk; exact Arena.node_update_ne t _ hk)
      | (rw [Arena.node_update]; split <;> first | rfl | skip)
    all_goals
      rename_i hne
      have hlen : t.length ≤ out := by
        by_contra hc
        exact hne ⟨rfl, by omega⟩
      rw [Arena.node_of_length_le t hlen]
      rfl
  · intro hnone
    have hfind : (t.node P).children.find?
        (fun child => ext.state_eq (t.node child).board target) = none :=
      find_no_match _ _ hnone
    have hpr : MCTS.prune ext t P target = (t, none) := by
      unfold MCTS.prune
      rw [hfind]
    refine ⟨hpr, ?_⟩
    unfold MCTS.root_setup
    simp only [hpr]

/-- Witness of C17: the tree `firstExpansion`, its root and the state of the root's second
child, with `operator==` comparing move histories; and the same tree with a target that no child
matches. -/
theorem prune_promotes_first_match_witness :
    (MCTS.prune historyExternals firstExpansion 0 (firstExpansion.node 2).board).2 = some 2
      ∧ MCTS.prune historyExternals firstExpansion 0 State.init = (firstExpansion, none) :=
  ⟨((prune_promotes_first_match historyExternals firstExpansion 0
        (firstExpansion.node 2).board).1 [1] ((List.range 79).map (· + 3)) 2
        (by decide!) (by decide!) (by decide!)).1,
    ((prune_promotes_first_match historyExternals firstExpansion 0 State.init).2
      (by decide!)).1⟩

/-! ## `backpropagate` -/

/-- The step of the loop of `backpropagate` on one node. -/
theorem backpropagate_succ (fuel : Nat) (t : Arena) (p : Nat) (w : Int) :
    MCTS.backpropagate (fuel + 1) t (some p) w
      = MCTS.backpropagate fuel
          (t.update p (fun nd =>
            { nd with
              visits := nd.visits + 1
              winScore := if nd.playerNo = w then nd.winScore + WIN_SCORE else nd.winScore }))
          ((t.update p (fun nd =>
            { nd with
              visits := nd.visits + 1
              winScore := if nd.playerNo = w then nd.winScore + WIN_SCORE
                else nd.winScore })).node p).parent w := by
  rfl

theorem backpropagate_none (fuel : Nat) (t : Arena) (w : Int) :
    MCTS.backpropagate fuel t none w = t := by
  cases fuel <;> rfl

/-- An update that changes counters only keeps the parent pointer of every node. -/
theorem parent_update_counters (t : Arena) (p k : Nat) (f : TreeNode → TreeNode)
    (hf : ∀ nd, (f nd).parent = nd.parent) :
    ((t.update p f).node k).parent = (t.node k).parent := by
  rw [Arena.node_update]
  split
  · rename_i h
    rw [hf, h.1]
  · rfl

theorem path_congr (fuel : Nat) (t t' : Arena) (p : Option Nat)
    (h : ∀ k, (t'.node k).parent = (t.node k).parent) :
    MCTS.path fuel t' p = MCTS.path fuel t p := by
  induction fuel generalizing p with
  | zero => rfl
  | succ n ih =>
    cases p with
    | none => rfl
    | some q =>
      simp only [MCTS.path]
      rw [h q, ih]

/-- What `backpropagate` leaves alone: the length of the heap and, in every node, the parent
pointer, the children, the state and the credited player. -/
theorem backpropagate_frame (fuel : Nat) (t : Arena) (p : Option Nat) (w : Int) :
    (MCTS.backpropagate fuel t p w).length = t.length
      ∧ ∀ k, ((MCTS.backpropagate fuel t p w).node k).parent = (t.node k).parent
          ∧ ((MCTS.backpropagate fuel t p w).node k).children = (t.node k).children
          ∧ ((MCTS.backpropagate fuel t p w).node k).board = (t.node k).board
          ∧ ((MCTS.backpropagate fuel t p w).node k).playerNo = (t.node k).playerNo := by
  induction fuel generalizing t p with
  | zero => exact ⟨rfl, fun k => ⟨rfl, rfl, rfl, rfl⟩⟩
  | succ n ih =>
    cases p with
    | none => exact ⟨rfl, fun k => ⟨rfl, rfl, rfl, rfl⟩⟩
    | some q =>
      rw [backpropagate_succ]
      obtain ⟨hl, hk⟩ := ih (t.update q (fun nd =>
            { nd with
              visits := nd.visits + 1
              winScore := if nd.playerNo = w then nd.winScore + WIN_SCORE else nd.winScore }))
          ((t.update q (fun nd =>
            { nd with
              visits := nd.visits + 1
              winScore := if nd.playerNo = w then nd.winScore + WIN_SCORE
                else nd.winScore })).node q).parent
      refine ⟨by rw [hl, Arena.length_update], ?_⟩
      intro k
      obtain ⟨h1, h2, h3, h4⟩ := hk k
      rw [h1, h2, h3, h4, Arena.node_update]
      split <;> rename_i h
      · rw [h.1]; exact ⟨rfl, rfl, rfl, rfl⟩
      · exact ⟨rfl, rfl, rfl, rfl⟩

/-- The counters after `backpropagate`, for a walk that stays inside the heap: each node gains
one visit for each of its occurrences on the walk, and `WIN_SCORE` for each of them when its
credited player is the winner. -/
theorem backpropagate_counters (fuel : Nat) (t : Arena) (p : Option Nat) (w : Int)
    (hin : ∀ x ∈ MCTS.path fuel t p, x < t.length) (k : Nat) :
    ((MCTS.backpropagate fuel t p w).node k).visits
        = (t.node k).visits + ((MCTS.path fuel t p).count k : Nat)
      ∧ ((MCTS.backpropagate fuel t p w).node k).winScore
        = (t.node k).winScore
          + (if (t.node k).playerNo = w then WIN_SCORE * ((MCTS.path fuel t p).count k : Nat)
              else 0) := by
  induction fuel generalizing t p with
  | zero => simp [MCTS.backpropagate, MCTS.path]
  | succ n ih =>
    cases p with
    | none => simp [MCTS.backpropagate, MCTS.path]
    | some q =>
      have hq : q < t.length := hin q (by simp [MCTS.path])
      rw [backpropagate_succ]
      have hpar : ∀ j, ((t.update q (fun nd =>
            { nd with
              visits := nd.visits + 1
              winScore := if nd.playerNo = w then nd.winScore + WIN_SCORE
                else nd.winScore })).node j).parent = (t.node j).parent :=
        fun j => parent_update_counters t q j _ (fun _ => rfl)
      have hpath := path_congr n t _ (t.node q).parent hpar
      rw [hpar q]
      have hin' : ∀ x ∈ MCTS.path n (t.update q (fun nd =>
            { nd with
              visits := nd.visits + 1
              winScore := if nd.playerNo = w then nd.winScore + WIN_SCORE
                else nd.winScore })) (t.node q).parent,
          x < (t.update q (fun nd =>
            { nd with
              visits := nd.visits + 1
              winScore := if nd.playerNo = w then nd.winScore + WIN_SCORE
                else nd.winScore })).length := by
        intro x hx
        rw [hpath] at hx
        rw [Arena.length_update]
        exact hin x (by simp [MCTS.path, hx])
      obtain ⟨hv, hs⟩ := ih _ (t.node q).parent hin'
      rw [hv, hs, hpath]
      simp only [MCTS.path, List.count_cons]
      rw [Arena.node_update]
      by_cases hkq : k = q
      · subst hkq
        simp only [hq, and_self, if_true, beq_self_eq_true]
        constructor
        · push_cast; ring
        · by_cases hw : (t.node k).playerNo = w
          · simp only [hw, if_true]; push_cast; ring
          · simp only [hw, if_false]
      · have hqk : ¬ q = k := fun e => hkq e.symm
        simp only [hkq, false_and, if_false, beq_iff_eq, hqk]
        constructor
        · simp
        · simp

theorem path_fuel_mono (f : Nat) (t : Arena) (p : Option Nat)
    (h : MCTS.pathEnds f t p = true) (f' : Nat) (hf : f ≤ f') :
    MCTS.path f' t p = MCTS.path f t p ∧ MCTS.pathEnds f' t p = true := by
  induction f generalizing p f' with
  | zero =>
    cases p with
    | none => cases f' <;> exact ⟨rfl, rfl⟩
    | some q => simp [MCTS.pathEnds] at h
  | succ n ih =>
    cases p with
    | none => cases f' <;> exact ⟨rfl, rfl⟩
    | some q =>
      cases f' with
      | zero => omega
      | succ m =>
        simp only [MCTS.pathEnds] at h
        obtain ⟨h1, h2⟩ := ih (t.node q).parent h m (by omega)
        simp only [MCTS.path, MCTS.pathEnds, h1, h2, and_self]

theorem path_suffix_of_mem (f : Nat) (t : Arena) (p : Option Nat) (x : Nat)
    (hx : x ∈ MCTS.path f t p) (hend : MCTS.pathEnds f t p = true) :
    ∃ f', f' ≤ f ∧ MCTS.pathEnds f' t (some x) = true
      ∧ (MCTS.path f' t (some x)).length ≤ (MCTS.path f t p).length
      ∧ (p ≠ some x → (MCTS.path f' t (some x)).length < (MCTS.path f t p).length) := by
  induction f generalizing p with
  | zero => simp [MCTS.path] at hx
  | succ n ih =>
    cases p with
    | none => simp [MCTS.path] at hx
    | some q =>
      simp only [MCTS.path, List.mem_cons] at hx
      by_cases hxq : x = q
      · subst hxq
        exact ⟨n + 1, le_refl _, hend, le_refl _, fun h => absurd rfl h⟩
      · rcases hx with hx | hx
        · exact absurd hx hxq
        · simp only [MCTS.pathEnds] at hend
          obtain ⟨f', hf', he, hl, _⟩ := ih (t.node q).parent hx hend
          refine ⟨f', by omega, he, ?_, ?_⟩
          · simp only [MCTS.path, List.length_cons]; omega
          · intro _
            simp only [MCTS.path, List.length_cons]; omega

/-- A walk along the parent pointers that reaches `nullptr` passes through no node twice. -/
theorem path_nodup (f : Nat) (t : Arena) (p : Option Nat) (hend : MCTS.pathEnds f t p = true) :
    (MCTS.path f t p).Nodup := by
  induction f generalizing p with
  | zero => simp [MCTS.path]
  | succ n ih =>
    cases p with
    | none => simp [MCTS.path]
    | some q =>
      have hend' : MCTS.pathEnds n t (t.node q).parent = true := by
        simpa [MCTS.pathEnds] using hend
      simp only [MCTS.path, List.nodup_cons]
      refine ⟨?_, ih _ hend'⟩
      intro hmem
      obtain ⟨f', hf', he, hl, _⟩ := path_suffix_of_mem n t _ q hmem hend'
      have hmono := (path_fuel_mono f' t (some q) he (n + 1) (by omega)).1
      rw [← hmono] at hl
      simp only [MCTS.path, List.length_cons] at hl
      omega

theorem wellFormed_node (t : Arena) (h : t.wellFormed = true) (k : Nat) (hk : k < t.length) :
    (∀ q, (t.node k).parent = some q → q < t.length)
      ∧ MCTS.pathEnds t.length t (some k) = true := by
  unfold Arena.wellFormed at h
  rw [List.all_eq_true] at h
  have hk' := h k (List.mem_range.mpr hk)
  rw [Bool.and_eq_true] at hk'
  refine ⟨?_, hk'.2⟩
  intro q hq
  have h1 := hk'.1
  rw [hq] at h1
  simpa using h1

theorem path_in_heap (f : Nat) (t : Arena) (h : t.wellFormed = true) (p : Option Nat)
    (hp : ∀ q, p = some q → q < t.length) :
    ∀ x ∈ MCTS.path f t p, x < t.length := by
  induction f generalizing p with
  | zero => simp [MCTS.path]
  | succ n ih =>
    cases p with
    | none => simp [MCTS.path]
    | some q =>
      have hq := hp q rfl
      intro x hx
      simp only [MCTS.path, List.mem_cons] at hx
      rcases hx with hx | hx
      · omega
      · exact ih (t.node q).parent (fun r hr => (wellFormed_node t h q hq).1 r hr) x hx

/-- C18. For every well-formed tree, every node `n` in it and every winner value,
`backpropagate(n, w)` reaches `nullptr` (with any bound on its loop of at least the size of the
heap) and increases by exactly 1 the visit counter of each node on the walk from `n` along the
parent pointers, that is of `n` and of each of its ancestors up to the root, and leaves the
visit counter of every other node unchanged. -/
theorem backpropagate_visits (t : Arena) (n : Nat) (w : Int) (fuel : Nat)
    (hwf : t.wellFormed = true) (hn : n < t.length) (hfuel : t.length ≤ fuel) :
    MCTS.pathEnds fuel t (some n) = true
      ∧ MCTS.path fuel t (some n) = MCTS.path t.length t (some n)
      ∧ ∀ k, ((MCTS.backpropagate fuel t (some n) w).node k).visits
          = (t.node k).visits + (if k ∈ MCTS.path t.length t (some n) then 1 else 0) := by
  have hend := (wellFormed_node t hwf n hn).2
  obtain ⟨hpath, hend'⟩ := path_fuel_mono t.length t (some n) hend fuel hfuel
  refine ⟨hend', hpath, ?_⟩
  intro k
  have hin := path_in_heap fuel t hwf (some n) (fun q hq => by cases hq; exact hn)
  rw [(backpropagate_counters fuel t (some n) w hin k).1, hpath]
  have hnd := path_nodup t.length t (some n) hend
  by_cases hk : k ∈ MCTS.path t.length t (some n)
  · rw [List.count_eq_one_of_mem hnd hk]
    simp [hk]
  · rw [List.count_eq_zero_of_not_mem hk]
    simp [hk]

/-- Witness of C18: the tree `firstExpansion` and its node 2, a child of the root: the walk is
`[2, 0]`. -/
theorem backpropagate_visits_witness :
    firstExpansion.wellFormed = true
      ∧ MCTS.path firstExpansion.length firstExpansion (some 2) = [2, 0]
      ∧ ((MCTS.backpropagate 82 firstExpansion (some 2) 1).node 0).visits
          = (firstExpansion.node 0).visits + 1 :=
  ⟨by decide!, by decide!,
    ((backpropagate_visits firstExpansion 2 1 82 (by decide!) (by decide!) (by decide!)).2.2
      0).trans (by decide!)⟩

/-- C19. For every well-formed tree, every node `n` in it and every winner value `w`,
`backpropagate(n, w)` adds exactly 10 to the win-score of each node on the walk from `n` to the
root whose credited player equals `w` and leaves every other win-score unchanged; when `w` is 0
and every credited player in the heap is 1 or -1, no win-score changes. -/
theorem backpropagate_winScore (t : Arena) (n : Nat) (w : Int) (fuel : Nat)
    (hwf : t.wellFormed = true) (hn : n < t.length) (hfuel : t.length ≤ fuel) :
    (∀ k, ((MCTS.backpropagate fuel t (some n) w).node k).winScore
        = (t.node k).winScore
          + (if k ∈ MCTS.path t.length t (some n) ∧ (t.node k).playerNo = w then 10 else 0))
      ∧ (w = 0 → (∀ k, k < t.length → (t.node k).playerNo = 1 ∨ (t.node k).playerNo = -1) →
          ∀ k, ((MCTS.backpropagate fuel t (some n) w).node k).winScore
            = (t.node k).winScore) := by
  have hend := (wellFormed_node t hwf n hn).2
  obtain ⟨hpath, _⟩ := path_fuel_mono t.length t (some n) hend fuel hfuel
  have hin := path_in_heap fuel t hwf (some n) (fun q hq => by cases hq; exact hn)
  have hnd := path_nodup t.length t (some n) hend
  have main : ∀ k, ((MCTS.backpropagate fuel t (some n) w).node k).winScore
        = (t.node k).winScore
          + (if k ∈ MCTS.path t.length t (some n) ∧ (t.node k).playerNo = w then 10
              else 0) := by
    intro k
    rw [(backpropagate_counters fuel t (some n) w hin k).2, hpath]
    by_cases hk : k ∈ MCTS.path t.length t (some n)
    · rw [List.count_eq_one_of_mem hnd hk]
      by_cases hw : (t.node k).playerNo = w
      · simp [hk, hw, WIN_SCORE]
      · simp [hk, hw]
    · rw [List.count_eq_zero_of_not_mem hk]
      simp [hk]
  refine ⟨main, ?_⟩
  intro hw0 hpl k
  rw [main k]
  by_cases hk : k ∈ MCTS.path t.length t (some n)
  · have hklt : k < t.length := by
      rw [← hpath] at hk
      exact hin k hk
    have hne : ¬ (t.node k).playerNo = w := by
      rw [hw0]
      rcases hpl k hklt with h | h <;> rw [h] <;> decide
    simp [hne]
  · simp [hk]

/-- Witness of C19: the tree `firstExpansion`, its node 2 (credited to player 1, as are all
children of the root, the root being credited to -1) and the winner 1: node 2 gains 10, the root
gains nothing. -/
theorem backpropagate_winScore_witness :
    firstExpansion.wellFormed = true
      ∧ (firstExpansion.node 2).playerNo = 1 ∧ (firstExpansion.node 0).playerNo = -1
      ∧ ((MCTS.backpropagate 82 firstExpansion (some 2) 1).node 2).winScore
          = (firstExpansion.node 2).winScore + 10
      ∧ ((MCTS.backpropagate 82 firstExpansion (some 2) 1).node 0).winScore
          = (firstExpansion.node 0).winScore :=
  ⟨by decide!, by decide!, by decide!,
    ((backpropagate_winScore firstExpansion 2 1 82 (by decide!) (by decide!) (by decide!)).1
      2).trans (by decide!),
    ((backpropagate_winScore firstExpansion 2 1 82 (by decide!) (by decide!) (by decide!)).1
      0).trans (by decide!)⟩

/-! ## `expand` -/

theorem expand_eq_foldl (t : Arena) (p : Nat) :
    TreeNode.expand t p = (t.node p).board.legal_moves.foldl (TreeNode.expandStep p) t := by
  rfl

theorem Arena.node_append (t : Arena) (x : TreeNode) (k : Nat) :
    (t ++ [x]).node k
      = if k < t.length then t.node k
        else if k = t.length then x else TreeNode.new UTTT.State.init := by
  unfold Arena.node
  rw [List.getD_eq_getElem?_getD, List.getD_eq_getElem?_getD]
  by_cases h : k < t.length
  · rw [List.getElem?_append_left h]
    simp [h]
  · rw [List.getElem?_append_right (by omega)]
    by_cases h2 : k = t.length
    · subst h2
      simp
    · have h3 : 1 ≤ k - t.length := by omega
      rw [List.getElem?_eq_none (by simpa using h3)]
      simp [h, h2]

/-- One pass of the loop of `expand()` on a node `p` of the heap: the heap grows by one node,
the new child; the node at `p` gets the child appended to its children and the state
`play(move); unplay()` of its state; every other node is unchanged. -/
theorem expandStep_node (t : Arena) (p move : Nat) (hp : p < t.length) :
    (TreeNode.expandStep p t move).length = t.length + 1
      ∧ ∀ k, (TreeNode.expandStep p t move).node k
          = if k = p then
              { t.node p with
                board := ((t.node p).board.play move).unplay
                children := (t.node p).children ++ [t.length] }
            else if k = t.length then
              { winScore := 0, visits := 0, playerNo := -(t.node p).playerNo,
                board := (t.node p).board.play move, parent := some p, children := [] }
            else t.node k := by
  have hne : ¬ t.length = p := by omega
  have hne' : ¬ p = t.length := by omega
  have hp1 : p < t.length + 1 := by omega
  constructor
  · unfold TreeNode.expandStep
    simp [Arena.length_update]
  · intro k
    unfold TreeNode.expandStep
    simp only [Arena.node_update, Arena.length_update, List.length_append,
      List.length_singleton, Arena.node_append]
    by_cases hkp : k = p
    · rw [hkp]
      simp [hp, hp1, hne, hne', TreeNode.new]
    · by_cases hkl : k = t.length
      · rw [hkl]
        simp [hp, hp1, hne, hne', TreeNode.new]
      · by_cases hk : k < t.length
        · simp [hkp, hkl, hk, hp, hp1, hne, hne']
        · simp [hkp, hkl, hk, hp, hp1, hne, hne']
          exact (Arena.node_of_length_le t (by omega)).symm

/-! ## The visit count of the root -/

theorem rooted_of_same_links (t t' : Arena) (hl : t'.length = t.length)
    (hp : ∀ k, (t'.node k).parent = (t.node k).parent)
    (hc : ∀ k, (t'.node k).children = (t.node k).children) (h : t.rooted) : t'.rooted := by
  obtain ⟨h1, h2, h3, h4⟩ := h
  refine ⟨by omega, by rw [hp]; exact h2, ?_, ?_⟩
  · intro k hk0 hk
    rw [hp]
    exact h3 k hk0 (by omega)
  · intro k hk c hcm
    rw [hc] at hcm
    rw [hl]
    exact h4 k (by omega) c hcm

theorem expandStep_rooted (t : Arena) (p move : Nat) (hp : p < t.length) (h : t.rooted) :
    (TreeNode.expandStep p t move).rooted
      ∧ (TreeNode.expandStep p t move).length = t.length + 1
      ∧ ∀ k, k < t.length →
          ((TreeNode.expandStep p t move).node k).visits = (t.node k).visits := by
  obtain ⟨hlen, hnode⟩ := expandStep_node t p move hp
  obtain ⟨h1, h2, h3, h4⟩ := h
  refine ⟨⟨by omega, ?_, ?_, ?_⟩, hlen, ?_⟩
  · rw [hnode]
    by_cases h0 : 0 = p
    · simp only [h0, if_true]
      rw [← h0]
      exact h2
    · have h0l : ¬ 0 = t.length := by omega
      simp only [h0, h0l, if_false]
      exact h2
  · intro k hk0 hk
    rw [hnode]
    by_cases hkp : k = p
    · simp only [hkp, if_true]
      exact h3 p (by omega) hp
    · by_cases hkl : k = t.length
      · simp only [hkp, hkl, if_true, if_false]
        refine ⟨p, ?_, hp⟩
        have : ¬ t.length = p := by omega
        simp [this]
      · simp only [hkp, hkl, if_false]
        exact h3 k hk0 (by omega)
  · intro k hk c hc
    rw [hnode] at hc
    rw [hlen]
    by_cases hkp : k = p
    · simp only [hkp, if_true, List.mem_append, List.mem_singleton] at hc
      rcases hc with hc | hc
      · have := h4 p hp c hc
        omega
      · omega
    · by_cases hkl : k = t.length
      · simp only [hkp, hkl, if_true, if_false] at hc
        have : ¬ t.length = p := by omega
        simp [this] at hc
      · simp only [hkp, hkl, if_false] at hc
        have := h4 k (by omega) c hc
        omega
  · intro k hk
    rw [hnode]
    by_cases hkp : k = p
    · simp only [hkp, if_true]
    · have hkl : ¬ k = t.length := by omega
      simp only [hkp, hkl, if_false]

theorem foldl_expandStep_rooted (ms : List Nat) (t : Arena) (p : Nat) (hp : p < t.length)
    (h : t.rooted) :
    (ms.foldl (TreeNode.expandStep p) t).rooted
      ∧ t.length ≤ (ms.foldl (TreeNode.expandStep p) t).length
      ∧ ∀ k, k < t.length →
          ((ms.foldl (TreeNode.expandStep p) t).node k).visits = (t.node k).visits := by
  induction ms generalizing t with
  | nil => exact ⟨h, le_refl _, fun _ _ => rfl⟩
  | cons m rest ih =>
    obtain ⟨hr, hl, hv⟩ := expandStep_rooted t p m hp h
    obtain ⟨hr', hl', hv'⟩ := ih (TreeNode.expandStep p t m) (by omega) hr
    simp only [List.foldl_cons]
    refine ⟨hr', by omega, ?_⟩
    intro k hk
    rw [hv' k (by omega), hv k hk]

theorem select_in_heap (ext : Externals) (fuel : Nat) (t : Arena) (n : Nat) (h : t.rooted)
    (hn : n < t.length) : MCTS.select_promising_node ext fuel t n < t.length := by
  induction fuel generalizing n with
  | zero => exact hn
  | succ f ih =>
    unfold MCTS.select_promising_node
    split
    · cases hb : UCT.best_node_uct ext t n with
      | none => exact hn
      | some c =>
        simp only []
        apply ih
        unfold UCT.best_node_uct at hb
        exact h.2.2.2 n hn c (List.getElem?_mem hb)
    · exact hn

theorem simulate_playout_frame (ext : Externals) (rand : Nat → Nat) (opponent : Int)
    (t : Arena) (node calls : Nat) :
    (MCTS.simulate_playout ext rand opponent t node calls).1.length = t.length
      ∧ ∀ k, ((MCTS.simulate_playout ext rand opponent t node calls).1.node k).parent
            = (t.node k).parent
          ∧ ((MCTS.simulate_playout ext rand opponent t node calls).1.node k).children
            = (t.node k).children
          ∧ ((MCTS.simulate_playout ext rand opponent t node calls).1.node k).visits
            = (t.node k).visits := by
  obtain ⟨w, calls', _, hs⟩ := simulate_playout_cases ext rand opponent t node calls
  rcases hs with hs | ⟨parent, _, hs⟩
  · rw [hs]
    exact ⟨rfl, fun k => ⟨rfl, rfl, rfl⟩⟩
  · rw [hs]
    simp only []
    refine ⟨Arena.length_update _ _ _, ?_⟩
    intro k
    rw [Arena.node_update]
    split <;> rename_i hk
    · rw [hk.1]; exact ⟨rfl, rfl, rfl⟩
    · exact ⟨rfl, rfl, rfl⟩

theorem backpropagate_root_visit (fuel : Nat) (t : Arena) (k : Nat) (w : Int) (h : t.rooted)
    (hk : k < t.length) (hf : k < fuel) :
    ((MCTS.backpropagate fuel t (some k) w).node 0).visits = (t.node 0).visits + 1 := by
  induction fuel generalizing t k with
  | zero => omega
  | succ f ih =>
    rw [backpropagate_succ]
    have hpar : ∀ j, ((t.update k (fun nd =>
          { nd with
            visits := nd.visits + 1
            winScore := if nd.playerNo = w then nd.winScore + WIN_SCORE
              else nd.winScore })).node j).parent = (t.node j).parent :=
      fun j => parent_update_counters t k j _ (fun _ => rfl)
    have hch : ∀ j, ((t.update k (fun nd =>
          { nd with
            visits := nd.visits + 1
            winScore := if nd.playerNo = w then nd.winScore + WIN_SCORE
              else nd.winScore })).node j).children = (t.node j).children := by
      intro j
      rw [Arena.node_update]
      split <;> rename_i hj
      · rw [hj.1]
      · rfl
    have hr := rooted_of_same_links t _ (Arena.length_update t k _) hpar hch h
    rw [hpar k]
    by_cases hk0 : k = 0
    · subst hk0
      rw [h.2.1, backpropagate_none, Arena.node_update_self t _ hk]
    · obtain ⟨q, hq, hqk⟩ := h.2.2.1 k (by omega) hk
      rw [hq, ih _ q hr (by rw [Arena.length_update]; omega) (by omega),
        Arena.node_update_ne t _ (fun e => hk0 e.symm)]

/-- One pass of the search loop on a heap built from a fresh root keeps the shape of the heap
and adds one visit to the root. -/
theorem iteration_root_visit (ext : Externals) (rand : Nat → Nat) (opponent : Int)
    (st : Arena × Nat) (h : st.1.rooted) :
    (MCTS.iteration ext rand opponent 0 st).1.rooted
      ∧ ((MCTS.iteration ext rand opponent 0 st).1.node 0).visits
          = (st.1.node 0).visits + 1 := by
  have hsel := select_in_heap ext st.1.length st.1 0 h h.1
  have hexp : ∀ t1 : Arena,
      t1 = (if (!(st.1.node (MCTS.select_promising_node ext st.1.length st.1 0)).board.is_game_over)
          = true then TreeNode.expand st.1 (MCTS.select_promising_node ext st.1.length st.1 0)
        else st.1) →
      t1.rooted ∧ st.1.length ≤ t1.length ∧ (t1.node 0).visits = (st.1.node 0).visits := by
    intro t1 ht1
    split at ht1
    · rw [ht1, expand_eq_foldl]
      obtain ⟨a, b, c⟩ := foldl_expandStep_rooted
        (st.1.node (MCTS.select_promising_node ext st.1.length st.1 0)).board.legal_moves
        st.1 _ hsel h
      exact ⟨a, b, c 0 h.1⟩
    · rw [ht1]
      exact ⟨h, le_refl _, rfl⟩
  unfold MCTS.iteration
  simp only []
  obtain ⟨hr1, hl1, hv1⟩ := hexp _ rfl
  generalize (if (!(st.1.node (MCTS.select_promising_node ext st.1.length st.1 0)).board.is_game_over)
          = true then TreeNode.expand st.1 (MCTS.select_promising_node ext st.1.length st.1 0)
        else st.1) = t1 at hr1 hl1 hv1 ⊢
  have hp1 : MCTS.select_promising_node ext st.1.length st.1 0 < t1.length := by omega
  generalize MCTS.select_promising_node ext st.1.length st.1 0 = p at hp1 ⊢
  have hpick : ∀ pick : Nat × Nat,
      pick = (if ((t1.node p).children.length != 0) = true then
          ((TreeNode.random_child t1 p (rand st.2)).getD p, st.2 + 1) else (p, st.2)) →
      pick.1 < t1.length := by
    intro pick hpk
    split at hpk
    · rw [hpk]
      simp only []
      cases hrc : TreeNode.random_child t1 p (rand st.2) with
      | none => exact hp1
      | some c =>
        unfold TreeNode.random_child at hrc
        exact hr1.2.2.2 p hp1 c (List.getElem?_mem hrc)
    · rw [hpk]
      exact hp1
  have hpk := hpick _ rfl
  generalize (if ((t1.node p).children.length != 0) = true then
          ((TreeNode.random_child t1 p (rand st.2)).getD p, st.2 + 1) else (p, st.2)) = pick
    at hpk ⊢
  obtain ⟨hsl, hsk⟩ := simulate_playout_frame ext rand opponent t1 pick.1 pick.2
  have hr2 : (MCTS.simulate_playout ext rand opponent t1 pick.1 pick.2).1.rooted :=
    rooted_of_same_links t1 _ hsl (fun k => (hsk k).1) (fun k => (hsk k).2.1) hr1
  obtain ⟨hbl, hbk⟩ := backpropagate_frame
    (MCTS.simulate_playout ext rand opponent t1 pick.1 pick.2).1.length
    (MCTS.simulate_playout ext rand opponent t1 pick.1 pick.2).1 (some pick.1)
    (MCTS.simulate_playout ext rand opponent t1 pick.1 pick.2).2.1
  refine ⟨rooted_of_same_links _ _ hbl (fun k => (hbk k).1) (fun k => (hbk k).2.1) hr2, ?_⟩
  rw [backpropagate_root_visit _ _ pick.1 _ hr2 (by omega) (by omega), (hsk 0).2.2, hv1]

theorem fresh_root_rooted (board : State) :
    Arena.rooted [{ TreeNode.new board with playerNo := -board.turn }] := by
  refine ⟨by simp, rfl, ?_, ?_⟩
  · intro k hk0 hk
    simp at hk
    omega
  · intro k hk c hc
    simp at hk
    subst hk
    simp [Arena.node, TreeNode.new] at hc

theorem iterate_root_visits (ext : Externals) (rand : Nat → Nat) (opponent : Int) (N : Nat)
    (st : Arena × Nat) (h : st.1.rooted) :
    (Nat.iterate (MCTS.iteration ext rand opponent 0) N st).1.rooted
      ∧ ((Nat.iterate (MCTS.iteration ext rand opponent 0) N st).1.node 0).visits
          = (st.1.node 0).visits + N := by
  induction N generalizing st with
  | zero => exact ⟨h, by simp⟩
  | succ n ih =>
    obtain ⟨hr, hv⟩ := iteration_root_visit ext rand opponent st h
    obtain ⟨hr', hv'⟩ := ih (MCTS.iteration ext rand opponent 0 st) hr
    simp only [Nat.iterate]
    refine ⟨hr', ?_⟩
    rw [hv', hv]
    push_cast
    ring

theorem prune_visits (ext : Externals) (t : Arena) (P : Nat) (target : State) (k : Nat) :
    ((MCTS.prune ext t P target).1.node k).visits = (t.node k).visits := by
  unfold MCTS.prune
  split
  · simp only []
    rw [Arena.node_update]
    split <;> rename_i hk
    · rw [hk.1]
    · rfl
  · rfl

/-- C20. Starting from a fresh root wrapping a position that is not game over, after `N`
complete passes of the search loop the visit count of the root is `N`, for every `N`, every
sequence of values of `rand()` and every choice of the parts the sources do not define; the same
holds of the root in the tree that `find_best_next_board` leaves. -/
theorem root_visits_eq_iterations (ext : Externals) (rand : Nat → Nat) (N : Nat)
    (board : State) (_hboard : board.is_game_over = false) :
    ((Nat.iterate (MCTS.iteration ext rand (-board.turn) 0) N
        ([{ TreeNode.new board with playerNo := -board.turn }], 0)).1.node 0).visits = N
      ∧ ((MCTS.find_best_next_board ext rand N [] none board).tree.node 0).visits = N := by
  have hmain := (iterate_root_visits ext rand (-board.turn) N
    ([{ TreeNode.new board with playerNo := -board.turn }], 0) (fresh_root_rooted board)).2
  have h0 : ((([{ TreeNode.new board with playerNo := -board.turn }], 0) :
      Arena × Nat).1.node 0).visits = 0 := rfl
  rw [h0, zero_add] at hmain
  refine ⟨hmain, ?_⟩
  unfold MCTS.find_best_next_board
  simp only [List.nil_append, List.length_nil]
  split
  · exact hmain
  · simp only []
    rw [prune_visits]
    exact hmain

/-- Witness of C20: the initial position, three passes, `rand()` always 1. -/
theorem root_visits_eq_iterations_witness :
    State.init.is_game_over = false
      ∧ ((MCTS.find_best_next_board sampleExternals (fun _ => 1) 3 [] none
          State.init).tree.node 0).visits = 3 :=
  ⟨by decide!,
    (root_visits_eq_iterations sampleExternals (fun _ => 1) 3 State.init (by decide!)).2⟩

/-! ## The children that `expand` creates -/

theorem testBit_bnot32 (y c : Nat) (hc : c < 32) :
    (Board.bnot32 y).testBit c = !y.testBit c := by
  unfold Board.bnot32
  rw [Nat.testBit_xor, Nat.testBit_two_pow_sub_one, Nat.testBit_mod_two_pow]
  simp [hc]

theorem board_filled_play (b : Board.State) (i : Nat) (turn : Int) (c : Nat) :
    (b.play i turn).pos_filled c = (b.pos_filled c || decide (c = i)) := by
  rw [pos_filled_eq_testBit, pos_filled_eq_testBit]
  unfold Board.State.play
  by_cases h : turn = 1
  · simp only [h, if_true, Nat.testBit_or, testBit_one_shiftLeft]
    cases b.position0.testBit c <;> cases b.position1.testBit c <;> simp
  · simp only [h, if_false, Nat.testBit_or, testBit_one_shiftLeft]
    cases b.position0.testBit c <;> cases b.position1.testBit c <;> simp

theorem board_filled_play_unplay (b : Board.State) (i : Nat) (turn : Int) (c : Nat)
    (hc : c < 32) :
    ((b.play i turn).unplay i turn).pos_filled c = (b.pos_filled c || decide (c = i)) := by
  rw [pos_filled_eq_testBit, pos_filled_eq_testBit]
  unfold Board.State.play Board.State.unplay
  by_cases h : turn = 1
  · simp only [h, if_true, Nat.testBit_or, Nat.testBit_and, testBit_one_shiftLeft,
      testBit_bnot32 _ c hc]
    by_cases hci : c = i <;>
      cases b.position0.testBit c <;> cases b.position1.testBit c <;> simp [hci]
  · simp only [h, if_false, Nat.testBit_or, Nat.testBit_and, testBit_one_shiftLeft,
      testBit_bnot32 _ c hc]
    by_cases hci : c = i <;>
      cases b.position0.testBit c <;> cases b.position1.testBit c <;> simp [hci]

/-- After `play(m)` the empty cells are the cells that were empty, other than `m`. -/
theorem cellEmpty_play (s : State) (m k : Nat) (hk : k ≤ 80) :
    (s.play m).cellEmpty k = (s.cellEmpty k && decide (k ≠ m)) := by
  have h9 : k / 9 % 9 = k / 9 := Nat.mod_eq_of_lt (by omega)
  unfold State.cellEmpty State.boardAt State.play
  simp only [h9]
  by_cases hb : k / 9 = m / 9
  · simp only [hb, if_true, board_filled_play]
    have : (k % 9 = m % 9) ↔ k = m := by omega
    by_cases hkm : k = m
    · simp [hkm]
    · have h2 : ¬ k % 9 = m % 9 := fun e => hkm (this.1 e)
      simp [hkm, h2]
  · have hkm : ¬ k = m := fun e => hb (by rw [e])
    simp [hb, hkm]

/-- After `play(m); unplay()` the empty cells are the same as after `play(m)`: the cells that
were empty, other than `m`. -/
theorem cellEmpty_play_unplay (s : State) (m k : Nat) (hk : k ≤ 80) :
    ((s.play m).unplay).cellEmpty k = (s.cellEmpty k && decide (k ≠ m)) := by
  have h9 : k / 9 % 9 = k / 9 := Nat.mod_eq_of_lt (by omega)
  rw [unplay_play]
  unfold State.cellEmpty State.boardAt
  simp only [h9]
  by_cases hb : k / 9 = m / 9
  · simp only [hb, if_true, board_filled_play_unplay _ _ _ _ (show k % 9 < 32 by omega)]
    have : (k % 9 = m % 9) ↔ k = m := by omega
    by_cases hkm : k = m
    · simp [hkm]
    · have h2 : ¬ k % 9 = m % 9 := fun e => hkm (this.1 e)
      simp [hkm, h2]
  · have hkm : ¬ k = m := fun e => hb (by rw [e])
    simp [hb, hkm]

/-- The empty cells after a run of `play(m); unplay()` pairs: the cells that were empty and
are none of the moves. -/
theorem cellEmpty_foldl_play_unplay (ms : List Nat) (s : State) (k : Nat) (hk : k ≤ 80) :
    (ms.foldl (fun b m => (b.play m).unplay) s).cellEmpty k
      = (s.cellEmpty k && decide (k ∉ ms)) := by
  induction ms generalizing s with
  | nil => simp
  | cons m rest ih =>
    simp only [List.foldl_cons]
    rw [ih, cellEmpty_play_unplay s m k hk]
    by_cases hkm : k = m
    · simp [hkm]
    · by_cases hkr : k ∈ rest
      · simp [hkm, hkr]
      · simp [hkm, hkr]

/-- The heap after the loop of `expand()` has run over the moves `ms` on the node at `p`: one
new node per move, appended in order; the node at `p` has the new nodes appended to its children
and carries the state left by the `play(m); unplay()` pairs; the child for the move at position
`i` wraps the state in which the loop played that move; every other node is unchanged. -/
theorem foldl_expandStep_spec (ms : List Nat) (t : Arena) (p : Nat) (hp : p < t.length) :
    (ms.foldl (TreeNode.expandStep p) t).length = t.length + ms.length
      ∧ (ms.foldl (TreeNode.expandStep p) t).node p
          = { t.node p with
              board := ms.foldl (fun b m => (b.play m).unplay) (t.node p).board
              children := (t.node p).children ++ List.range' t.length ms.length }
      ∧ (∀ k, k < t.length → k ≠ p → (ms.foldl (TreeNode.expandStep p) t).node k = t.node k)
      ∧ (∀ (i : Nat) (m : Nat), ms[i]? = some m →
          (ms.foldl (TreeNode.expandStep p) t).node (t.length + i)
            = { winScore := 0, visits := 0, playerNo := -(t.node p).playerNo,
                board := ((ms.take i).foldl (fun b m => (b.play m).unplay)
                  (t.node p).board).play m,
                parent := some p, children := [] }) := by
  induction ms generalizing t with
  | nil =>
    refine ⟨rfl, ?_, fun _ _ _ => rfl, ?_⟩
    · simp
    · intro i m h
      simp at h
  | cons m0 rest ih =>
    obtain ⟨hlen, hnode⟩ := expandStep_node t p m0 hp
    obtain ⟨h1, h2, h3, h4⟩ := ih (TreeNode.expandStep p t m0) (by omega)
    have hpl : ¬ p = t.length := by omega
    have hnp : (TreeNode.expandStep p t m0).node p
        = { t.node p with
            board := ((t.node p).board.play m0).unplay
            children := (t.node p).children ++ [t.length] } := by
      rw [hnode]; simp
    simp only [List.foldl_cons]
    refine ⟨?_, ?_, ?_, ?_⟩
    · rw [h1, hlen, List.length_cons]; omega
    · rw [h2, hnp, hlen]
      simp [List.range'_succ]
    · intro k hk hkp
      rw [h3 k (by omega) hkp, hnode]
      have : ¬ k = t.length := by omega
      simp [hkp, this]
    · intro i m hi
      cases i with
      | zero =>
        simp only [List.getElem?_cons_zero, Option.some.injEq] at hi
        rw [Nat.add_zero, h3 t.length (by omega) (fun e => hpl e.symm), hnode]
        have hlp : ¬ t.length = p := fun e => hpl e.symm
        simp [hlp, hi]
      | succ j =>
        simp only [List.getElem?_cons_succ] at hi
        have := h4 j m hi
        rw [hlen] at this
        rw [show t.length + (j + 1) = t.length + 1 + j by omega, this, hnp]
        simp

theorem legal_moves_pairwise (s : State) : s.legal_moves.Pairwise (· < ·) := by
  rw [legal_moves_eq_filter]
  exact List.Pairwise.filter _ (List.pairwise_lt_range 81)

theorem legal_moves_lt_of_index (s : State) (i j mi mj : Nat) (hij : i < j)
    (hi : s.legal_moves[i]? = some mi) (hj : s.legal_moves[j]? = some mj) : mi < mj := by
  obtain ⟨hi1, hi2⟩ := List.getElem?_eq_some.1 hi
  obtain ⟨hj1, hj2⟩ := List.getElem?_eq_some.1 hj
  have := List.pairwise_iff_getElem.1 (legal_moves_pairwise s) i j hi1 hj1 hij
  rw [hi2, hj2] at this
  exact this

/-- C24. For every node of the heap that has no children, after `expand()` the children of the
node are the nodes created by the call, one per element of `legal_moves()` of its state before
the call; each child has no children, zero visits, zero win-score, the expanded node as parent
and the opposite of the expanded node's credited player, which `expand()` leaves unchanged. -/
theorem expand_creates_children (t : Arena) (p : Nat) (hp : p < t.length)
    (hleaf : (t.node p).children = []) :
    ((TreeNode.expand t p).node p).children.length = (t.node p).board.legal_moves.length
      ∧ ((TreeNode.expand t p).node p).children
          = List.range' t.length (t.node p).board.legal_moves.length
      ∧ ((TreeNode.expand t p).node p).playerNo = (t.node p).playerNo
      ∧ ∀ c ∈ ((TreeNode.expand t p).node p).children,
          ((TreeNode.expand t p).node c).children = []
            ∧ ((TreeNode.expand t p).node c).visits = 0
            ∧ ((TreeNode.expand t p).node c).winScore = 0
            ∧ ((TreeNode.expand t p).node c).parent = some p
            ∧ ((TreeNode.expand t p).node c).playerNo
                = -((TreeNode.expand t p).node p).playerNo := by
  rw [expand_eq_foldl]
  obtain ⟨_, h2, _, h4⟩ := foldl_expandStep_spec (t.node p).board.legal_moves t p hp
  have hch : ((List.foldl (TreeNode.expandStep p) t (t.node p).board.legal_moves).node p).children
      = List.range' t.length (t.node p).board.legal_moves.length := by
    rw [h2, hleaf, List.nil_append]
  have hpl : ((List.foldl (TreeNode.expandStep p) t (t.node p).board.legal_moves).node p).playerNo
      = (t.node p).playerNo := by
    rw [h2]
  refine ⟨by rw [hch, List.length_range'], hch, hpl, ?_⟩
  intro c hc
  rw [hch, List.mem_range'_1] at hc
  obtain ⟨hc1, hc2⟩ := hc
  have hi : c - t.length < (t.node p).board.legal_moves.length := by omega
  have hget : (t.node p).board.legal_moves[c - t.length]?
      = some ((t.node p).board.legal_moves[c - t.length]) := List.getElem?_eq_getElem hi
  have h := h4 (c - t.length) _ hget
  rw [show t.length + (c - t.length) = c by omega] at h
  rw [h, hpl]
  exact ⟨rfl, rfl, rfl, rfl, rfl⟩

/-- Witness of C24: the fresh root of the initial position; `expand()` gives it 81 children. -/
theorem expand_creates_children_witness :
    (0 : Nat) < [freshRoot].length ∧ (Arena.node [freshRoot] 0).children = []
      ∧ ((TreeNode.expand [freshRoot] 0).node 0).children.length = 81
      ∧ ((TreeNode.expand [freshRoot] 0).node 0).children = List.range' 1 81 :=
  ⟨by decide, by decide,
    (expand_creates_children [freshRoot] 0 (by decide) (by decide)).1.trans (by decide!),
    (expand_creates_children [freshRoot] 0 (by decide) (by decide)).2.1.trans (by decide!)⟩

/-- C25: what the code does. For every node of the heap that has no children, with state `s`
and `legal_moves()` of `s` equal to `[m_0, ..., m_(k-1)]`, after `expand()` the first child wraps
`s` with `m_0` played, and for every `i < j` the child at position `j` wraps a state in which the
cell of the earlier move `m_i`, empty in `s` and empty after `m_j` alone is played from `s`, is
filled: the state of every child after the first is not `s` with the single move `m_j` played. -/
theorem expand_child_state_accumulates (t : Arena) (p : Nat) (hp : p < t.length)
    (hleaf : (t.node p).children = []) :
    (∀ (c m : Nat), ((TreeNode.expand t p).node p).children[0]? = some c →
        (t.node p).board.legal_moves[0]? = some m →
        ((TreeNode.expand t p).node c).board = (t.node p).board.play m)
      ∧ ∀ (i j c mi mj : Nat), i < j →
          ((TreeNode.expand t p).node p).children[j]? = some c →
          (t.node p).board.legal_moves[i]? = some mi →
          (t.node p).board.legal_moves[j]? = some mj →
          (t.node p).board.cellEmpty mi = true
            ∧ ((t.node p).board.play mj).cellEmpty mi = true
            ∧ ((TreeNode.expand t p).node c).board.cellEmpty mi = false
            ∧ ((TreeNode.expand t p).node c).board ≠ (t.node p).board.play mj := by
  rw [expand_eq_foldl]
  obtain ⟨_, h2, _, h4⟩ := foldl_expandStep_spec (t.node p).board.legal_moves t p hp
  have hch : ((List.foldl (TreeNode.expandStep p) t (t.node p).board.legal_moves).node p).children
      = List.range' t.length (t.node p).board.legal_moves.length := by
    rw [h2, hleaf, List.nil_append]
  have hidx : ∀ (j c : Nat),
      ((List.foldl (TreeNode.expandStep p) t (t.node p).board.legal_moves).node p).children[j]?
        = some c → c = t.length + j := by
    intro j c hc
    rw [hch] at hc
    obtain ⟨hj1, hj2⟩ := List.getElem?_eq_some.1 hc
    rw [List.getElem_range'] at hj2
    omega
  constructor
  · intro c m hc hm
    rw [hidx 0 c hc, h4 0 m hm]
    rfl
  · intro i j c mi mj hij hc hi hj
    have hlt := legal_moves_lt_of_index _ i j mi mj hij hi hj
    obtain ⟨hmi80, hmie, _⟩ := mem_legal_moves_open _ mi (List.getElem?_mem hi)
    have hplay : ((t.node p).board.play mj).cellEmpty mi = true := by
      rw [cellEmpty_play _ _ _ hmi80, hmie]
      simp
      omega
    have hmem : mi ∈ (t.node p).board.legal_moves.take j := by
      apply List.getElem?_mem (n := i)
      rw [List.getElem?_take_of_lt hij]
      exact hi
    have hchild : ((List.foldl (TreeNode.expandStep p) t
        (t.node p).board.legal_moves).node c).board.cellEmpty mi = false := by
      rw [hidx j c hc, h4 j mj hj]
      simp only []
      rw [cellEmpty_play _ _ _ hmi80, cellEmpty_foldl_play_unplay _ _ _ hmi80]
      simp [hmem]
    refine ⟨hmie, hplay, hchild, ?_⟩
    intro heq
    rw [heq, hplay] at hchild
    cases hchild

/-- Witness of C25: the fresh root of the initial position. The third child (heap index 3) is
the child for move 2; in its state cell 0 of sub-board 0 is filled. -/
theorem expand_child_state_accumulates_witness :
    (0 : Nat) < [freshRoot].length ∧ (Arena.node [freshRoot] 0).children = []
      ∧ (State.init.play 2).cellEmpty 0 = true
      ∧ ((TreeNode.expand [freshRoot] 0).node 3).board.cellEmpty 0 = false
      ∧ ((TreeNode.expand [freshRoot] 0).node 3).board ≠ State.init.play 2
      ∧ (((TreeNode.expand [freshRoot] 0).node 3).board.metaposition 0).position0 = 7
      ∧ ((State.init.play 2).metaposition 0).position0 = 4 :=
  ⟨by decide, by decide,
    ((expand_child_state_accumulates [freshRoot] 0 (by decide) (by decide)).2 0 2 3 0 2
      (by decide) (by decide!) (by decide!) (by decide!)).2.1,
    ((expand_child_state_accumulates [freshRoot] 0 (by decide) (by decide)).2 0 2 3 0 2
      (by decide) (by decide!) (by decide!) (by decide!)).2.2.1,
    ((expand_child_state_accumulates [freshRoot] 0 (by decide) (by decide)).2 0 2 3 0 2
      (by decide) (by decide!) (by decide!) (by decide!)).2.2.2,
    by decide!, by decide!⟩

/-- C26: what the code does. For every node of the heap, after `expand()` every move of
`legal_moves()` of the state `s` the node wrapped before the call is absent from
`legal_moves()` of the state the node wraps afterwards, so whatever `best_child_as_move()` reads
there is not a move of `legal_moves()` of `s`. For the fresh root of the initial position the
node has 81 children and `legal_moves()` of its state is empty afterwards: the index that
`best_child_as_move()` uses is outside the list. -/
theorem best_child_as_move_after_expand (t : Arena) (p : Nat) (hp : p < t.length) :
    (∀ m ∈ (t.node p).board.legal_moves,
        m ∉ ((TreeNode.expand t p).node p).board.legal_moves)
      ∧ (∀ a, TreeNode.best_child_as_move (TreeNode.expand t p) p = some a →
          a ∉ (t.node p).board.legal_moves)
      ∧ (firstExpansion.node 0).children.length = 81
      ∧ (firstExpansion.node 0).board.legal_moves = []
      ∧ TreeNode.best_child_as_move firstExpansion 0 = none := by
  have hmain : ∀ m ∈ (t.node p).board.legal_moves,
      m ∉ ((TreeNode.expand t p).node p).board.legal_moves := by
    intro m hm hm'
    obtain ⟨hm80, _, _⟩ := mem_legal_moves_open _ m hm
    obtain ⟨_, he, _⟩ := mem_legal_moves_open _ m hm'
    rw [expand_eq_foldl, (foldl_expandStep_spec (t.node p).board.legal_moves t p hp).2.1] at he
    simp only [] at he
    rw [cellEmpty_foldl_play_unplay _ _ _ hm80] at he
    simp [hm] at he
  refine ⟨hmain, ?_, by decide!, by decide!, by decide!⟩
  intro a ha hmem
  unfold TreeNode.best_child_as_move at ha
  exact hmain a hmem (List.getElem?_mem ha)

/-- Witness of C26: a root wrapping the position after move 0. The position has the eight legal
moves 1 .. 8; after `expand()` the root has eight children, `legal_moves()` of its state lists
the nine cells of sub-board 8, and `best_child_as_move()` returns 72. -/
theorem best_child_as_move_after_expand_witness :
    (State.init.play 0).legal_moves = [1, 2, 3, 4, 5, 6, 7, 8]
      ∧ ((TreeNode.expand [TreeNode.new (State.init.play 0)] 0).node 0).children.length = 8
      ∧ ((TreeNode.expand [TreeNode.new (State.init.play 0)] 0).node 0).board.legal_moves.length
          = 9
      ∧ TreeNode.best_child_as_move (TreeNode.expand [TreeNode.new (State.init.play 0)] 0) 0
          = some 72
      ∧ 72 ∉ (Arena.node [TreeNode.new (State.init.play 0)] 0).board.legal_moves :=
  ⟨by decide!, by decide!, by decide!, by decide!,
    (best_child_as_move_after_expand [TreeNode.new (State.init.play 0)] 0 (by decide)).2.1 72
      (by decide!)⟩

/-! ## The rollout loop -/

theorem countP_or_eq_succ {α : Type} [DecidableEq α] (p : α → Bool) (m : α) (l : List α)
    (hl : l.Nodup) (hm : m ∈ l) (hp : p m = false) :
    l.countP (fun k => p k || decide (k = m)) = l.countP p + 1 := by
  induction l with
  | nil => simp at hm
  | cons a rest ih =>
    rw [List.nodup_cons] at hl
    obtain ⟨ha, hrest⟩ := hl
    by_cases ham : a = m
    · subst ham
      have hcongr : rest.countP (fun k => p k || decide (k = a)) = rest.countP p := by
        apply List.countP_congr
        intro k hk
        have hka : ¬ k = a := fun e => ha (e ▸ hk)
        simp [hka]
      rw [List.countP_cons, List.countP_cons, hcongr]
      simp [hp]
    · have hmr : m ∈ rest := by
        rcases List.mem_cons.1 hm with h | h
        · exact absurd h.symm ham
        · exact h
      rw [List.countP_cons, List.countP_cons, ih hrest hmr]
      simp [ham]
      omega

theorem occupied_le (s : State) : s.occupied ≤ 81 := by
  unfold State.occupied
  exact (List.countP_le_length _).trans (by simp)

/-- A move on an empty cell adds one to the number of occupied cells. -/
theorem occupied_play (s : State) (m : Nat) (hm : m ≤ 80) (he : s.cellEmpty m = true) :
    (s.play m).occupied = s.occupied + 1 := by
  unfold State.occupied
  rw [← countP_or_eq_succ (fun k => !s.cellEmpty k) m (List.range 81) (List.nodup_range 81)
    (List.mem_range.2 (by omega)) (by simp [he])]
  apply List.countP_congr
  intro k hk
  rw [List.mem_range] at hk
  rw [cellEmpty_play s m k (by omega)]
  by_cases hkm : k = m
  · simp [hkm]
  · simp [hkm]

theorem legal_moves_ne_nil_of_not_game_over (s : State) (h : s.is_game_over = false) :
    s.legal_moves.length ≠ 0 := by
  unfold State.is_game_over at h
  simp only [Bool.or_eq_false_iff] at h
  simpa using h.2

/-- A pass of the rollout loop on a state that is not game over: `random_play()` finds a
non-empty `legal_moves()` and plays one of its moves, on a cell that was empty. -/
theorem playout_step (rand : Nat → Nat) (fuel : Nat) (s : State) (calls : Nat)
    (h : s.is_game_over = false) :
    s.legal_moves.length ≠ 0
      ∧ ∃ m, s.legal_moves[rand calls % s.legal_moves.length]? = some m
          ∧ s.random_play (rand calls) = s.play m
          ∧ s.cellEmpty m = true
          ∧ (s.play m).occupied = s.occupied + 1
          ∧ MCTS.playout rand (fuel + 1) s calls = MCTS.playout rand fuel (s.play m) (calls + 1) := by
  have hne := legal_moves_ne_nil_of_not_game_over s h
  refine ⟨hne, ?_⟩
  have hlt : rand calls % s.legal_moves.length < s.legal_moves.length :=
    Nat.mod_lt _ (Nat.pos_of_ne_zero hne)
  have hget := List.getElem?_eq_getElem hlt
  obtain ⟨hm80, hme, _⟩ := mem_legal_moves_open s _ (List.getElem?_mem hget)
  have hrp : s.random_play (rand calls)
      = s.play (s.legal_moves[rand calls % s.legal_moves.length]) := by
    unfold State.random_play
    simp only [hget]
  refine ⟨_, hget, hrp, hme, occupied_play s _ hm80 hme, ?_⟩
  rw [← hrp]
  simp only [MCTS.playout, h]
  rfl

theorem game_over_of_occupied (s : State) (h : 81 ≤ s.occupied) : s.is_game_over = true := by
  cases hg : s.is_game_over with
  | true => rfl
  | false =>
    obtain ⟨_, m, _, _, _, ho, _⟩ := playout_step (fun _ => 0) 0 s 0 hg
    have := occupied_le (s.play m)
    omega

/-- The rollout loop with enough fuel ends on a state that is game over, after at most
`81 - occupied` calls of `random_play()`. -/
theorem playout_ends (rand : Nat → Nat) (fuel : Nat) (s : State) (calls : Nat)
    (hfuel : 81 - s.occupied ≤ fuel) :
    (MCTS.playout rand fuel s calls).1.is_game_over = true
      ∧ calls ≤ (MCTS.playout rand fuel s calls).2
      ∧ (MCTS.playout rand fuel s calls).2 - calls ≤ 81 - s.occupied := by
  induction fuel generalizing s calls with
  | zero =>
    simp only [MCTS.playout]
    exact ⟨game_over_of_occupied s (by omega), le_refl _, by omega⟩
  | succ f ih =>
    cases hg : s.is_game_over with
    | true =>
      have hp : MCTS.playout rand (f + 1) s calls = (s, calls) := by
        simp only [MCTS.playout, hg, if_true]
      rw [hp]
      exact ⟨hg, le_refl _, by simp⟩
    | false =>
      obtain ⟨_, m, _, _, _, ho, hstep⟩ := playout_step rand f s calls hg
      have hle := occupied_le (s.play m)
      rw [hstep]
      obtain ⟨h1, h2, h3⟩ := ih (s.play m) (calls + 1) (by omega)
      exact ⟨h1, by omega, by omega⟩

/-- Once the rollout loop has ended on a state that is game over, more fuel changes nothing. -/
theorem playout_fuel_stable (rand : Nat → Nat) (fuel extra : Nat) (s : State) (calls : Nat)
    (h : (MCTS.playout rand fuel s calls).1.is_game_over = true) :
    MCTS.playout rand (fuel + extra) s calls = MCTS.playout rand fuel s calls := by
  induction fuel generalizing s calls with
  | zero =>
    simp only [MCTS.playout] at h
    cases extra with
    | zero => rfl
    | succ e =>
      simp only [Nat.zero_add, MCTS.playout, h, if_true]
  | succ f ih =>
    rw [show f + 1 + extra = (f + extra) + 1 by omega]
    cases hg : s.is_game_over with
    | true => simp only [MCTS.playout, hg, if_true]
    | false =>
      simp only [MCTS.playout, hg] at h ⊢
      exact ih _ _ h

/-- C29. For every state, every sequence of values of `rand()` and every fuel of at least 81
minus the number of occupied cells, the rollout loop ends on a state that is game over after at
most 81 minus the number of occupied cells calls of `random_play()`, and gives the same result
as with exactly that much fuel; and every pass of the loop that calls `random_play()` finds a
non-empty `legal_moves()` (the modulus is not zero) and plays one of its moves, which fills a
cell that was empty. -/
theorem playout_terminates (rand : Nat → Nat) (s : State) (calls fuel : Nat)
    (hfuel : 81 - s.occupied ≤ fuel) :
    (MCTS.playout rand fuel s calls).1.is_game_over = true
      ∧ calls ≤ (MCTS.playout rand fuel s calls).2
      ∧ (MCTS.playout rand fuel s calls).2 - calls ≤ 81 - s.occupied
      ∧ MCTS.playout rand fuel s calls = MCTS.playout rand (81 - s.occupied) s calls
      ∧ (∀ (s' : State) (calls' f : Nat), s'.is_game_over = false →
          s'.legal_moves.length ≠ 0
            ∧ ∃ m, s'.legal_moves[rand calls' % s'.legal_moves.length]? = some m
              ∧ s'.random_play (rand calls') = s'.play m
              ∧ s'.cellEmpty m = true
              ∧ (s'.play m).occupied = s'.occupied + 1
              ∧ MCTS.playout rand (f + 1) s' calls'
                  = MCTS.playout rand f (s'.play m) (calls' + 1)) := by
  obtain ⟨h1, h2, h3⟩ := playout_ends rand fuel s calls hfuel
  refine ⟨h1, h2, h3, ?_, fun s' calls' f h => playout_step rand f s' calls' h⟩
  have hst := playout_fuel_stable rand (81 - s.occupied) (fuel - (81 - s.occupied)) s calls
    (playout_ends rand _ s calls (le_refl _)).1
  rw [show 81 - s.occupied + (fuel - (81 - s.occupied)) = fuel by omega] at hst
  exact hst

/-- Witness of C29: the rollout from the initial position with the fuel 81 that
`simulate_playout` gives it and `rand()` always 0. -/
theorem playout_terminates_witness :
    81 - State.init.occupied ≤ 81
      ∧ (MCTS.playout (fun _ => 0) 81 State.init 0).1.is_game_over = true
      ∧ (MCTS.playout (fun _ => 0) 81 State.init 0).2 - 0 ≤ 81 - State.init.occupied :=
  ⟨by decide!, (playout_terminates (fun _ => 0) State.init 0 81 (by decide!)).1,
    (playout_terminates (fun _ => 0) State.init 0 81 (by decide!)).2.2.1⟩

/-! ## `simulate_playout` -/

/-- The two branches of `simulate_playout` on a node with a parent. -/
theorem simulate_playout_branches (ext : Externals) (rand : Nat → Nat) (opponent : Int)
    (t : Arena) (node calls parent : Nat) (hpar : (t.node node).parent = some parent) :
    ((ext.mem_setup (t.node node).board).evaluate = opponent →
        MCTS.simulate_playout ext rand opponent t node calls
          = (t.update parent (fun nd => { nd with winScore := INT_MIN }), opponent, calls))
      ∧ ((ext.mem_setup (t.node node).board).evaluate ≠ opponent →
        MCTS.simulate_playout ext rand opponent t node calls
          = (t, (MCTS.playout rand 81 (ext.mem_setup (t.node node).board) calls).1.evaluate,
              (MCTS.playout rand 81 (ext.mem_setup (t.node node).board) calls).2)) := by
  constructor
  · intro h
    unfold MCTS.simulate_playout
    simp only [h, if_true, hpar]
  · intro h
    unfold MCTS.simulate_playout
    simp only [h, if_false]

/-- The decomposition of a pass of the search loop into its steps. -/
theorem iteration_eq (ext : Externals) (rand : Nat → Nat) (opponent : Int) (rootNode : Nat)
    (st : Arena × Nat) :
    MCTS.iteration ext rand opponent rootNode st
      = (MCTS.backpropagate
          (MCTS.simulate_playout ext rand opponent (MCTS.expanded ext rootNode st)
            (MCTS.nodeToExplore ext rand rootNode st).1
            (MCTS.nodeToExplore ext rand rootNode st).2).1.length
          (MCTS.simulate_playout ext rand opponent (MCTS.expanded ext rootNode st)
            (MCTS.nodeToExplore ext rand rootNode st).1
            (MCTS.nodeToExplore ext rand rootNode st).2).1
          (some (MCTS.nodeToExplore ext rand rootNode st).1)
          (MCTS.simulate_playout ext rand opponent (MCTS.expanded ext rootNode st)
            (MCTS.nodeToExplore ext rand rootNode st).1
            (MCTS.nodeToExplore ext rand rootNode st).2).2.1,
        (MCTS.simulate_playout ext rand opponent (MCTS.expanded ext rootNode st)
            (MCTS.nodeToExplore ext rand rootNode st).1
            (MCTS.nodeToExplore ext rand rootNode st).2).2.2) := by
  rfl

/-- C23 (as stated) fails: in the tree built by two expansions from the position after 23
moves, with `opponent` 1, the node at heap index 9 has the parent 3, is credited to player 1
and its state evaluates to 1, which is not minus its credited player; `simulate_playout` takes
the forced-loss branch on it: it writes `INT_MIN` to the win-score of node 3 and returns 1
without a call of `rand()`. -/
theorem simulate_playout_credited_mover_counterexample :
    (State.init.playAll (metaWonPath.take 23)).turn = -1
      ∧ (forcedLossTree.node 9).parent = some 3
      ∧ (forcedLossTree.node 9).playerNo = 1
      ∧ (forcedLossTree.node 9).board.evaluate = 1
      ∧ (forcedLossTree.node 9).board.evaluate ≠ -(forcedLossTree.node 9).playerNo
      ∧ (forcedLossTree.node 3).winScore = 0
      ∧ ((MCTS.simulate_playout sampleExternals (fun _ => 0) 1 forcedLossTree 9 0).1.node
          3).winScore = INT_MIN
      ∧ (MCTS.simulate_playout sampleExternals (fun _ => 0) 1 forcedLossTree 9 0).2.1 = 1
      ∧ (MCTS.simulate_playout sampleExternals (fun _ => 0) 1 forcedLossTree 9 0).2.2 = 0 := by
  decide!

/-- C23 (amended). For every node with a parent, `simulate_playout` takes the forced-loss
branch exactly when `evaluate()` of the node's state (after `mem_setup`) equals the field
`opponent` of the search: it then writes `INT_MIN` to the parent's win-score and returns that
value without a rollout; in every other case it leaves the tree alone, runs the rollout loop,
which ends on a state that is game over, and returns `evaluate()` of that state. -/
theorem simulate_playout_short_circuit (ext : Externals) (rand : Nat → Nat) (opponent : Int)
    (t : Arena) (node calls parent : Nat) (hpar : (t.node node).parent = some parent) :
    ((ext.mem_setup (t.node node).board).evaluate = opponent →
        MCTS.simulate_playout ext rand opponent t node calls
          = (t.update parent (fun nd => { nd with winScore := INT_MIN }),
              (ext.mem_setup (t.node node).board).evaluate, calls))
      ∧ ((ext.mem_setup (t.node node).board).evaluate ≠ opponent →
        MCTS.simulate_playout ext rand opponent t node calls
          = (t, (MCTS.playout rand 81 (ext.mem_setup (t.node node).board) calls).1.evaluate,
              (MCTS.playout rand 81 (ext.mem_setup (t.node node).board) calls).2)
        ∧ (MCTS.playout rand 81 (ext.mem_setup (t.node node).board) calls).1.is_game_over
            = true) := by
  obtain ⟨h1, h2⟩ := simulate_playout_branches ext rand opponent t node calls parent hpar
  constructor
  · intro h
    rw [h1 h, h]
  · intro h
    exact ⟨h2 h, (playout_ends rand 81 _ calls (by omega)).1⟩

/-- Witness of C23 (amended): node 9 of the tree built by two expansions from the position
after 23 moves, with `opponent` 1. -/
theorem simulate_playout_short_circuit_witness :
    (forcedLossTree.node 9).parent = some 3
      ∧ (sampleExternals.mem_setup (forcedLossTree.node 9).board).evaluate = 1
      ∧ (MCTS.simulate_playout sampleExternals (fun _ => 0) 1 forcedLossTree 9 0).2.1 = 1 :=
  ⟨by decide!, by decide!,
    congrArg (fun r => r.2.1)
      ((simulate_playout_short_circuit sampleExternals (fun _ => 0) 1 forcedLossTree 9 0 3
        (by decide!)).1 (by decide!))⟩

/-- C30. For every node whose parent is a node of the heap: when `simulate_playout` takes the
forced-loss branch the parent becomes the same node with win-score `INT_MIN` (same visits,
state, credited player, parent and children), every other node is unchanged and the heap keeps
its length; when it does not, the tree is unchanged. -/
theorem simulate_playout_changes (ext : Externals) (rand : Nat → Nat) (opponent : Int)
    (t : Arena) (node calls parent : Nat) (hpar : (t.node node).parent = some parent)
    (hin : parent < t.length) :
    ((ext.mem_setup (t.node node).board).evaluate = opponent →
        (MCTS.simulate_playout ext rand opponent t node calls).1.length = t.length
          ∧ (MCTS.simulate_playout ext rand opponent t node calls).1.node parent
              = { t.node parent with winScore := INT_MIN }
          ∧ ∀ k, k ≠ parent →
              (MCTS.simulate_playout ext rand opponent t node calls).1.node k = t.node k)
      ∧ ((ext.mem_setup (t.node node).board).evaluate ≠ opponent →
        (MCTS.simulate_playout ext rand opponent t node calls).1 = t) := by
  obtain ⟨h1, h2⟩ := simulate_playout_branches ext rand opponent t node calls parent hpar
  constructor
  · intro h
    rw [h1 h]
    simp only []
    refine ⟨Arena.length_update _ _ _, ?_, ?_⟩
    · exact Arena.node_update_self t (fun nd => { nd with winScore := INT_MIN }) hin
    · intro k hk
      exact Arena.node_update_ne t _ hk
  · intro h
    rw [h2 h]

/-- Witness of C30: node 9 of the tree built by two expansions from the position after 23
moves, with `opponent` 1; the grandparent, node 0, is unchanged. -/
theorem simulate_playout_changes_witness :
    (forcedLossTree.node 9).parent = some 3 ∧ 3 < forcedLossTree.length
      ∧ (sampleExternals.mem_setup (forcedLossTree.node 9).board).evaluate = 1
      ∧ (MCTS.simulate_playout sampleExternals (fun _ => 0) 1 forcedLossTree 9 0).1.node 0
          = forcedLossTree.node 0 :=
  ⟨by decide!, by decide!, by decide!,
    ((simulate_playout_changes sampleExternals (fun _ => 0) 1 forcedLossTree 9 0 3
      (by decide!) (by decide!)).1 (by decide!)).2.2 0 (by decide)⟩

/-! ## The win-score across the steps of a pass of the search loop -/

theorem backpropagate_winScore_mono (fuel : Nat) (t : Arena) (p : Option Nat) (w : Int)
    (k : Nat) :
    (t.node k).winScore ≤ ((MCTS.backpropagate fuel t p w).node k).winScore := by
  induction fuel generalizing t p with
  | zero => exact le_refl _
  | succ n ih =>
    cases p with
    | none => exact le_refl _
    | some q =>
      rw [backpropagate_succ]
      refine le_trans ?_ (ih _ _)
      rw [Arena.node_update]
      split
      · rename_i h
        rw [h.1]
        simp only []
        split
        · unfold WIN_SCORE; omega
        · exact le_refl _
      · exact le_refl _

/-- What `expand()` leaves alone in the nodes that were in the heap: the counters, the credited
player and the parent pointer. -/
theorem expand_keeps_counters (t : Arena) (p : Nat) (hp : p < t.length) (k : Nat)
    (hk : k < t.length) :
    ((TreeNode.expand t p).node k).winScore = (t.node k).winScore
      ∧ ((TreeNode.expand t p).node k).visits = (t.node k).visits
      ∧ ((TreeNode.expand t p).node k).playerNo = (t.node k).playerNo
      ∧ ((TreeNode.expand t p).node k).parent = (t.node k).parent := by
  rw [expand_eq_foldl]
  obtain ⟨_, h2, h3, _⟩ := foldl_expandStep_spec (t.node p).board.legal_moves t p hp
  by_cases hkp : k = p
  · rw [hkp, h2]
    exact ⟨rfl, rfl, rfl, rfl⟩
  · rw [h3 k hk hkp]
    exact ⟨rfl, rfl, rfl, rfl⟩

/-- The win-score of a node after `simulate_playout`: unchanged, or `INT_MIN` when the
forced-loss branch was taken and the node is the parent of the simulated node. -/
theorem simulate_playout_winScore (ext : Externals) (rand : Nat → Nat) (opponent : Int)
    (t : Arena) (node calls k : Nat) :
    ((MCTS.simulate_playout ext rand opponent t node calls).1.node k).winScore
        = (t.node k).winScore
      ∨ ((ext.mem_setup (t.node node).board).evaluate = opponent
          ∧ (t.node node).parent = some k
          ∧ ((MCTS.simulate_playout ext rand opponent t node calls).1.node k).winScore
              = INT_MIN) := by
  by_cases h : (ext.mem_setup (t.node node).board).evaluate = opponent
  · cases hpar : (t.node node).parent with
    | none =>
      left
      unfold MCTS.simulate_playout
      simp only [h, if_true, hpar]
    | some parent =>
      rw [(simulate_playout_branches ext rand opponent t node calls parent hpar).1 h]
      simp only []
      rw [Arena.node_update]
      split
      · rename_i hk
        right
        rw [hk.1]
        exact ⟨h, rfl, rfl⟩
      · left
        rfl
  · left
    unfold MCTS.simulate_playout
    simp only [h, if_false]

theorem promisingNode_in_heap (ext : Externals) (rootNode : Nat) (st : Arena × Nat)
    (h : st.1.rooted) (hroot : rootNode < st.1.length) :
    MCTS.promisingNode ext rootNode st < st.1.length :=
  select_in_heap ext st.1.length st.1 rootNode h hroot

/-- What the `expand_node` step of a pass leaves alone in the nodes that were in the heap. -/
theorem expanded_keeps_counters (ext : Externals) (rootNode : Nat) (st : Arena × Nat)
    (h : st.1.rooted) (hroot : rootNode < st.1.length) (k : Nat) (hk : k < st.1.length) :
    ((MCTS.expanded ext rootNode st).node k).winScore = (st.1.node k).winScore
      ∧ ((MCTS.expanded ext rootNode st).node k).visits = (st.1.node k).visits
      ∧ ((MCTS.expanded ext rootNode st).node k).playerNo = (st.1.node k).playerNo
      ∧ ((MCTS.expanded ext rootNode st).node k).parent = (st.1.node k).parent := by
  unfold MCTS.expanded
  split
  · exact expand_keeps_counters st.1 _ (promisingNode_in_heap ext rootNode st h hroot) k hk
  · exact ⟨rfl, rfl, rfl, rfl⟩

/-- C22. For every tree, every fuel, every start pointer and every winner value, every node's
win-score after `backpropagate` is greater than or equal to its win-score before. Within a pass
of the search loop on a heap built from a fresh root: the `expand_node` step keeps the
win-score of every node of the heap; `simulate_playout` keeps the win-score of every node
except, when it takes the forced-loss branch, the parent of the simulated node, which gets
`INT_MIN`; so a node of the heap whose win-score after the pass is lower than before is the
parent of the simulated node in a pass that took the forced-loss branch. -/
theorem winScore_lowered_only_by_sentinel (ext : Externals) (rand : Nat → Nat)
    (opponent : Int) (rootNode : Nat) (st : Arena × Nat) (h : st.1.rooted)
    (hroot : rootNode < st.1.length) :
    (∀ (fuel : Nat) (t : Arena) (n : Option Nat) (w : Int) (k : Nat),
        (t.node k).winScore ≤ ((MCTS.backpropagate fuel t n w).node k).winScore)
      ∧ (∀ k, k < st.1.length →
          ((MCTS.expanded ext rootNode st).node k).winScore = (st.1.node k).winScore)
      ∧ (∀ k,
          ((MCTS.simulate_playout ext rand opponent (MCTS.expanded ext rootNode st)
              (MCTS.nodeToExplore ext rand rootNode st).1
              (MCTS.nodeToExplore ext rand rootNode st).2).1.node k).winScore
            = ((MCTS.expanded ext rootNode st).node k).winScore
          ∨ ((ext.mem_setup ((MCTS.expanded ext rootNode st).node
                (MCTS.nodeToExplore ext rand rootNode st).1).board).evaluate = opponent
              ∧ ((MCTS.expanded ext rootNode st).node
                  (MCTS.nodeToExplore ext rand rootNode st).1).parent = some k
              ∧ ((MCTS.simulate_playout ext rand opponent (MCTS.expanded ext rootNode st)
                  (MCTS.nodeToExplore ext rand rootNode st).1
                  (MCTS.nodeToExplore ext rand rootNode st).2).1.node k).winScore = INT_MIN))
      ∧ (∀ k, k < st.1.length →
          ((MCTS.iteration ext rand opponent rootNode st).1.node k).winScore
              < (st.1.node k).winScore →
          (ext.mem_setup ((MCTS.expanded ext rootNode st).node
              (MCTS.nodeToExplore ext rand rootNode st).1).board).evaluate = opponent
            ∧ ((MCTS.expanded ext rootNode st).node
                (MCTS.nodeToExplore ext rand rootNode st).1).parent = some k) := by
  refine ⟨backpropagate_winScore_mono, ?_, ?_, ?_⟩
  · intro k hk
    exact (expanded_keeps_counters ext rootNode st h hroot k hk).1
  · intro k
    exact simulate_playout_winScore ext rand opponent _ _ _ k
  · intro k hk hlt
    rw [iteration_eq] at hlt
    simp only [] at hlt
    have hmono := backpropagate_winScore_mono
      (MCTS.simulate_playout ext rand opponent (MCTS.expanded ext rootNode st)
        (MCTS.nodeToExplore ext rand rootNode st).1
        (MCTS.nodeToExplore ext rand rootNode st).2).1.length
      (MCTS.simulate_playout ext rand opponent (MCTS.expanded ext rootNode st)
        (MCTS.nodeToExplore ext rand rootNode st).1
        (MCTS.nodeToExplore ext rand rootNode st).2).1
      (some (MCTS.nodeToExplore ext rand rootNode st).1)
      (MCTS.simulate_playout ext rand opponent (MCTS.expanded ext rootNode st)
        (MCTS.nodeToExplore ext rand rootNode st).1
        (MCTS.nodeToExplore ext rand rootNode st).2).2.1 k
    have hexp := (expanded_keeps_counters ext rootNode st h hroot k hk).1
    rcases simulate_playout_winScore ext rand opponent (MCTS.expanded ext rootNode st)
      (MCTS.nodeToExplore ext rand rootNode st).1 (MCTS.nodeToExplore ext rand rootNode st).2 k
      with hs | ⟨h1, h2, _⟩
    · rw [hs, hexp] at hmono
      omega
    · exact ⟨h1, h2⟩

/-- Witness of C22: the first pass from the fresh root of the initial position, with `rand()`
always 1: the win-score of the root is not lowered. -/
theorem winScore_lowered_only_by_sentinel_witness :
    Arena.rooted [freshRoot] ∧ 0 < [freshRoot].length
      ∧ (Arena.node [freshRoot] 0).winScore
          ≤ ((MCTS.backpropagate 1 [freshRoot] (some 0) 1).node 0).winScore :=
  ⟨fresh_root_rooted State.init, by decide,
    (winScore_lowered_only_by_sentinel sampleExternals (fun _ => 1) (-1) 0 ([freshRoot], 0)
      (fresh_root_rooted State.init) (by decide)).1 1 [freshRoot] (some 0) 1 0⟩

/-! ## Visit counts of a node and of its children -/

theorem linked_of_same_links (t t' : Arena) (hl : t'.length = t.length)
    (hp : ∀ k, (t'.node k).parent = (t.node k).parent)
    (hc : ∀ k, (t'.node k).children = (t.node k).children) (h : t.linked) : t'.linked := by
  obtain ⟨h1, h2, h3⟩ := h
  refine ⟨?_, ?_, ?_⟩
  · intro k hk c hcm
    rw [hc] at hcm
    rw [hp]
    exact h1 k (by omega) c hcm
  · intro k hk
    rw [hc]
    exact h2 k (by omega)
  · intro k q hk hq
    rw [hp] at hq
    rw [hc]
    exact h3 k q (by omega) hq

/-- The fields of every node after `expand()` on a node `p` of the heap, a pointer outside the
heap reading as a node with zero counters, no parent and no children. -/
theorem expand_fields (t : Arena) (p : Nat) (hp : p < t.length) :
    (TreeNode.expand t p).length = t.length + (t.node p).board.legal_moves.length
      ∧ ∀ k, ((TreeNode.expand t p).node k).visits = (t.node k).visits
          ∧ ((TreeNode.expand t p).node k).winScore = (t.node k).winScore
          ∧ ((TreeNode.expand t p).node k).children
              = (if k = p then
                  (t.node p).children ++ List.range' t.length (t.node p).board.legal_moves.length
                else (t.node k).children)
          ∧ ((TreeNode.expand t p).node k).parent
              = (if t.length ≤ k ∧ k < t.length + (t.node p).board.legal_moves.length then some p
                else (t.node k).parent) := by
  rw [expand_eq_foldl]
  obtain ⟨h1, h2, h3, h4⟩ := foldl_expandStep_spec (t.node p).board.legal_moves t p hp
  refine ⟨h1, ?_⟩
  intro k
  by_cases hkp : k = p
  · have hnot : ¬ (t.length ≤ k ∧ k < t.length + (t.node p).board.legal_moves.length) := by
      omega
    rw [hkp] at hnot ⊢
    rw [h2, if_pos rfl, if_neg hnot]
    exact ⟨rfl, rfl, rfl, rfl⟩
  · by_cases hk : k < t.length
    · have hnot : ¬ (t.length ≤ k ∧ k < t.length + (t.node p).board.legal_moves.length) := by
        omega
      rw [h3 k hk hkp, if_neg hkp, if_neg hnot]
      exact ⟨rfl, rfl, rfl, rfl⟩
    · have hdef : t.node k = TreeNode.new UTTT.State.init :=
        Arena.node_of_length_le t (by omega)
      by_cases hk2 : k < t.length + (t.node p).board.legal_moves.length
      · have hi : k - t.length < (t.node p).board.legal_moves.length := by omega
        have h := h4 (k - t.length) _ (List.getElem?_eq_getElem hi)
        rw [show t.length + (k - t.length) = k by omega] at h
        have hyes : t.length ≤ k ∧ k < t.length + (t.node p).board.legal_moves.length :=
          ⟨by omega, hk2⟩
        rw [h, hdef, if_neg hkp, if_pos hyes]
        exact ⟨rfl, rfl, rfl, rfl⟩
      · have hnot : ¬ (t.length ≤ k ∧ k < t.length + (t.node p).board.legal_moves.length) := by
          omega
        have hdef' : (List.foldl (TreeNode.expandStep p) t (t.node p).board.legal_moves).node k
            = TreeNode.new UTTT.State.init :=
          Arena.node_of_length_le _ (by omega)
        rw [hdef', hdef, if_neg hkp, if_neg hnot]
        exact ⟨rfl, rfl, rfl, rfl⟩

theorem expand_rooted (t : Arena) (p : Nat) (hp : p < t.length) (h : t.rooted) :
    (TreeNode.expand t p).rooted := by
  rw [expand_eq_foldl]
  exact (foldl_expandStep_rooted _ t p hp h).1

theorem sum_visits_range_outside (t : Arena) (n : Nat) :
    ((List.range' t.length n).map (fun c => (t.node c).visits)).sum = 0 := by
  apply List.sum_eq_zero
  intro x hx
  rw [List.mem_map] at hx
  obtain ⟨c, hc, rfl⟩ := hx
  rw [List.mem_range'_1] at hc
  rw [Arena.node_of_length_le t hc.1]
  rfl

/-- After `expand()` on a node of the heap the links still go both ways, and no node's visit
count or sum of children's visit counts has changed. -/
theorem expand_linked (t : Arena) (p : Nat) (hp : p < t.length) (hr : t.rooted)
    (h : t.linked) :
    (TreeNode.expand t p).linked
      ∧ ∀ k, ((TreeNode.expand t p).node k).visits = (t.node k).visits
          ∧ (TreeNode.expand t p).childVisits k = t.childVisits k := by
  obtain ⟨hlen, hf⟩ := expand_fields t p hp
  obtain ⟨h1, h2, h3⟩ := h
  obtain ⟨_, _, hr3, hr4⟩ := hr
  have hparent_old : ∀ c, c < t.length →
      ((TreeNode.expand t p).node c).parent = (t.node c).parent := by
    intro c hc
    rw [(hf c).2.2.2]
    have : ¬ (t.length ≤ c ∧ c < t.length + (t.node p).board.legal_moves.length) := by omega
    simp only [this, if_false]
  refine ⟨⟨?_, ?_, ?_⟩, ?_⟩
  · intro k hk c hc
    rw [(hf k).2.2.1] at hc
    by_cases hkp : k = p
    · simp only [hkp, if_true, List.mem_append, List.mem_range'_1] at hc
      rcases hc with hc | hc
      · rw [hparent_old c (hr4 p hp c hc), hkp]
        exact h1 p hp c hc
      · rw [(hf c).2.2.2, hkp]
        simp only [hc, and_self, if_true]
    · simp only [hkp, if_false] at hc
      by_cases hk' : k < t.length
      · rw [hparent_old c (hr4 k hk' c hc)]
        exact h1 k hk' c hc
      · rw [Arena.node_of_length_le t (by omega)] at hc
        simp [TreeNode.new] at hc
  · intro k hk
    rw [(hf k).2.2.1]
    by_cases hkp : k = p
    · simp only [hkp, if_true]
      rw [List.nodup_append]
      refine ⟨h2 p hp, List.nodup_range' _ _, ?_⟩
      intro a ha hb
      rw [List.mem_range'_1] at hb
      have := hr4 p hp a ha
      omega
    · simp only [hkp, if_false]
      by_cases hk' : k < t.length
      · exact h2 k hk'
      · rw [Arena.node_of_length_le t (by omega)]
        simp [TreeNode.new]
  · intro k q hk hq
    rw [(hf k).2.2.2] at hq
    by_cases hk' : k < t.length
    · have hnot : ¬ (t.length ≤ k ∧ k < t.length + (t.node p).board.legal_moves.length) := by
        omega
      simp only [hnot, if_false] at hq
      have hmem := h3 k q hk' hq
      rw [(hf q).2.2.1]
      by_cases hqp : q = p
      · rw [hqp] at hmem
        simp only [hqp, if_true]
        exact List.mem_append_left _ hmem
      · simp only [hqp, if_false]
        exact hmem
    · rw [hlen] at hk
      have hyes : t.length ≤ k ∧ k < t.length + (t.node p).board.legal_moves.length :=
        ⟨by omega, hk⟩
      simp only [hyes, and_self, if_true, Option.some.injEq] at hq
      rw [(hf q).2.2.1, ← hq]
      simp only [if_true]
      apply List.mem_append_right
      rw [List.mem_range'_1]
      exact hyes
  · intro k
    refine ⟨(hf k).1, ?_⟩
    unfold Arena.childVisits
    rw [(hf k).2.2.1]
    have hv : (fun c => ((TreeNode.expand t p).node c).visits) = (fun c => (t.node c).visits) := by
      funext c
      exact (hf c).1
    rw [hv]
    by_cases hkp : k = p
    · simp only [hkp, if_true]
      rw [List.map_append, List.sum_append, sum_visits_range_outside, add_zero]
    · simp only [hkp, if_false]

theorem fresh_root_linked (nd : TreeNode) (hp : nd.parent = none) (hc : nd.children = []) :
    Arena.linked [nd] := by
  have hnode : ∀ k, k < [nd].length → Arena.node [nd] k = nd := by
    intro k hk
    simp at hk
    subst hk
    rfl
  refine ⟨?_, ?_, ?_⟩
  · intro k hk c hcm
    rw [hnode k hk, hc] at hcm
    cases hcm
  · intro k hk
    rw [hnode k hk, hc]
    exact List.nodup_nil
  · intro k q hk hq
    rw [hnode k hk, hp] at hq
    cases hq

theorem sum_visits_update (t : Arena) (x : Nat) (f : TreeNode → TreeNode) (hx : x < t.length)
    (hf : (f (t.node x)).visits = (t.node x).visits + 1) (l : List Nat) :
    (l.map (fun c => ((t.update x f).node c).visits)).sum
      = (l.map (fun c => (t.node c).visits)).sum + (l.count x : Nat) := by
  induction l with
  | nil => simp
  | cons a rest ih =>
    rw [List.map_cons, List.sum_cons, List.map_cons, List.sum_cons, ih, List.count_cons,
      Arena.node_update]
    by_cases hax : a = x
    · rw [hax]
      simp only [hx, and_self, if_true, hf, beq_self_eq_true]
      push_cast
      ring
    · have hax' : ¬ (a = x ∧ x < t.length) := fun e => hax e.1
      have hbeq : (a == x) = false := by simpa using hax
      simp only [hax', if_false, hbeq]
      push_cast
      ring

/-- The visit count of a node minus the sum of the visit counts of its children, after
`backpropagate` from a node `x` of a search tree: one more at `x`, the same at every other
node. -/
theorem backpropagate_deficit (fuel : Nat) (t : Arena) (x : Nat) (w : Int) (hr : t.rooted)
    (hl : t.linked) (hx : x < t.length) (hf : x < fuel) (k : Nat) :
    ((MCTS.backpropagate fuel t (some x) w).node k).visits
        - (MCTS.backpropagate fuel t (some x) w).childVisits k
      = (t.node k).visits - t.childVisits k + (if k = x then 1 else 0) := by
  induction fuel generalizing t x with
  | zero => omega
  | succ f ih =>
    rw [backpropagate_succ]
    have hpar : ∀ j, ((t.update x (fun nd =>
          { nd with
            visits := nd.visits + 1
            winScore := if nd.playerNo = w then nd.winScore + WIN_SCORE
              else nd.winScore })).node j).parent = (t.node j).parent :=
      fun j => parent_update_counters t x j _ (fun _ => rfl)
    have hch : ∀ j, ((t.update x (fun nd =>
          { nd with
            visits := nd.visits + 1
            winScore := if nd.playerNo = w then nd.winScore + WIN_SCORE
              else nd.winScore })).node j).children = (t.node j).children := by
      intro j
      rw [Arena.node_update]
      split <;> rename_i hj
      · rw [hj.1]
      · rfl
    have hvis : ∀ j, ((t.update x (fun nd =>
          { nd with
            visits := nd.visits + 1
            winScore := if nd.playerNo = w then nd.winScore + WIN_SCORE
              else nd.winScore })).node j).visits
        = (t.node j).visits + (if j = x then 1 else 0) := by
      intro j
      rw [Arena.node_update]
      by_cases hj : j = x
      · rw [hj]
        simp only [hx, and_self, if_true]
      · have : ¬ (j = x ∧ x < t.length) := fun e => hj e.1
        rw [if_neg this, if_neg hj, add_zero]
    have hcv : ∀ j, (t.update x (fun nd =>
          { nd with
            visits := nd.visits + 1
            winScore := if nd.playerNo = w then nd.winScore + WIN_SCORE
              else nd.winScore })).childVisits j
        = t.childVisits j + (if (t.node x).parent = some j then 1 else 0) := by
      intro j
      unfold Arena.childVisits
      rw [hch j, sum_visits_update t x _ hx rfl]
      congr 1
      by_cases hm : x ∈ (t.node j).children
      · have hj : j < t.length := by
          by_contra hc
          rw [Arena.node_of_length_le t (by omega)] at hm
          simp [TreeNode.new] at hm
        rw [List.count_eq_one_of_mem (hl.2.1 j hj) hm, hl.1 j hj x hm]
        simp
      · rw [List.count_eq_zero_of_not_mem hm]
        have : ¬ (t.node x).parent = some j := fun e => hm (hl.2.2 x j hx e)
        simp [this]
    have hr1 := rooted_of_same_links t _ (Arena.length_update t x _) hpar hch hr
    have hl1 := linked_of_same_links t _ (Arena.length_update t x _) hpar hch hl
    rw [hpar x]
    by_cases hx0 : x = 0
    · have hnone : (t.node x).parent = none := by rw [hx0]; exact hr.2.1
      have e : (if (none : Option Nat) = some k then (1 : Int) else 0) = 0 := by simp
      rw [hnone, backpropagate_none, hvis k, hcv k, hnone, e]
      ring
    · obtain ⟨q, hq, hqx⟩ := hr.2.2.1 x (by omega) hx
      rw [hq, ih _ q hr1 hl1 (by rw [Arena.length_update]; omega) (by omega), hvis k, hcv k, hq]
      by_cases hkq : k = q
      · subst hkq
        have hkx : ¬ k = x := by omega
        rw [if_neg hkx, if_pos rfl, if_pos rfl]
        ring
      · have hqk : ¬ (some q = some k) := fun e => hkq (Option.some.inj e).symm
        rw [if_neg hqk, if_neg hkq]
        ring

theorem max_element_fold_lt {α : Type} (comp : α → α → Bool) (xs : List α)
    (acc : Nat × α × Nat) (h : acc.1 < acc.2.2) :
    (xs.foldl (fun (acc : Nat × α × Nat) y =>
        if comp acc.2.1 y then (acc.2.2, y, acc.2.2 + 1) else (acc.1, acc.2.1, acc.2.2 + 1))
        acc).1 < acc.2.2 + xs.length := by
  induction xs generalizing acc with
  | nil => simpa using h
  | cons y rest ih =>
    simp only [List.foldl_cons, List.length_cons]
    by_cases hc : comp acc.2.1 y = true
    · simp only [hc, if_true]
      refine lt_of_lt_of_le (ih (acc.2.2, y, acc.2.2 + 1) (by simp)) ?_
      simp only []
      omega
    · simp only [hc, if_false]
      refine lt_of_lt_of_le (ih (acc.1, acc.2.1, acc.2.2 + 1) (by simp only []; omega)) ?_
      simp only []
      omega

/-- The position `std::max_element` returns on a non-empty range is inside the range, whatever
the comparison. -/
theorem max_element_lt {α : Type} (comp : α → α → Bool) (l : List α) (hl : l ≠ []) :
    max_element comp l < l.length := by
  cases l with
  | nil => exact absurd rfl hl
  | cons x xs =>
    unfold max_element
    refine lt_of_lt_of_le (max_element_fold_lt comp xs (0, x, 1) (by simp)) ?_
    simp only [List.length_cons]
    omega

/-- With as much fuel as the heap has nodes, the descent of `select_promising_node` in a search
tree ends on a node without children. -/
theorem select_leaf (ext : Externals) (fuel : Nat) (t : Arena) (n : Nat) (h : t.rooted)
    (hl : t.linked) (hn : n < t.length) (hf : t.length ≤ n + fuel) :
    (t.node (MCTS.select_promising_node ext fuel t n)).children = [] := by
  induction fuel generalizing n with
  | zero => omega
  | succ f ih =>
    unfold MCTS.select_promising_node
    by_cases hc : (t.node n).children = []
    · simp [hc]
    · have hlen : ((t.node n).children.length != 0) = true := by
        simpa using hc
      simp only [hlen, if_true]
      have hlt := max_element_lt (UCT.uct_compare ext t) (t.node n).children hc
      have hget : UCT.best_node_uct ext t n
          = some ((t.node n).children[max_element (UCT.uct_compare ext t) (t.node n).children]) := by
        unfold UCT.best_node_uct
        exact List.getElem?_eq_getElem hlt
      rw [hget]
      simp only []
      have hmem := List.getElem_mem hlt
      have hpar := hl.1 n hn _ hmem
      have hin := h.2.2.2 n hn _ hmem
      have hgt : n < (t.node n).children[max_element (UCT.uct_compare ext t)
          (t.node n).children] := by
        by_cases h0 : (t.node n).children[max_element (UCT.uct_compare ext t)
            (t.node n).children] = 0
        · rw [h0, h.2.1] at hpar
          cases hpar
        · obtain ⟨q, hq, hqlt⟩ := h.2.2.1 _ (by omega) hin
          rw [hq] at hpar
          cases hpar
          exact hqlt
      exact ih _ hin (by omega)

theorem promisingNode_leaf (ext : Externals) (rootNode : Nat) (st : Arena × Nat)
    (h : st.1.rooted) (hl : st.1.linked) (hroot : rootNode < st.1.length) :
    (st.1.node (MCTS.promisingNode ext rootNode st)).children = [] :=
  select_leaf ext st.1.length st.1 rootNode h hl hroot (by omega)

/-- The `expand_node` step of a pass keeps the shape of a search tree, the visit count of every
node and the sum of the visit counts of its children. -/
theorem expanded_invariant (ext : Externals) (rootNode : Nat) (st : Arena × Nat)
    (h : st.1.rooted) (hl : st.1.linked) (hroot : rootNode < st.1.length) :
    (MCTS.expanded ext rootNode st).rooted ∧ (MCTS.expanded ext rootNode st).linked
      ∧ st.1.length ≤ (MCTS.expanded ext rootNode st).length
      ∧ ∀ k, ((MCTS.expanded ext rootNode st).node k).visits = (st.1.node k).visits
          ∧ (MCTS.expanded ext rootNode st).childVisits k = st.1.childVisits k := by
  have hp := promisingNode_in_heap ext rootNode st h hroot
  unfold MCTS.expanded
  split
  · obtain ⟨a, b⟩ := expand_linked st.1 _ hp h hl
    exact ⟨expand_rooted st.1 _ hp h, a, by rw [(expand_fields st.1 _ hp).1]; omega, b⟩
  · exact ⟨h, hl, le_refl _, fun k => ⟨rfl, rfl⟩⟩

/-- The node chosen for simulation in a pass on a search tree: a child of the selected node,
chosen among the children that `expand()` has just created, when the state of the selected node
is not game over; the selected node itself when it is. -/
theorem nodeToExplore_spec (ext : Externals) (rand : Nat → Nat) (rootNode : Nat)
    (st : Arena × Nat) (h : st.1.rooted) (hl : st.1.linked) (hroot : rootNode < st.1.length) :
    ((st.1.node (MCTS.promisingNode ext rootNode st)).board.is_game_over = false →
        MCTS.expanded ext rootNode st = TreeNode.expand st.1 (MCTS.promisingNode ext rootNode st)
          ∧ (st.1.node (MCTS.promisingNode ext rootNode st)).board.legal_moves.length ≠ 0
          ∧ ((MCTS.expanded ext rootNode st).node (MCTS.promisingNode ext rootNode st)).children
              = List.range' st.1.length
                  (st.1.node (MCTS.promisingNode ext rootNode st)).board.legal_moves.length
          ∧ (MCTS.nodeToExplore ext rand rootNode st).1
              ∈ ((MCTS.expanded ext rootNode st).node
                  (MCTS.promisingNode ext rootNode st)).children
          ∧ (MCTS.nodeToExplore ext rand rootNode st).2 = st.2 + 1
          ∧ ((MCTS.expanded ext rootNode st).node
                (MCTS.nodeToExplore ext rand rootNode st).1).parent
              = some (MCTS.promisingNode ext rootNode st))
      ∧ ((st.1.node (MCTS.promisingNode ext rootNode st)).board.is_game_over = true →
          MCTS.expanded ext rootNode st = st.1
            ∧ MCTS.nodeToExplore ext rand rootNode st
                = (MCTS.promisingNode ext rootNode st, st.2)) := by
  have hp := promisingNode_in_heap ext rootNode st h hroot
  have hleaf := promisingNode_leaf ext rootNode st h hl hroot
  constructor
  · intro hgo
    have hexp : MCTS.expanded ext rootNode st
        = TreeNode.expand st.1 (MCTS.promisingNode ext rootNode st) := by
      unfold MCTS.expanded
      simp only [hgo, Bool.not_false, if_true]
    have hne := legal_moves_ne_nil_of_not_game_over _ hgo
    obtain ⟨hlen, hf⟩ := expand_fields st.1 _ hp
    have hch : ((MCTS.expanded ext rootNode st).node
        (MCTS.promisingNode ext rootNode st)).children
        = List.range' st.1.length
            (st.1.node (MCTS.promisingNode ext rootNode st)).board.legal_moves.length := by
      rw [hexp, (hf _).2.2.1, if_pos rfl, hleaf, List.nil_append]
    have hchlen : ((MCTS.expanded ext rootNode st).node
        (MCTS.promisingNode ext rootNode st)).children.length
        = (st.1.node (MCTS.promisingNode ext rootNode st)).board.legal_moves.length := by
      rw [hch, List.length_range']
    have hlt : rand st.2 % ((MCTS.expanded ext rootNode st).node
        (MCTS.promisingNode ext rootNode st)).children.length
        < ((MCTS.expanded ext rootNode st).node
          (MCTS.promisingNode ext rootNode st)).children.length :=
      Nat.mod_lt _ (by omega)
    have hnte : MCTS.nodeToExplore ext rand rootNode st
        = (((MCTS.expanded ext rootNode st).node
            (MCTS.promisingNode ext rootNode st)).children[rand st.2
              % ((MCTS.expanded ext rootNode st).node
                (MCTS.promisingNode ext rootNode st)).children.length], st.2 + 1) := by
      have hb : (((MCTS.expanded ext rootNode st).node
          (MCTS.promisingNode ext rootNode st)).children.length != 0) = true := by
        simp only [bne_iff_ne, ne_eq]
        omega
      unfold MCTS.nodeToExplore
      simp only [hb, if_true]
      unfold TreeNode.random_child
      rw [List.getElem?_eq_getElem hlt]
      rfl
    have hmem : (MCTS.nodeToExplore ext rand rootNode st).1
        ∈ ((MCTS.expanded ext rootNode st).node
            (MCTS.promisingNode ext rootNode st)).children := by
      rw [hnte]
      exact List.getElem_mem hlt
    refine ⟨hexp, hne, hch, hmem, by rw [hnte], ?_⟩
    have hinv := expanded_invariant ext rootNode st h hl hroot
    exact hinv.2.1.1 _ (by omega) _ hmem
  · intro hgo
    have hexp : MCTS.expanded ext rootNode st = st.1 := by
      unfold MCTS.expanded
      simp only [hgo, Bool.not_true, Bool.false_eq_true, if_false]
    refine ⟨hexp, ?_⟩
    unfold MCTS.nodeToExplore
    rw [hexp, hleaf]
    rfl

theorem nodeToExplore_in_heap (ext : Externals) (rand : Nat → Nat) (rootNode : Nat)
    (st : Arena × Nat) (h : st.1.rooted) (hl : st.1.linked) (hroot : rootNode < st.1.length) :
    (MCTS.nodeToExplore ext rand rootNode st).1 < (MCTS.expanded ext rootNode st).length := by
  have hp := promisingNode_in_heap ext rootNode st h hroot
  obtain ⟨hr, _, hlen, _⟩ := expanded_invariant ext rootNode st h hl hroot
  obtain ⟨h1, h2⟩ := nodeToExplore_spec ext rand rootNode st h hl hroot
  cases hgo : (st.1.node (MCTS.promisingNode ext rootNode st)).board.is_game_over with
  | false =>
    obtain ⟨_, _, _, hmem, _, _⟩ := h1 hgo
    exact hr.2.2.2 _ (by omega) _ hmem
  | true =>
    rw [(h2 hgo).2]
    simp only []
    omega

theorem simulate_playout_board (ext : Externals) (rand : Nat → Nat) (opponent : Int)
    (t : Arena) (node calls k : Nat) :
    ((MCTS.simulate_playout ext rand opponent t node calls).1.node k).board = (t.node k).board
      ∧ ((MCTS.simulate_playout ext rand opponent t node calls).1.node k).playerNo
          = (t.node k).playerNo := by
  obtain ⟨w, calls', _, hs⟩ := simulate_playout_cases ext rand opponent t node calls
  rcases hs with hs | ⟨parent, _, hs⟩
  · rw [hs]
    exact ⟨rfl, rfl⟩
  · rw [hs]
    simp only []
    rw [Arena.node_update]
    split <;> rename_i hk
    · rw [hk.1]; exact ⟨rfl, rfl⟩
    · exact ⟨rfl, rfl⟩

theorem childVisits_congr (t t' : Arena) (hc : ∀ k, (t'.node k).children = (t.node k).children)
    (hv : ∀ k, (t'.node k).visits = (t.node k).visits) (k : Nat) :
    t'.childVisits k = t.childVisits k := by
  unfold Arena.childVisits
  rw [hc k]
  have : (fun c => (t'.node c).visits) = (fun c => (t.node c).visits) := funext hv
  rw [this]

/-- A pass of the search loop on a search tree gives a search tree in which the visit count of
a node minus the sum of the visit counts of its children is one more than before at the node
chosen for simulation, and the same as before at every other node. -/
theorem iteration_invariant (ext : Externals) (rand : Nat → Nat) (opponent : Int)
    (rootNode : Nat) (st : Arena × Nat) (h : st.1.rooted) (hl : st.1.linked)
    (hroot : rootNode < st.1.length) :
    (MCTS.iteration ext rand opponent rootNode st).1.rooted
      ∧ (MCTS.iteration ext rand opponent rootNode st).1.linked
      ∧ st.1.length ≤ (MCTS.iteration ext rand opponent rootNode st).1.length
      ∧ ∀ k, ((MCTS.iteration ext rand opponent rootNode st).1.node k).visits
            - (MCTS.iteration ext rand opponent rootNode st).1.childVisits k
          = (st.1.node k).visits - st.1.childVisits k
            + (if k = (MCTS.nodeToExplore ext rand rootNode st).1 then 1 else 0) := by
  obtain ⟨hr1, hl1, hlen1, hd1⟩ := expanded_invariant ext rootNode st h hl hroot
  have hx := nodeToExplore_in_heap ext rand rootNode st h hl hroot
  obtain ⟨hsl, hsk⟩ := simulate_playout_frame ext rand opponent (MCTS.expanded ext rootNode st)
    (MCTS.nodeToExplore ext rand rootNode st).1 (MCTS.nodeToExplore ext rand rootNode st).2
  have hr2 := rooted_of_same_links _ _ hsl (fun k => (hsk k).1) (fun k => (hsk k).2.1) hr1
  have hl2 := linked_of_same_links _ _ hsl (fun k => (hsk k).1) (fun k => (hsk k).2.1) hl1
  obtain ⟨hbl, hbk⟩ := backpropagate_frame
    (MCTS.simulate_playout ext rand opponent (MCTS.expanded ext rootNode st)
      (MCTS.nodeToExplore ext rand rootNode st).1
      (MCTS.nodeToExplore ext rand rootNode st).2).1.length
    (MCTS.simulate_playout ext rand opponent (MCTS.expanded ext rootNode st)
      (MCTS.nodeToExplore ext rand rootNode st).1
      (MCTS.nodeToExplore ext rand rootNode st).2).1
    (some (MCTS.nodeToExplore ext rand rootNode st).1)
    (MCTS.simulate_playout ext rand opponent (MCTS.expanded ext rootNode st)
      (MCTS.nodeToExplore ext rand rootNode st).1
      (MCTS.nodeToExplore ext rand rootNode st).2).2.1
  rw [iteration_eq]
  simp only []
  refine ⟨rooted_of_same_links _ _ hbl (fun k => (hbk k).1) (fun k => (hbk k).2.1) hr2,
    linked_of_same_links _ _ hbl (fun k => (hbk k).1) (fun k => (hbk k).2.1) hl2,
    by rw [hbl, hsl]; exact hlen1, ?_⟩
  intro k
  rw [backpropagate_deficit _ _ _ _ hr2 hl2 (by rw [hsl]; exact hx) (by rw [hsl]; exact hx) k,
    (hsk k).2.2, childVisits_congr _ _ (fun j => (hsk j).2.1) (fun j => (hsk j).2.2) k,
    (hd1 k).1, (hd1 k).2]

/-- After any number of passes of the search loop on a search tree in which no node has fewer
visits than its children together, the same holds. -/
theorem iterate_invariant (ext : Externals) (rand : Nat → Nat) (opponent : Int)
    (rootNode : Nat) (N : Nat) (st : Arena × Nat) (h : st.1.rooted) (hl : st.1.linked)
    (hroot : rootNode < st.1.length) (hd : ∀ k, st.1.childVisits k ≤ (st.1.node k).visits) :
    (Nat.iterate (MCTS.iteration ext rand opponent rootNode) N st).1.rooted
      ∧ (Nat.iterate (MCTS.iteration ext rand opponent rootNode) N st).1.linked
      ∧ rootNode < (Nat.iterate (MCTS.iteration ext rand opponent rootNode) N st).1.length
      ∧ ∀ k, (Nat.iterate (MCTS.iteration ext rand opponent rootNode) N st).1.childVisits k
          ≤ ((Nat.iterate (MCTS.iteration ext rand opponent rootNode) N st).1.node k).visits := by
  induction N generalizing st with
  | zero => exact ⟨h, hl, hroot, hd⟩
  | succ n ih =>
    obtain ⟨hr1, hl1, hlen1, hd1⟩ := iteration_invariant ext rand opponent rootNode st h hl hroot
    simp only [Nat.iterate]
    apply ih _ hr1 hl1 (by omega)
    intro k
    have := hd1 k
    have := hd k
    split_ifs at * <;> omega

theorem prune_children (ext : Externals) (t : Arena) (P : Nat) (target : State) (k : Nat) :
    ((MCTS.prune ext t P target).1.node k).children = (t.node k).children := by
  unfold MCTS.prune
  split
  · simp only []
    rw [Arena.node_update]
    split <;> rename_i hk
    · rw [hk.1]
    · rfl
  · rfl

theorem fresh_root_childVisits (nd : TreeNode) (hv : nd.visits = 0) (hc : nd.children = [])
    (k : Nat) : Arena.childVisits [nd] k ≤ (Arena.node [nd] k).visits := by
  cases k with
  | zero =>
    unfold Arena.childVisits
    have : Arena.node [nd] 0 = nd := rfl
    rw [this, hc, hv]
    simp
  | succ j =>
    unfold Arena.childVisits
    rw [Arena.node_of_length_le [nd] (by simp)]
    simp [TreeNode.new]

/-- C21 (as stated) fails: after the first pass of the search loop from the fresh root of the
initial position (`rand()` always 1) the root has 81 children, its visit count is 1 and the
visit counts of its children add up to 1, so the root's visit count is less than 1 plus that
sum. -/
theorem visits_one_plus_children_counterexample :
    ((MCTS.iteration sampleExternals (fun _ => 1) (-1) 0 ([freshRoot], 0)).1.node 0).children.length
        = 81
      ∧ ((MCTS.iteration sampleExternals (fun _ => 1) (-1) 0 ([freshRoot], 0)).1.node 0).visits = 1
      ∧ (MCTS.iteration sampleExternals (fun _ => 1) (-1) 0 ([freshRoot], 0)).1.childVisits 0 = 1
      ∧ ¬ (1 + (MCTS.iteration sampleExternals (fun _ => 1) (-1) 0 ([freshRoot], 0)).1.childVisits 0
          ≤ ((MCTS.iteration sampleExternals (fun _ => 1) (-1) 0 ([freshRoot], 0)).1.node
              0).visits) := by
  decide!

/-- C21 (amended). After any number of complete passes of the search loop from a fresh root,
for every sequence of values of `rand()` and every choice of the parts the sources do not
define, the visit count of every node is greater than or equal to the sum of the visit counts
of its children; the same holds in the tree that `find_best_next_board` leaves. -/
theorem visits_ge_children_visits (ext : Externals) (rand : Nat → Nat) (N : Nat)
    (board : State) :
    (∀ k, (Nat.iterate (MCTS.iteration ext rand (-board.turn) 0) N
          ([{ TreeNode.new board with playerNo := -board.turn }], 0)).1.childVisits k
        ≤ ((Nat.iterate (MCTS.iteration ext rand (-board.turn) 0) N
          ([{ TreeNode.new board with playerNo := -board.turn }], 0)).1.node k).visits)
      ∧ (∀ k, (MCTS.find_best_next_board ext rand N [] none board).tree.childVisits k
        ≤ ((MCTS.find_best_next_board ext rand N [] none board).tree.node k).visits) := by
  have hmain := (iterate_invariant ext rand (-board.turn) 0 N
    ([{ TreeNode.new board with playerNo := -board.turn }], 0) (fresh_root_rooted board)
    (fresh_root_linked _ rfl rfl) (by simp) (fresh_root_childVisits _ rfl rfl)).2.2.2
  refine ⟨hmain, ?_⟩
  intro k
  unfold MCTS.find_best_next_board
  simp only [List.nil_append, List.length_nil]
  split
  · exact hmain k
  · simp only []
    rw [prune_visits, childVisits_congr _ _ (prune_children ext _ _ _) (prune_visits ext _ _ _) k]
    exact hmain k

theorem first_pass_expanded (ext : Externals) :
    MCTS.expanded ext 0 ([freshRoot], 0) = firstExpansion := by
  have hsel : MCTS.promisingNode ext 0 ([freshRoot], 0) = 0 := rfl
  have hgo : (!(Arena.node [freshRoot] 0).board.is_game_over) = true := by decide!
  unfold MCTS.expanded
  simp only [hsel, hgo, if_true]
  rfl

/-- C27: what the code does. In every pass of the search loop on a search tree the selected
node has no children; when its state is not game over, `expand()` is applied to it, gives it
one child per legal move, at least one, and the node chosen for simulation is one of these
children; when its state is game over the tree is not expanded and the node chosen for
simulation is the selected node; and a pass leaves the children of every node that has
children unchanged. But `expand()` changes the state of the node it expands: after the first
pass from the fresh root of the initial position the state of the root is game over and the
root has 81 children. -/
theorem expand_only_on_open_leaf (ext : Externals) (rand : Nat → Nat) (opponent : Int)
    (rootNode : Nat) (st : Arena × Nat) (h : st.1.rooted) (hl : st.1.linked)
    (hroot : rootNode < st.1.length) :
    (st.1.node (MCTS.promisingNode ext rootNode st)).children = []
      ∧ ((st.1.node (MCTS.promisingNode ext rootNode st)).board.is_game_over = false →
          MCTS.expanded ext rootNode st
              = TreeNode.expand st.1 (MCTS.promisingNode ext rootNode st)
            ∧ (st.1.node (MCTS.promisingNode ext rootNode st)).board.legal_moves.length ≠ 0
            ∧ ((MCTS.expanded ext rootNode st).node
                  (MCTS.promisingNode ext rootNode st)).children.length
                = (st.1.node (MCTS.promisingNode ext rootNode st)).board.legal_moves.length
            ∧ (MCTS.nodeToExplore ext rand rootNode st).1
                ∈ ((MCTS.expanded ext rootNode st).node
                    (MCTS.promisingNode ext rootNode st)).children)
      ∧ ((st.1.node (MCTS.promisingNode ext rootNode st)).board.is_game_over = true →
          MCTS.expanded ext rootNode st = st.1
            ∧ (MCTS.nodeToExplore ext rand rootNode st).1 = MCTS.promisingNode ext rootNode st)
      ∧ (∀ k, (st.1.node k).children ≠ [] →
          ((MCTS.iteration ext rand opponent rootNode st).1.node k).children
            = (st.1.node k).children)
      ∧ ((MCTS.iteration ext rand opponent 0 ([freshRoot], 0)).1.node 0).board.is_game_over
          = true
      ∧ ((MCTS.iteration ext rand opponent 0 ([freshRoot], 0)).1.node 0).children.length
          = 81 := by
  have hp := promisingNode_in_heap ext rootNode st h hroot
  have hleaf := promisingNode_leaf ext rootNode st h hl hroot
  obtain ⟨h1, h2⟩ := nodeToExplore_spec ext rand rootNode st h hl hroot
  have hframe : ∀ (rootNode : Nat) (st : Arena × Nat) (k : Nat),
      ((MCTS.iteration ext rand opponent rootNode st).1.node k).children
          = ((MCTS.expanded ext rootNode st).node k).children
        ∧ ((MCTS.iteration ext rand opponent rootNode st).1.node k).board
          = ((MCTS.expanded ext rootNode st).node k).board := by
    intro rootNode st k
    rw [iteration_eq]
    simp only []
    obtain ⟨_, hbk⟩ := backpropagate_frame
      (MCTS.simulate_playout ext rand opponent (MCTS.expanded ext rootNode st)
        (MCTS.nodeToExplore ext rand rootNode st).1
        (MCTS.nodeToExplore ext rand rootNode st).2).1.length
      (MCTS.simulate_playout ext rand opponent (MCTS.expanded ext rootNode st)
        (MCTS.nodeToExplore ext rand rootNode st).1
        (MCTS.nodeToExplore ext rand rootNode st).2).1
      (some (MCTS.nodeToExplore ext rand rootNode st).1)
      (MCTS.simulate_playout ext rand opponent (MCTS.expanded ext rootNode st)
        (MCTS.nodeToExplore ext rand rootNode st).1
        (MCTS.nodeToExplore ext rand rootNode st).2).2.1
    rw [(hbk k).2.1, (hbk k).2.2.1,
      ((simulate_playout_frame ext rand opponent _ _ _).2 k).2.1,
      (simulate_playout_board ext rand opponent _ _ _ k).1]
    exact ⟨rfl, rfl⟩
  refine ⟨hleaf, ?_, ?_, ?_, ?_, ?_⟩
  · intro hgo
    obtain ⟨a, b, c, d, _, _⟩ := h1 hgo
    exact ⟨a, b, by rw [c, List.length_range'], d⟩
  · intro hgo
    obtain ⟨a, b⟩ := h2 hgo
    exact ⟨a, by rw [b]⟩
  · intro k hk
    rw [(hframe rootNode st k).1]
    cases hgo : (st.1.node (MCTS.promisingNode ext rootNode st)).board.is_game_over with
    | true => rw [(h2 hgo).1]
    | false =>
      rw [(h1 hgo).1, ((expand_fields st.1 _ hp).2 k).2.2.1]
      have hkp : ¬ k = MCTS.promisingNode ext rootNode st := by
        intro e
        rw [e] at hk
        exact hk hleaf
      rw [if_neg hkp]
  · rw [(hframe 0 ([freshRoot], 0) 0).2, first_pass_expanded]
    decide!
  · rw [(hframe 0 ([freshRoot], 0) 0).1, first_pass_expanded]
    decide!

/-- Witness of C27: the first pass from the fresh root of the initial position, with `rand()`
always 1: the selected node is the root, which has no children and whose state is not game
over, and the node chosen for simulation is one of the 81 children that `expand()` creates. -/
theorem expand_only_on_open_leaf_witness :
    Arena.rooted [freshRoot] ∧ Arena.linked [freshRoot] ∧ 0 < [freshRoot].length
      ∧ (Arena.node [freshRoot] (MCTS.promisingNode sampleExternals 0 ([freshRoot], 0))).children
          = []
      ∧ (Arena.node [freshRoot]
          (MCTS.promisingNode sampleExternals 0 ([freshRoot], 0))).board.is_game_over = false
      ∧ (MCTS.nodeToExplore sampleExternals (fun _ => 1) 0 ([freshRoot], 0)).1
          ∈ ((MCTS.expanded sampleExternals 0 ([freshRoot], 0)).node
              (MCTS.promisingNode sampleExternals 0 ([freshRoot], 0))).children :=
  ⟨fresh_root_rooted State.init, fresh_root_linked freshRoot rfl rfl, by decide,
    (expand_only_on_open_leaf sampleExternals (fun _ => 1) (-1) 0 ([freshRoot], 0)
      (fresh_root_rooted State.init) (fresh_root_linked freshRoot rfl rfl) (by decide)).1,
    by decide!,
    ((expand_only_on_open_leaf sampleExternals (fun _ => 1) (-1) 0 ([freshRoot], 0)
      (fresh_root_rooted State.init) (fresh_root_linked freshRoot rfl rfl) (by decide)).2.1
        (by decide!)).2.2.2⟩

/-! ## UCT selection -/

theorem max_element_fold_key {α β : Type} [LinearOrder β] (comp : α → α → Bool) (key : α → β)
    (hcomp : ∀ a b, comp a b = true ↔ key a < key b)
    (suf pre : List α) (bi : Nat) (bv : α)
    (h1 : pre[bi]? = some bv)
    (h2 : ∀ (j : Nat) a, pre[j]? = some a → key a ≤ key bv)
    (h3 : ∀ (j : Nat) a, j < bi → pre[j]? = some a → key a < key bv) :
    (pre ++ suf)[(suf.foldl (fun (acc : Nat × α × Nat) y =>
        if comp acc.2.1 y then (acc.2.2, y, acc.2.2 + 1)
        else (acc.1, acc.2.1, acc.2.2 + 1)) (bi, bv, pre.length)).1]?
      = some (suf.foldl (fun (acc : Nat × α × Nat) y =>
        if comp acc.2.1 y then (acc.2.2, y, acc.2.2 + 1)
        else (acc.1, acc.2.1, acc.2.2 + 1)) (bi, bv, pre.length)).2.1
    ∧ (∀ (j : Nat) a, (pre ++ suf)[j]? = some a →
        key a ≤ key (suf.foldl (fun (acc : Nat × α × Nat) y =>
          if comp acc.2.1 y then (acc.2.2, y, acc.2.2 + 1)
          else (acc.1, acc.2.1, acc.2.2 + 1)) (bi, bv, pre.length)).2.1)
    ∧ (∀ (j : Nat) a, j < (suf.foldl (fun (acc : Nat × α × Nat) y =>
          if comp acc.2.1 y then (acc.2.2, y, acc.2.2 + 1)
          else (acc.1, acc.2.1, acc.2.2 + 1)) (bi, bv, pre.length)).1 →
        (pre ++ suf)[j]? = some a →
        key a < key (suf.foldl (fun (acc : Nat × α × Nat) y =>
          if comp acc.2.1 y then (acc.2.2, y, acc.2.2 + 1)
          else (acc.1, acc.2.1, acc.2.2 + 1)) (bi, bv, pre.length)).2.1) := by
  induction suf generalizing pre bi bv with
  | nil =>
    simp only [List.foldl_nil, List.append_nil]
    exact ⟨h1, h2, h3⟩
  | cons y t ih =>
    have hbi : bi < pre.length := by
      by_contra hc
      rw [List.getElem?_eq_none (by omega)] at h1
      cases h1
    have happ : pre ++ y :: t = (pre ++ [y]) ++ t := by simp
    have hlen : (pre ++ [y]).length = pre.length + 1 := by simp
    have hget : ∀ (j : Nat) a, (pre ++ [y])[j]? = some a →
        (j < pre.length ∧ pre[j]? = some a) ∨ (j = pre.length ∧ a = y) := by
      intro j a hja
      by_cases hj : j < pre.length
      · left
        rw [List.getElem?_append_left hj] at hja
        exact ⟨hj, hja⟩
      · right
        have hj' : pre.length ≤ j := by omega
        rw [List.getElem?_append_right hj'] at hja
        by_cases hj0 : j - pre.length = 0
        · rw [hj0] at hja
          simp at hja
          exact ⟨by omega, hja.symm⟩
        · have : 1 ≤ j - pre.length := by omega
          rw [List.getElem?_eq_none (by simpa using this)] at hja
          cases hja
    simp only [List.foldl_cons]
    rw [happ]
    by_cases hlt : key bv < key y
    · have hc : comp bv y = true := (hcomp bv y).2 hlt
      simp only [hc, if_true]
      have := ih (pre ++ [y]) pre.length y (by simp)
        (by
          intro j a hja
          rcases hget j a hja with ⟨_, hp⟩ | ⟨_, rfl⟩
          · exact le_of_lt (lt_of_le_of_lt (h2 j a hp) hlt)
          · exact le_refl _)
        (by
          intro j a hj hja
          rcases hget j a hja with ⟨_, hp⟩ | ⟨hj', _⟩
          · exact lt_of_le_of_lt (h2 j a hp) hlt
          · omega)
      rw [hlen] at this
      exact this
    · have hc : ¬ comp bv y = true := fun e => hlt ((hcomp bv y).1 e)
      simp only [hc, if_false]
      have := ih (pre ++ [y]) bi bv
        (by rw [List.getElem?_append_left hbi]; exact h1)
        (by
          intro j a hja
          rcases hget j a hja with ⟨_, hp⟩ | ⟨_, rfl⟩
          · exact h2 j a hp
          · exact not_lt.mp hlt)
        (by
          intro j a hj hja
          rcases hget j a hja with ⟨_, hp⟩ | ⟨hj', _⟩
          · exact h3 j a hj hp
          · omega)
      rw [hlen] at this
      exact this

/-- The position `std::max_element` returns for a comparison that is the strict order of a
key: the first position that holds the greatest key. -/
theorem max_element_spec_key {α β : Type} [LinearOrder β] (comp : α → α → Bool) (key : α → β)
    (hcomp : ∀ a b, comp a b = true ↔ key a < key b) (l : List α) (hl : l ≠ []) :
    ∃ c, l[max_element comp l]? = some c
      ∧ (∀ (j : Nat) a, l[j]? = some a → key a ≤ key c)
      ∧ (∀ (j : Nat) a, j < max_element comp l → l[j]? = some a → key a < key c) := by
  cases l with
  | nil => exact absurd rfl hl
  | cons x xs =>
    have h := max_element_fold_key comp key hcomp xs [x] 0 x (by simp)
      (by
        intro j a hja
        cases j with
        | zero => simp at hja; rw [hja]
        | succ n => simp at hja)
      (by intro j a hj; omega)
    simp only [List.singleton_append, List.length_singleton] at h
    exact ⟨_, h.1, h.2.1, h.2.2⟩

/-- The UCT value of a visited node with a score that backpropagation can accumulate is below
the value `INT_MAX` of an unvisited node. -/
theorem uct_value_visited_lt (E : ℝ) (N s v : Int) (hE0 : 0 ≤ E) (hE : E ≤ 1000000)
    (hN1 : 1 ≤ N) (hN : N ≤ 2 ^ 63) (hv : 0 < v) (hs : s ≤ 10 * v) :
    UCT.uct_value E N s v < 2147483647 := by
  have hvR : (1 : ℝ) ≤ (v : ℝ) := by exact_mod_cast hv
  have hv0 : (v : ℝ) ≠ 0 := by positivity
  have hNR1 : (1 : ℝ) ≤ (N : ℝ) := by exact_mod_cast hN1
  have hNR : (N : ℝ) ≤ 2 ^ 63 := by exact_mod_cast hN
  rw [uct_value_visited E N s v hv0]
  have hsR : (s : ℝ) ≤ 10 * (v : ℝ) := by exact_mod_cast hs
  have h1 : (s : ℝ) / (v : ℝ) ≤ 10 := by
    rw [div_le_iff₀ (by linarith)]
    exact hsR
  have hlog0 : 0 ≤ Real.log (N : ℝ) := Real.log_nonneg hNR1
  have hlog : Real.log (N : ℝ) ≤ 63 := by
    have h2 : Real.log (N : ℝ) ≤ Real.log ((2 : ℝ) ^ 63) :=
      (Real.log_le_log_iff (by linarith) (by positivity)).mpr hNR
    rw [Real.log_pow] at h2
    have h3 : Real.log 2 ≤ 1 := by
      have := Real.log_le_sub_one_of_pos (show (0 : ℝ) < 2 by norm_num)
      linarith
    have h4 : ((63 : ℕ) : ℝ) * Real.log 2 ≤ 63 := by
      have : ((63 : ℕ) : ℝ) = 63 := by norm_num
      rw [this]
      nlinarith
    linarith
  have hquot : Real.log (N : ℝ) / (v : ℝ) ≤ 8 ^ 2 := by
    rw [div_le_iff₀ (by linarith)]
    nlinarith
  have hsqrt : Real.sqrt (Real.log (N : ℝ) / (v : ℝ)) ≤ 8 :=
    (Real.sqrt_le_left (by norm_num)).mpr hquot
  have hsq0 := Real.sqrt_nonneg (Real.log (N : ℝ) / (v : ℝ))
  have h5 : 1.41 * Real.sqrt (Real.log (N : ℝ) / (v : ℝ)) * E ≤ 1.41 * 8 * 1000000 := by
    have h6 : 1.41 * Real.sqrt (Real.log (N : ℝ) / (v : ℝ)) ≤ 1.41 * 8 := by nlinarith
    have h7 : (0 : ℝ) ≤ 1.41 * Real.sqrt (Real.log (N : ℝ) / (v : ℝ)) := by positivity
    calc 1.41 * Real.sqrt (Real.log (N : ℝ) / (v : ℝ)) * E
        ≤ 1.41 * 8 * E := mul_le_mul_of_nonneg_right h6 hE0
      _ ≤ 1.41 * 8 * 1000000 := mul_le_mul_of_nonneg_left hE (by norm_num)
  norm_num at h5 ⊢
  linarith

theorem backpropagate_scores (fuel : Nat) (t : Arena) (p : Option Nat) (w : Int) (k : Nat)
    (h : 0 ≤ (t.node k).visits ∧ (t.node k).winScore ≤ 10 * (t.node k).visits) :
    0 ≤ ((MCTS.backpropagate fuel t p w).node k).visits
      ∧ ((MCTS.backpropagate fuel t p w).node k).winScore
          ≤ 10 * ((MCTS.backpropagate fuel t p w).node k).visits := by
  induction fuel generalizing t p with
  | zero => exact h
  | succ n ih =>
    cases p with
    | none => exact h
    | some q =>
      rw [backpropagate_succ]
      apply ih
      rw [Arena.node_update]
      split
      · rename_i hk
        rw [hk.1] at h
        simp only []
        constructor
        · omega
        · split
          · unfold WIN_SCORE; omega
          · omega
      · exact h

theorem expanded_winScore (ext : Externals) (rootNode : Nat) (st : Arena × Nat)
    (h : st.1.rooted) (hroot : rootNode < st.1.length) (k : Nat) :
    ((MCTS.expanded ext rootNode st).node k).winScore = (st.1.node k).winScore := by
  have hp := promisingNode_in_heap ext rootNode st h hroot
  unfold MCTS.expanded
  split
  · exact ((expand_fields st.1 _ hp).2 k).2.1
  · rfl

/-- A pass of the search loop keeps, in every node, the visit count non-negative and the
win-score at most `WIN_SCORE` times the visit count. -/
theorem iteration_scores (ext : Externals) (rand : Nat → Nat) (opponent : Int)
    (rootNode : Nat) (st : Arena × Nat) (h : st.1.rooted) (hl : st.1.linked)
    (hroot : rootNode < st.1.length)
    (hI : ∀ k, 0 ≤ (st.1.node k).visits ∧ (st.1.node k).winScore ≤ 10 * (st.1.node k).visits)
    (k : Nat) :
    0 ≤ ((MCTS.iteration ext rand opponent rootNode st).1.node k).visits
      ∧ ((MCTS.iteration ext rand opponent rootNode st).1.node k).winScore
          ≤ 10 * ((MCTS.iteration ext rand opponent rootNode st).1.node k).visits := by
  rw [iteration_eq]
  simp only []
  apply backpropagate_scores
  have hv := ((simulate_playout_frame ext rand opponent (MCTS.expanded ext rootNode st)
    (MCTS.nodeToExplore ext rand rootNode st).1
    (MCTS.nodeToExplore ext rand rootNode st).2).2 k).2.2
  have hv1 := ((expanded_invariant ext rootNode st h hl hroot).2.2.2 k).1
  have hw1 := expanded_winScore ext rootNode st h hroot k
  obtain ⟨h0, h10⟩ := hI k
  rw [hv, hv1]
  refine ⟨h0, ?_⟩
  rcases simulate_playout_winScore ext rand opponent (MCTS.expanded ext rootNode st)
    (MCTS.nodeToExplore ext rand rootNode st).1 (MCTS.nodeToExplore ext rand rootNode st).2 k
    with hs | ⟨_, _, hs⟩
  · rw [hs, hw1]
    exact h10
  · rw [hs]
    unfold INT_MIN
    omega

theorem iterate_scores (ext : Externals) (rand : Nat → Nat) (opponent : Int)
    (rootNode : Nat) (N : Nat) (st : Arena × Nat) (h : st.1.rooted) (hl : st.1.linked)
    (hroot : rootNode < st.1.length)
    (hI : ∀ k, 0 ≤ (st.1.node k).visits ∧ (st.1.node k).winScore ≤ 10 * (st.1.node k).visits) :
    ∀ k, 0 ≤ ((Nat.iterate (MCTS.iteration ext rand opponent rootNode) N st).1.node k).visits
      ∧ ((Nat.iterate (MCTS.iteration ext rand opponent rootNode) N st).1.node k).winScore
          ≤ 10 * ((Nat.iterate (MCTS.iteration ext rand opponent rootNode) N st).1.node
              k).visits := by
  induction N generalizing st with
  | zero => exact hI
  | succ n ih =>
    obtain ⟨hr1, hl1, hlen1, _⟩ := iteration_invariant ext rand opponent rootNode st h hl hroot
    simp only [Nat.iterate]
    exact ih _ hr1 hl1 (by omega) (iteration_scores ext rand opponent rootNode st h hl hroot hI)

/-- In a tree whose visit counts are non-negative, a child has at most the visits of its parent
when the children together have at most the visits of the parent. -/
theorem child_visits_le (t : Arena) (p c : Nat) (hI : ∀ k, 0 ≤ (t.node k).visits)
    (hD : t.childVisits p ≤ (t.node p).visits) (hc : c ∈ (t.node p).children) :
    (t.node c).visits ≤ (t.node p).visits := by
  refine le_trans ?_ hD
  unfold Arena.childVisits
  apply List.single_le_sum
  · intro x hx
    rw [List.mem_map] at hx
    obtain ⟨y, _, rfl⟩ := hx
    exact hI y
  · exact List.mem_map.2 ⟨c, hc, rfl⟩

theorem visits_le_root (t : Arena) (h : t.rooted) (hl : t.linked)
    (hI : ∀ k, 0 ≤ (t.node k).visits) (hD : ∀ k, t.childVisits k ≤ (t.node k).visits)
    (k : Nat) (hk : k < t.length) : (t.node k).visits ≤ (t.node 0).visits := by
  induction k using Nat.strong_induction_on with
  | _ k ih =>
    by_cases hk0 : k = 0
    · rw [hk0]
    · obtain ⟨q, hq, hqk⟩ := h.2.2.1 k (by omega) hk
      exact le_trans (child_visits_le t q k hI (hD q) (hl.2.2 k q hk hq)) (ih q hqk (by omega))

/-- The children and the state of every node after a pass of the search loop are those after
its `expand_node` step. -/
theorem iteration_frame (ext : Externals) (rand : Nat → Nat) (opponent : Int)
    (rootNode : Nat) (st : Arena × Nat) (k : Nat) :
    ((MCTS.iteration ext rand opponent rootNode st).1.node k).children
        = ((MCTS.expanded ext rootNode st).node k).children
      ∧ ((MCTS.iteration ext rand opponent rootNode st).1.node k).board
        = ((MCTS.expanded ext rootNode st).node k).board := by
  rw [iteration_eq]
  simp only []
  obtain ⟨_, hbk⟩ := backpropagate_frame
    (MCTS.simulate_playout ext rand opponent (MCTS.expanded ext rootNode st)
      (MCTS.nodeToExplore ext rand rootNode st).1
      (MCTS.nodeToExplore ext rand rootNode st).2).1.length
    (MCTS.simulate_playout ext rand opponent (MCTS.expanded ext rootNode st)
      (MCTS.nodeToExplore ext rand rootNode st).1
      (MCTS.nodeToExplore ext rand rootNode st).2).1
    (some (MCTS.nodeToExplore ext rand rootNode st).1)
    (MCTS.simulate_playout ext rand opponent (MCTS.expanded ext rootNode st)
      (MCTS.nodeToExplore ext rand rootNode st).1
      (MCTS.nodeToExplore ext rand rootNode st).2).2.1
  rw [(hbk k).2.1, (hbk k).2.2.1,
    ((simulate_playout_frame ext rand opponent _ _ _).2 k).2.1,
    (simulate_playout_board ext rand opponent _ _ _ k).1]
  exact ⟨rfl, rfl⟩

/-! ## The nodes that a pass of the search loop visits -/

/-- In a heap built from a fresh root the walk along the parent pointers from a node `x` ends
within `x + 1` steps and passes only nodes with an index of at most `x`. -/
theorem rooted_pathEnds (t : Arena) (h : t.rooted) (x : Nat) (hx : x < t.length) :
    MCTS.pathEnds (x + 1) t (some x) = true
      ∧ ∀ y ∈ MCTS.path (x + 1) t (some x), y ≤ x := by
  induction x using Nat.strong_induction_on with
  | _ x ih =>
    by_cases hx0 : x = 0
    · subst hx0
      have hp : (t.node 0).parent = none := h.2.1
      simp [MCTS.pathEnds, MCTS.path, hp]
    · obtain ⟨q, hq, hqx⟩ := h.2.2.1 x (by omega) hx
      obtain ⟨h1, h2⟩ := ih q hqx (by omega)
      obtain ⟨hm1, hm2⟩ := path_fuel_mono (q + 1) t (some q) h1 x (by omega)
      constructor
      · simp only [MCTS.pathEnds, hq]
        exact hm2
      · intro y hy
        simp only [MCTS.path, hq, List.mem_cons] at hy
        rcases hy with hy | hy
        · omega
        · rw [hm1] at hy
          have := h2 y hy
          omega

theorem up_cons (t : Arena) (h : t.rooted) (x q : Nat) (hx : x < t.length)
    (hq : (t.node x).parent = some q) :
    MCTS.path (x + 1) t (some x) = x :: MCTS.path (q + 1) t (some q) := by
  have hx0 : 0 < x := by
    by_contra hc
    have : x = 0 := by omega
    rw [this, h.2.1] at hq
    cases hq
  obtain ⟨q', hq', hqx⟩ := h.2.2.1 x hx0 hx
  rw [hq] at hq'
  cases hq'
  obtain ⟨h1, _⟩ := rooted_pathEnds t h q (by omega)
  have hstep : MCTS.path (x + 1) t (some x) = x :: MCTS.path x t (t.node x).parent := rfl
  rw [hstep, hq, (path_fuel_mono (q + 1) t (some q) h1 x (by omega)).1]

theorem up_root (t : Arena) : MCTS.path 1 t (some 0) = [0] := by
  simp [MCTS.path]

/-- The visit counts after `backpropagate` from a node `x` of a heap built from a fresh root:
one more at every node on the walk from `x` along the parent pointers, the same elsewhere. -/
theorem backpropagate_visits_up (fuel : Nat) (t : Arena) (x : Nat) (w : Int) (h : t.rooted)
    (hx : x < t.length) (hf : x < fuel) (k : Nat) :
    ((MCTS.backpropagate fuel t (some x) w).node k).visits
      = (t.node k).visits + (if k ∈ MCTS.path (x + 1) t (some x) then 1 else 0) := by
  obtain ⟨h1, h2⟩ := rooted_pathEnds t h x hx
  have hmono := (path_fuel_mono (x + 1) t (some x) h1 fuel (by omega)).1
  have hin : ∀ y ∈ MCTS.path fuel t (some x), y < t.length := by
    intro y hy
    rw [hmono] at hy
    have := h2 y hy
    omega
  rw [(backpropagate_counters fuel t (some x) w hin k).1, hmono]
  have hnd := path_nodup (x + 1) t (some x) h1
  by_cases hk : k ∈ MCTS.path (x + 1) t (some x)
  · rw [List.count_eq_one_of_mem hnd hk, if_pos hk]
    rfl
  · rw [List.count_eq_zero_of_not_mem hk, if_neg hk]
    rfl

theorem path_congr_below (t t' : Arena) (h : t.rooted) (m : Nat)
    (hsame : ∀ k, k < m → (t'.node k).parent = (t.node k).parent) (f x : Nat) (hx : x < m)
    (hxl : x < t.length) :
    MCTS.path f t' (some x) = MCTS.path f t (some x) := by
  induction f generalizing x with
  | zero => rfl
  | succ n ih =>
    simp only [MCTS.path]
    rw [hsame x hx]
    by_cases hx0 : x = 0
    · rw [hx0, h.2.1]
      cases n <;> rfl
    · obtain ⟨q, hq, hqx⟩ := h.2.2.1 x (by omega) hxl
      rw [hq, ih q (by omega) (by omega)]

theorem descent_eq (ext : Externals) (f : Nat) (t : Arena) (n : Nat) :
    MCTS.descent ext (f + 1) t n
      = if (t.node n).children.length != 0 then
          match UCT.best_node_uct ext t n with
          | some c => n :: MCTS.descent ext f t c
          | none => [n]
        else [n] := by
  rfl

/-- Every node that `select_promising_node` passes, other than the start node, is the node
that `best_node_uct` returned for some node. -/
theorem descent_chosen (ext : Externals) (f : Nat) (t : Arena) (n c : Nat)
    (hc : c ∈ MCTS.descent ext f t n) :
    c = n ∨ ∃ e, UCT.best_node_uct ext t e = some c := by
  induction f generalizing n with
  | zero =>
    simp only [MCTS.descent, List.mem_singleton] at hc
    exact Or.inl hc
  | succ g ih =>
    rw [descent_eq] at hc
    split at hc
    · cases hb : UCT.best_node_uct ext t n with
      | none =>
        simp only [hb, List.mem_singleton] at hc
        exact Or.inl hc
      | some b =>
        simp only [hb, List.mem_cons] at hc
        rcases hc with hc | hc
        · exact Or.inl hc
        · rcases ih b hc with e | e
          · right
            exact ⟨n, by rw [hb, e]⟩
          · exact Or.inr e
    · simp only [List.mem_singleton] at hc
      exact Or.inl hc

/-- In a search tree the walk along the parent pointers from the node that
`select_promising_node` returns passes the nodes of the descent in reverse order and then
continues from the start node. -/
theorem up_select (ext : Externals) (f : Nat) (t : Arena) (n : Nat) (h : t.rooted)
    (hl : t.linked) (hn : n < t.length) (hf : t.length ≤ n + f) :
    MCTS.path (MCTS.select_promising_node ext f t n + 1) t
        (some (MCTS.select_promising_node ext f t n))
      = (MCTS.descent ext f t n).reverse ++ (MCTS.path (n + 1) t (some n)).tail := by
  have hup : ∀ x, MCTS.path (x + 1) t (some x)
      = x :: (MCTS.path (x + 1) t (some x)).tail := by
    intro x
    simp [MCTS.path]
  induction f generalizing n with
  | zero => omega
  | succ g ih =>
    rw [descent_eq]
    unfold MCTS.select_promising_node
    by_cases hc : (t.node n).children = []
    · have hlen : ((t.node n).children.length != 0) = false := by simp [hc]
      simp only [hlen, Bool.false_eq_true, if_false, List.reverse_singleton,
        List.singleton_append]
      exact hup n
    · have hlen : ((t.node n).children.length != 0) = true := by simpa using hc
      simp only [hlen, if_true]
      have hlt := max_element_lt (UCT.uct_compare ext t) (t.node n).children hc
      have hget : UCT.best_node_uct ext t n
          = some ((t.node n).children[max_element (UCT.uct_compare ext t) (t.node n).children]) := by
        unfold UCT.best_node_uct
        exact List.getElem?_eq_getElem hlt
      rw [hget]
      simp only []
      have hmem := List.getElem_mem hlt
      have hpar := hl.1 n hn _ hmem
      have hin := h.2.2.2 n hn _ hmem
      generalize (t.node n).children[max_element (UCT.uct_compare ext t) (t.node n).children]
        = b at hpar hin ⊢
      have hgt : n < b := by
        by_cases h0 : b = 0
        · rw [h0, h.2.1] at hpar
          cases hpar
        · obtain ⟨q, hq, hqlt⟩ := h.2.2.1 _ (by omega) hin
          rw [hq] at hpar
          cases hpar
          exact hqlt
      rw [ih b hin (by omega), up_cons t h b n hin hpar]
      simp only [List.tail_cons, List.reverse_cons, List.append_assoc, List.singleton_append]
      rw [← hup n]

/-- The visit count of every node after a pass of the search loop from the root of a search
tree: the same as before, or one more, which happens only to nodes that
`select_promising_node` passed and to nodes that `expand()` created in the pass. -/
theorem iteration_visit_cases (ext : Externals) (rand : Nat → Nat) (opponent : Int)
    (st : Arena × Nat) (h : st.1.rooted) (hl : st.1.linked) (k : Nat) :
    ((MCTS.iteration ext rand opponent 0 st).1.node k).visits = (st.1.node k).visits
      ∨ (((MCTS.iteration ext rand opponent 0 st).1.node k).visits = (st.1.node k).visits + 1
          ∧ (k ∈ MCTS.descent ext st.1.length st.1 0 ∨ st.1.length ≤ k)) := by
  have hroot : 0 < st.1.length := h.1
  obtain ⟨hr1, hl1, hlen1, hd1⟩ := expanded_invariant ext 0 st h hl hroot
  have hx := nodeToExplore_in_heap ext rand 0 st h hl hroot
  obtain ⟨hsl, hsk⟩ := simulate_playout_frame ext rand opponent (MCTS.expanded ext 0 st)
    (MCTS.nodeToExplore ext rand 0 st).1 (MCTS.nodeToExplore ext rand 0 st).2
  have hr2 := rooted_of_same_links _ _ hsl (fun k => (hsk k).1) (fun k => (hsk k).2.1) hr1
  have hvis : ((MCTS.iteration ext rand opponent 0 st).1.node k).visits
      = (st.1.node k).visits
        + (if k ∈ MCTS.path ((MCTS.nodeToExplore ext rand 0 st).1 + 1)
            (MCTS.expanded ext 0 st) (some (MCTS.nodeToExplore ext rand 0 st).1)
          then 1 else 0) := by
    rw [iteration_eq]
    simp only []
    rw [backpropagate_visits_up _ _ _ _ hr2 (by rw [hsl]; exact hx) (by rw [hsl]; exact hx) k,
      (hsk k).2.2, (hd1 k).1, path_congr _ _ _ _ (fun j => (hsk j).1)]
  have hsel : MCTS.path (MCTS.promisingNode ext 0 st + 1) st.1
      (some (MCTS.promisingNode ext 0 st)) = (MCTS.descent ext st.1.length st.1 0).reverse := by
    unfold MCTS.promisingNode
    rw [up_select ext st.1.length st.1 0 h hl hroot (by omega), up_root]
    simp
  by_cases hk : k ∈ MCTS.path ((MCTS.nodeToExplore ext rand 0 st).1 + 1)
      (MCTS.expanded ext 0 st) (some (MCTS.nodeToExplore ext rand 0 st).1)
  · right
    rw [hvis, if_pos hk]
    refine ⟨rfl, ?_⟩
    obtain ⟨h1, h2⟩ := nodeToExplore_spec ext rand 0 st h hl hroot
    have hp := promisingNode_in_heap ext 0 st h hroot
    cases hgo : (st.1.node (MCTS.promisingNode ext 0 st)).board.is_game_over with
    | true =>
      obtain ⟨he, hn⟩ := h2 hgo
      rw [he, hn] at hk
      simp only [] at hk
      rw [hsel, List.mem_reverse] at hk
      exact Or.inl hk
    | false =>
      obtain ⟨_, _, hch, hmem, _, hpar⟩ := h1 hgo
      rw [hch, List.mem_range'_1] at hmem
      rw [up_cons _ hr1 _ _ hx hpar, List.mem_cons] at hk
      rcases hk with hk | hk
      · right
        omega
      · left
        rw [path_congr_below st.1 (MCTS.expanded ext 0 st) h st.1.length
          (fun j hj => (expanded_keeps_counters ext 0 st h hroot j hj).2.2.2) _ _ hp hp,
          hsel, List.mem_reverse] at hk
        exact hk
  · left
    rw [hvis, if_neg hk, add_zero]

/-- The rule of `best_node_uct` in a search tree whose counters are those of a search: the
first child with the greatest UCT value, which is the first child without visits when there is
one. -/
theorem best_node_uct_of_invariants (ext : Externals) (E : ℝ) (T : Arena) (p : Nat)
    (hext : ∀ a b : Int × Int × Int, ext.uct_less a b = true ↔
      UCT.uct_value E ((a.1 : Int) : ℝ) ((a.2.1 : Int) : ℝ) ((a.2.2 : Int) : ℝ)
        < UCT.uct_value E ((b.1 : Int) : ℝ) ((b.2.1 : Int) : ℝ) ((b.2.2 : Int) : ℝ))
    (hE0 : 0 ≤ E) (hE : E ≤ 1000000) (hr : T.rooted) (hl : T.linked)
    (hsc : ∀ k, 0 ≤ (T.node k).visits ∧ (T.node k).winScore ≤ 10 * (T.node k).visits)
    (hD : ∀ k, T.childVisits k ≤ (T.node k).visits)
    (hroot : (T.node 0).visits ≤ 2 ^ 63)
    (hch : (T.node p).children ≠ []) :
    ∃ (i : Nat) (c : Nat), (T.node p).children[i]? = some c
      ∧ UCT.best_node_uct ext T p = some c
      ∧ (∀ (j : Nat) (d : Nat), (T.node p).children[j]? = some d →
          UCT.node_value E T d ≤ UCT.node_value E T c)
      ∧ (∀ (j : Nat) (d : Nat), j < i → (T.node p).children[j]? = some d →
          UCT.node_value E T d < UCT.node_value E T c)
      ∧ ((∃ d ∈ (T.node p).children, (T.node d).visits = 0) →
          (T.node c).visits = 0
            ∧ ∀ (j : Nat) (d : Nat), j < i → (T.node p).children[j]? = some d →
                (T.node d).visits ≠ 0) := by
  have hp : p < T.length := by
    by_contra hc
    rw [Arena.node_of_length_le T (by omega)] at hch
    exact hch rfl
  have hcomp : ∀ a b, UCT.uct_compare ext T a b = true
      ↔ UCT.node_value E T a < UCT.node_value E T b := by
    intro a b
    unfold UCT.uct_compare UCT.node_value
    exact hext _ _
  obtain ⟨c, hc1, hc2, hc3⟩ := max_element_spec_key (UCT.uct_compare ext T)
    (UCT.node_value E T) hcomp (T.node p).children hch
  have hval0 : ∀ d, (T.node d).visits = 0 → UCT.node_value E T d = 2147483647 := by
    intro d hd
    unfold UCT.node_value
    rw [hd, Int.cast_zero, uct_value_unvisited]
  have hvalpos : ∀ d ∈ (T.node p).children, (T.node d).visits ≠ 0 →
      UCT.node_value E T d < 2147483647 := by
    intro d hd hne
    have hdp : (T.node d).parent = some p := hl.1 p hp d hd
    have hpv : TreeNode.get_parent_visits T d = (T.node p).visits := by
      unfold TreeNode.get_parent_visits
      rw [hdp]
    have hvd : 0 < (T.node d).visits := lt_of_le_of_ne (hsc d).1 (fun e => hne e.symm)
    have hle := child_visits_le T p d (fun k => (hsc k).1) (hD p) hd
    have hle0 := visits_le_root T hr hl (fun k => (hsc k).1) hD p hp
    unfold UCT.node_value
    rw [hpv]
    exact uct_value_visited_lt E _ _ _ hE0 hE (by omega) (by omega) hvd (hsc d).2
  refine ⟨max_element (UCT.uct_compare ext T) (T.node p).children, c, hc1, ?_, hc2, hc3, ?_⟩
  · unfold UCT.best_node_uct
    exact hc1
  · rintro ⟨d, hd, hd0⟩
    obtain ⟨j, hj⟩ := List.getElem?_of_mem hd
    have hge := hc2 j d hj
    rw [hval0 d hd0] at hge
    have hc0 : (T.node c).visits = 0 := by
      by_contra hne
      have := hvalpos c (List.getElem?_mem hc1) hne
      linarith
    refine ⟨hc0, ?_⟩
    intro j' d' hj' hd' hzero
    have := hc3 j' d' hj' hd'
    rw [hval0 d' hzero, hval0 c hc0] at this
    exact lt_irrefl _ this

/-- A pass of the search loop keeps the order of first visits: when no child of any node has
a second visit while a sibling has none, the same holds after the pass. -/
theorem iteration_visited_in_turn (ext : Externals) (E : ℝ) (rand : Nat → Nat)
    (opponent : Int) (st : Arena × Nat)
    (hext : ∀ a b : Int × Int × Int, ext.uct_less a b = true ↔
      UCT.uct_value E ((a.1 : Int) : ℝ) ((a.2.1 : Int) : ℝ) ((a.2.2 : Int) : ℝ)
        < UCT.uct_value E ((b.1 : Int) : ℝ) ((b.2.1 : Int) : ℝ) ((b.2.2 : Int) : ℝ))
    (hE0 : 0 ≤ E) (hE : E ≤ 1000000) (h : st.1.rooted) (hl : st.1.linked)
    (hsc : ∀ k, 0 ≤ (st.1.node k).visits ∧ (st.1.node k).winScore ≤ 10 * (st.1.node k).visits)
    (hD : ∀ k, st.1.childVisits k ≤ (st.1.node k).visits)
    (hroot : (st.1.node 0).visits ≤ 2 ^ 63)
    (hJ : ∀ (q c d : Nat), c ∈ (st.1.node q).children → d ∈ (st.1.node q).children →
      2 ≤ (st.1.node c).visits → 1 ≤ (st.1.node d).visits)
    (q c d : Nat)
    (hc : c ∈ ((MCTS.iteration ext rand opponent 0 st).1.node q).children)
    (hd : d ∈ ((MCTS.iteration ext rand opponent 0 st).1.node q).children)
    (h2 : 2 ≤ ((MCTS.iteration ext rand opponent 0 st).1.node c).visits) :
    1 ≤ ((MCTS.iteration ext rand opponent 0 st).1.node d).visits := by
  have hr0 : 0 < st.1.length := h.1
  have hp := promisingNode_in_heap ext 0 st h hr0
  have hleaf := promisingNode_leaf ext 0 st h hl hr0
  obtain ⟨hn1, hn2⟩ := nodeToExplore_spec ext rand 0 st h hl hr0
  have hcl : c < st.1.length := by
    by_contra hge
    have h0 : (st.1.node c).visits = 0 := by
      rw [Arena.node_of_length_le st.1 (by omega)]
      rfl
    rcases iteration_visit_cases ext rand opponent st h hl c with hv | ⟨hv, _⟩
    · rw [hv, h0] at h2
      omega
    · rw [hv, h0] at h2
      omega
  have hsame : ((MCTS.iteration ext rand opponent 0 st).1.node q).children
      = (st.1.node q).children := by
    rw [(iteration_frame ext rand opponent 0 st q).1]
    cases hgo : (st.1.node (MCTS.promisingNode ext 0 st)).board.is_game_over with
    | true => rw [(hn2 hgo).1]
    | false =>
      rw [(hn1 hgo).1, ((expand_fields st.1 _ hp).2 q).2.2.1]
      by_cases hqs : q = MCTS.promisingNode ext 0 st
      · exfalso
        rw [(iteration_frame ext rand opponent 0 st q).1, hqs, (hn1 hgo).2.2.1,
          List.mem_range'_1] at hc
        omega
      · rw [if_neg hqs]
  rw [hsame] at hc hd
  have hql : q < st.1.length := by
    by_contra hge
    rw [Arena.node_of_length_le st.1 (by omega)] at hc
    simp [TreeNode.new] at hc
  have hdmono : (st.1.node d).visits
      ≤ ((MCTS.iteration ext rand opponent 0 st).1.node d).visits := by
    rcases iteration_visit_cases ext rand opponent st h hl d with hv | ⟨hv, _⟩
    · rw [hv]
    · rw [hv]
      omega
  by_cases hc2 : 2 ≤ (st.1.node c).visits
  · have := hJ q c d hc hd hc2
    omega
  · rcases iteration_visit_cases ext rand opponent st h hl c with hv | ⟨hv, hdesc⟩
    · rw [hv] at h2
      exact absurd h2 hc2
    · have hcdesc : c ∈ MCTS.descent ext st.1.length st.1 0 := by
        rcases hdesc with hdesc | hdesc
        · exact hdesc
        · omega
      have hc1 : (st.1.node c).visits ≠ 0 := by
        rw [hv] at h2
        omega
      have hcpar := hl.1 q hql c hc
      rcases descent_chosen ext _ _ _ _ hcdesc with hc0 | ⟨e, he⟩
      · rw [hc0, h.2.1] at hcpar
        cases hcpar
      · have hemem : c ∈ (st.1.node e).children := by
          unfold UCT.best_node_uct at he
          exact List.getElem?_mem he
        have hel : e < st.1.length := by
          by_contra hge
          rw [Arena.node_of_length_le st.1 (by omega)] at hemem
          simp [TreeNode.new] at hemem
        have heq : e = q := by
          have := hl.1 e hel c hemem
          rw [hcpar] at this
          exact (Option.some.inj this).symm
        rw [heq] at he
        obtain ⟨i, c', _, hbest, _, _, hzero⟩ := best_node_uct_of_invariants ext E st.1 q hext
          hE0 hE h hl hsc hD hroot (List.ne_nil_of_mem hc)
        rw [he] at hbest
        cases hbest
        have hd0 : (st.1.node d).visits ≠ 0 := by
          intro hz
          exact hc1 (hzero ⟨d, hd, hz⟩).1
        have := (hsc d).1
        omega

theorem iteration_deficit_nonneg (ext : Externals) (rand : Nat → Nat) (opponent : Int)
    (rootNode : Nat) (st : Arena × Nat) (h : st.1.rooted) (hl : st.1.linked)
    (hroot : rootNode < st.1.length) (hD : ∀ k, st.1.childVisits k ≤ (st.1.node k).visits)
    (k : Nat) :
    (MCTS.iteration ext rand opponent rootNode st).1.childVisits k
      ≤ ((MCTS.iteration ext rand opponent rootNode st).1.node k).visits := by
  have h1 := (iteration_invariant ext rand opponent rootNode st h hl hroot).2.2.2 k
  have h2 := hD k
  split_ifs at h1 <;> omega

/-- After any number of passes of the search loop from the root of a search tree, as long as
the visit count of the root stays within `2^63`: no child of any node has a second visit while
a sibling has none. -/
theorem iterate_visited_in_turn (ext : Externals) (E : ℝ) (rand : Nat → Nat)
    (opponent : Int) (N : Nat) (st : Arena × Nat)
    (hext : ∀ a b : Int × Int × Int, ext.uct_less a b = true ↔
      UCT.uct_value E ((a.1 : Int) : ℝ) ((a.2.1 : Int) : ℝ) ((a.2.2 : Int) : ℝ)
        < UCT.uct_value E ((b.1 : Int) : ℝ) ((b.2.1 : Int) : ℝ) ((b.2.2 : Int) : ℝ))
    (hE0 : 0 ≤ E) (hE : E ≤ 1000000) (h : st.1.rooted) (hl : st.1.linked)
    (hsc : ∀ k, 0 ≤ (st.1.node k).visits ∧ (st.1.node k).winScore ≤ 10 * (st.1.node k).visits)
    (hD : ∀ k, st.1.childVisits k ≤ (st.1.node k).visits)
    (hroot : (st.1.node 0).visits + N ≤ 2 ^ 63)
    (hJ : ∀ (q c d : Nat), c ∈ (st.1.node q).children → d ∈ (st.1.node q).children →
      2 ≤ (st.1.node c).visits → 1 ≤ (st.1.node d).visits) :
    ∀ (q c d : Nat),
      c ∈ ((Nat.iterate (MCTS.iteration ext rand opponent 0) N st).1.node q).children →
      d ∈ ((Nat.iterate (MCTS.iteration ext rand opponent 0) N st).1.node q).children →
      2 ≤ ((Nat.iterate (MCTS.iteration ext rand opponent 0) N st).1.node c).visits →
      1 ≤ ((Nat.iterate (MCTS.iteration ext rand opponent 0) N st).1.node d).visits := by
  induction N generalizing st with
  | zero => exact hJ
  | succ n ih =>
    obtain ⟨hr1, hl1, _, _⟩ := iteration_invariant ext rand opponent 0 st h hl h.1
    have hv := (iteration_root_visit ext rand opponent st h).2
    simp only [Nat.iterate]
    apply ih _ hr1 hl1 (iteration_scores ext rand opponent 0 st h hl h.1 hsc)
      (iteration_deficit_nonneg ext rand opponent 0 st h hl h.1 hD)
    · rw [hv]
      push_cast at hroot ⊢
      omega
    · exact iteration_visited_in_turn ext E rand opponent st hext hE0 hE h hl hsc hD
        (by push_cast at hroot; omega) hJ

/-- C28. In the tree after any number `N ≤ 2^63` of complete passes of the search loop from a
fresh root, with the test of `uct_compare` the comparison of the values of `uct_value` over the
reals and an exploration factor between 0 and 10^6: for every node with children,
`best_node_uct` returns a child that attains the greatest UCT value, the first one in child
order, and when some child has zero visits it returns the first child with zero visits; and no
child of any node has two visits while a child of the same node has none. -/
theorem best_node_uct_first_unvisited (ext : Externals) (E : ℝ) (rand : Nat → Nat) (N : Nat)
    (board : State) (T : Arena) (p : Nat)
    (hext : ∀ a b : Int × Int × Int, ext.uct_less a b = true ↔
      UCT.uct_value E ((a.1 : Int) : ℝ) ((a.2.1 : Int) : ℝ) ((a.2.2 : Int) : ℝ)
        < UCT.uct_value E ((b.1 : Int) : ℝ) ((b.2.1 : Int) : ℝ) ((b.2.2 : Int) : ℝ))
    (hE0 : 0 ≤ E) (hE : E ≤ 1000000) (hN : N ≤ 2 ^ 63)
    (hT : T = (Nat.iterate (MCTS.iteration ext rand (-board.turn) 0) N
      ([{ TreeNode.new board with playerNo := -board.turn }], 0)).1)
    (hch : (T.node p).children ≠ []) :
    (∃ (i : Nat) (c : Nat), (T.node p).children[i]? = some c
      ∧ UCT.best_node_uct ext T p = some c
      ∧ (∀ (j : Nat) (d : Nat), (T.node p).children[j]? = some d →
          UCT.node_value E T d ≤ UCT.node_value E T c)
      ∧ (∀ (j : Nat) (d : Nat), j < i → (T.node p).children[j]? = some d →
          UCT.node_value E T d < UCT.node_value E T c)
      ∧ ((∃ d ∈ (T.node p).children, (T.node d).visits = 0) →
          (T.node c).visits = 0
            ∧ ∀ (j : Nat) (d : Nat), j < i → (T.node p).children[j]? = some d →
                (T.node d).visits ≠ 0))
      ∧ (∀ (q c d : Nat), c ∈ (T.node q).children → d ∈ (T.node q).children →
          2 ≤ (T.node c).visits → 1 ≤ (T.node d).visits) := by
  have hsc0 : ∀ k, 0 ≤ (Arena.node [{ TreeNode.new board with playerNo := -board.turn }] k).visits
      ∧ (Arena.node [{ TreeNode.new board with playerNo := -board.turn }] k).winScore
        ≤ 10 * (Arena.node [{ TreeNode.new board with playerNo := -board.turn }] k).visits := by
    intro k
    cases k with
    | zero => exact ⟨le_refl _, le_refl _⟩
    | succ j =>
      rw [Arena.node_of_length_le _ (by simp)]
      exact ⟨le_refl _, le_refl _⟩
  have hJ0 : ∀ (q c d : Nat),
      c ∈ (Arena.node [{ TreeNode.new board with playerNo := -board.turn }] q).children →
      d ∈ (Arena.node [{ TreeNode.new board with playerNo := -board.turn }] q).children →
      2 ≤ (Arena.node [{ TreeNode.new board with playerNo := -board.turn }] c).visits →
      1 ≤ (Arena.node [{ TreeNode.new board with playerNo := -board.turn }] d).visits := by
    intro q c d hc
    cases q with
    | zero => cases hc
    | succ j =>
      rw [Arena.node_of_length_le _ (by simp)] at hc
      cases hc
  have hN' : (N : Int) ≤ 2 ^ 63 := by exact_mod_cast hN
  have hinv := iterate_invariant ext rand (-board.turn) 0 N
    ([{ TreeNode.new board with playerNo := -board.turn }], 0) (fresh_root_rooted board)
    (fresh_root_linked _ rfl rfl) (by simp) (fresh_root_childVisits _ rfl rfl)
  have hsc := iterate_scores ext rand (-board.turn) 0 N
    ([{ TreeNode.new board with playerNo := -board.turn }], 0) (fresh_root_rooted board)
    (fresh_root_linked _ rfl rfl) (by simp) hsc0
  have hroot := (iterate_root_visits ext rand (-board.turn) N
    ([{ TreeNode.new board with playerNo := -board.turn }], 0) (fresh_root_rooted board)).2
  have h0 : ((([{ TreeNode.new board with playerNo := -board.turn }], 0) :
      Arena × Nat).1.node 0).visits = 0 := rfl
  have hJ := iterate_visited_in_turn ext E rand (-board.turn) N
    ([{ TreeNode.new board with playerNo := -board.turn }], 0) hext hE0 hE
    (fresh_root_rooted board) (fresh_root_linked _ rfl rfl) hsc0
    (fresh_root_childVisits _ rfl rfl) (by rw [h0, zero_add]; exact hN') hJ0
  rw [h0, zero_add] at hroot
  rw [← hT] at hinv hsc hroot hJ
  obtain ⟨hr, hl, _, hD⟩ := hinv
  exact ⟨best_node_uct_of_invariants ext E T p hext hE0 hE hr hl hsc hD
    (by rw [hroot]; exact hN') hch, hJ⟩

/-- Witness of C28: the tree after the first pass from the fresh root of the initial position,
with `rand()` always 1 and exploration factor 1: the root has 81 children, the second of them
has one visit and the others none, and `best_node_uct` on the root returns a child with zero
visits. -/
theorem best_node_uct_first_unvisited_witness :
    (((Nat.iterate (MCTS.iteration (realExternals 1) (fun _ => 1) (-State.init.turn) 0) 1
        ([{ TreeNode.new State.init with playerNo := -State.init.turn }], 0)).1.node
          0).children ≠ [])
      ∧ ∃ (i : Nat) (c : Nat),
        ((Nat.iterate (MCTS.iteration (realExternals 1) (fun _ => 1) (-State.init.turn) 0) 1
          ([{ TreeNode.new State.init with playerNo := -State.init.turn }], 0)).1.node
            0).children[i]? = some c
        ∧ UCT.best_node_uct (realExternals 1)
            (Nat.iterate (MCTS.iteration (realExternals 1) (fun _ => 1) (-State.init.turn) 0) 1
              ([{ TreeNode.new State.init with playerNo := -State.init.turn }], 0)).1 0
            = some c
        ∧ ((Nat.iterate (MCTS.iteration (realExternals 1) (fun _ => 1) (-State.init.turn) 0) 1
            ([{ TreeNode.new State.init with playerNo := -State.init.turn }], 0)).1.node
              c).visits = 0 :=
  ⟨by decide!,
    (best_node_uct_first_unvisited (realExternals 1) 1 (fun _ => 1) 1 State.init _ 0
      (fun _ _ => decide_eq_true_iff) (by norm_num) (by norm_num) (by norm_num) rfl
      (by decide!)).1.elim (fun i hi => hi.elim (fun c hc =>
        ⟨i, c, hc.1, hc.2.1, (hc.2.2.2.2 ⟨1, by decide!, by decide!⟩).1⟩))⟩

/-! ## The shape of the heap across calls of `find_best_next_board` -/

theorem children_nil_of_length_le (t : Arena) {k : Nat} (h : t.length ≤ k) :
    (t.node k).children = [] := by
  rw [Arena.node_of_length_le t h]
  rfl

theorem ordered_of_same_children (t t' : Arena) (hl : t.length ≤ t'.length)
    (hc : ∀ k, (t'.node k).children = (t.node k).children) (h : t.ordered) : t'.ordered := by
  intro k _ c hcm
  rw [hc] at hcm
  by_cases hk' : k < t.length
  · have := h k hk' c hcm
    omega
  · rw [children_nil_of_length_le t (by omega)] at hcm
    cases hcm

theorem linkedFrom_of_same_links (t t' : Arena) (r : Nat)
    (hp : ∀ k, (t'.node k).parent = (t.node k).parent)
    (hc : ∀ k, (t'.node k).children = (t.node k).children) (h : t.linkedFrom r) :
    t'.linkedFrom r := by
  intro k hrk _ c hcm
  rw [hc] at hcm
  rw [hp]
  by_cases hk' : k < t.length
  · exact h k hrk hk' c hcm
  · rw [children_nil_of_length_le t (by omega)] at hcm
    cases hcm

theorem credited_of_same_fields (t t' : Arena) (hl : t'.length = t.length)
    (hc : ∀ k, (t'.node k).children = (t.node k).children)
    (hb : ∀ k, (t'.node k).board = (t.node k).board)
    (hn : ∀ k, (t'.node k).playerNo = (t.node k).playerNo) (h : t.credited) : t'.credited := by
  constructor
  · intro k hk
    rw [hn, hb]
    exact h.1 k (by omega)
  · intro k hk c hcm
    rw [hc] at hcm
    rw [hn, hn]
    exact h.2 k (by omega) c hcm

/-- The descent of `select_promising_node` in a heap whose child pointers point forward stays
inside the heap and never goes below its start. -/
theorem select_bounds (ext : Externals) (fuel : Nat) (t : Arena) (n : Nat) (h : t.ordered)
    (hn : n < t.length) :
    n ≤ MCTS.select_promising_node ext fuel t n
      ∧ MCTS.select_promising_node ext fuel t n < t.length := by
  induction fuel generalizing n with
  | zero => exact ⟨le_refl _, hn⟩
  | succ f ih =>
    unfold MCTS.select_promising_node
    split
    · cases hb : UCT.best_node_uct ext t n with
      | none => exact ⟨le_refl _, hn⟩
      | some c =>
        simp only []
        unfold UCT.best_node_uct at hb
        have hc := h n hn c (List.getElem?_mem hb)
        have := ih c hc.2
        exact ⟨by omega, this.2⟩
    · exact ⟨le_refl _, hn⟩

/-- With as much fuel as the heap has nodes, the descent ends on a node without children. -/
theorem select_leaf_ordered (ext : Externals) (fuel : Nat) (t : Arena) (n : Nat)
    (h : t.ordered) (hn : n < t.length) (hf : t.length ≤ n + fuel) :
    (t.node (MCTS.select_promising_node ext fuel t n)).children = [] := by
  induction fuel generalizing n with
  | zero => omega
  | succ f ih =>
    unfold MCTS.select_promising_node
    by_cases hc : (t.node n).children = []
    · simp [hc]
    · have hlen : ((t.node n).children.length != 0) = true := by simpa using hc
      simp only [hlen, if_true]
      have hlt := max_element_lt (UCT.uct_compare ext t) (t.node n).children hc
      have hget : UCT.best_node_uct ext t n
          = some ((t.node n).children[max_element (UCT.uct_compare ext t) (t.node n).children]) := by
        unfold UCT.best_node_uct
        exact List.getElem?_eq_getElem hlt
      rw [hget]
      simp only []
      have hmem := h n hn _ (List.getElem_mem hlt)
      exact ih _ hmem.2 (by omega)

/-- The node that the descent returns is its start or a child of a node that is not below the
start. -/
theorem select_start_or_child (ext : Externals) (fuel : Nat) (t : Arena) (n : Nat)
    (h : t.ordered) (hn : n < t.length) :
    MCTS.select_promising_node ext fuel t n = n
      ∨ ((t.node n).children ≠ []
          ∧ ∃ e, n ≤ e ∧ e < t.length
            ∧ MCTS.select_promising_node ext fuel t n ∈ (t.node e).children) := by
  induction fuel generalizing n with
  | zero => exact Or.inl rfl
  | succ f ih =>
    unfold MCTS.select_promising_node
    by_cases hc : (t.node n).children = []
    · left
      simp [hc]
    · have hlen : ((t.node n).children.length != 0) = true := by simpa using hc
      simp only [hlen, if_true]
      cases hb : UCT.best_node_uct ext t n with
      | none => exact Or.inl rfl
      | some c =>
        simp only []
        right
        refine ⟨hc, ?_⟩
        have hbm : c ∈ (t.node n).children := by
          unfold UCT.best_node_uct at hb
          exact List.getElem?_mem hb
        have hcb := h n hn c hbm
        rcases ih c hcb.2 with he | ⟨_, e, he1, he2, he3⟩
        · rw [he]
          exact ⟨n, le_refl _, hn, hbm⟩
        · exact ⟨e, by omega, he2, he3⟩

theorem expand_ordered (t : Arena) (p : Nat) (hp : p < t.length) (h : t.ordered) :
    (TreeNode.expand t p).ordered := by
  obtain ⟨hlen, hf⟩ := expand_fields t p hp
  intro k hk c hc
  rw [(hf k).2.2.1] at hc
  rw [hlen]
  by_cases hkp : k = p
  · rw [if_pos hkp, List.mem_append, List.mem_range'_1] at hc
    rcases hc with hc | hc
    · have := h p hp c hc
      omega
    · omega
  · rw [if_neg hkp] at hc
    by_cases hk' : k < t.length
    · have := h k hk' c hc
      omega
    · rw [children_nil_of_length_le t (by omega)] at hc
      cases hc

theorem expand_linkedFrom (t : Arena) (p r : Nat) (hp : p < t.length) (hrp : r ≤ p)
    (h : t.ordered) (hl : t.linkedFrom r) : (TreeNode.expand t p).linkedFrom r := by
  obtain ⟨hlen, hf⟩ := expand_fields t p hp
  have hparent_old : ∀ c, c < t.length →
      ((TreeNode.expand t p).node c).parent = (t.node c).parent := by
    intro c hc
    rw [(hf c).2.2.2]
    have : ¬ (t.length ≤ c ∧ c < t.length + (t.node p).board.legal_moves.length) := by omega
    rw [if_neg this]
  intro k hrk hk c hc
  rw [(hf k).2.2.1] at hc
  by_cases hkp : k = p
  · rw [if_pos hkp, List.mem_append, List.mem_range'_1] at hc
    rcases hc with hc | hc
    · rw [hparent_old c (h p hp c hc).2, hkp]
      exact hl p hrp hp c hc
    · rw [(hf c).2.2.2, if_pos hc, hkp]
  · rw [if_neg hkp] at hc
    by_cases hk' : k < t.length
    · rw [hparent_old c (h k hk' c hc).2]
      exact hl k hrk hk' c hc
    · rw [children_nil_of_length_le t (by omega)] at hc
      cases hc

theorem turn_foldl_play_unplay (ms : List Nat) (s : State) :
    (ms.foldl (fun b m => (b.play m).unplay) s).turn = s.turn := by
  induction ms generalizing s with
  | nil => rfl
  | cons m rest ih =>
    simp only [List.foldl_cons]
    rw [ih, unplay_play]

/-- The credited player and the turn of the state of every node after `expand()` on a node `p`
of the heap: unchanged in the nodes that were in the heap; in the new nodes, the opposite of the
player `p` is credited to and the opposite of the turn of the state of `p`. -/
theorem expand_credit_fields (t : Arena) (p : Nat) (hp : p < t.length) (k : Nat) :
    (k < t.length →
        ((TreeNode.expand t p).node k).playerNo = (t.node k).playerNo
          ∧ ((TreeNode.expand t p).node k).board.turn = (t.node k).board.turn)
      ∧ (t.length ≤ k → k < t.length + (t.node p).board.legal_moves.length →
        ((TreeNode.expand t p).node k).playerNo = -(t.node p).playerNo
          ∧ ((TreeNode.expand t p).node k).board.turn = -(t.node p).board.turn) := by
  rw [expand_eq_foldl]
  obtain ⟨_, h2, h3, h4⟩ := foldl_expandStep_spec (t.node p).board.legal_moves t p hp
  constructor
  · intro hk
    by_cases hkp : k = p
    · rw [hkp, h2]
      exact ⟨rfl, turn_foldl_play_unplay _ _⟩
    · rw [h3 k hk hkp]
      exact ⟨rfl, rfl⟩
  · intro hk1 hk2
    have hi : k - t.length < (t.node p).board.legal_moves.length := by omega
    have h := h4 (k - t.length) _ (List.getElem?_eq_getElem hi)
    rw [show t.length + (k - t.length) = k by omega] at h
    rw [h]
    refine ⟨rfl, ?_⟩
    show -(List.foldl (fun b m => (b.play m).unplay) (t.node p).board
      (List.take (k - t.length) (t.node p).board.legal_moves)).turn = _
    rw [turn_foldl_play_unplay]

theorem expand_credited (t : Arena) (p : Nat) (hp : p < t.length) (h : t.ordered)
    (hc : t.credited) : (TreeNode.expand t p).credited := by
  obtain ⟨hlen, hf⟩ := expand_fields t p hp
  have hcf := expand_credit_fields t p hp
  constructor
  · intro k hk
    rw [hlen] at hk
    by_cases hk' : k < t.length
    · obtain ⟨a, b⟩ := (hcf k).1 hk'
      rw [a, b]
      exact hc.1 k hk'
    · obtain ⟨a, b⟩ := (hcf k).2 (by omega) hk
      rw [a, b, hc.1 p hp]
  · intro k hk c hcm
    rw [(hf k).2.2.1] at hcm
    by_cases hkp : k = p
    · rw [if_pos hkp, List.mem_append, List.mem_range'_1] at hcm
      rw [hkp, ((hcf p).1 hp).1]
      rcases hcm with hcm | hcm
      · rw [((hcf c).1 (h p hp c hcm).2).1]
        exact hc.2 p hp c hcm
      · exact ((hcf c).2 hcm.1 hcm.2).1
    · rw [if_neg hkp] at hcm
      by_cases hk' : k < t.length
      · rw [((hcf c).1 (h k hk' c hcm).2).1, ((hcf k).1 hk').1]
        exact hc.2 k hk' c hcm
      · rw [children_nil_of_length_le t (by omega)] at hcm
        cases hcm

theorem promisingNode_bounds (ext : Externals) (rootNode : Nat) (st : Arena × Nat)
    (h : st.1.ordered) (hroot : rootNode < st.1.length) :
    rootNode ≤ MCTS.promisingNode ext rootNode st
      ∧ MCTS.promisingNode ext rootNode st < st.1.length :=
  select_bounds ext st.1.length st.1 rootNode h hroot

theorem promisingNode_leaf_ordered (ext : Externals) (rootNode : Nat) (st : Arena × Nat)
    (h : st.1.ordered) (hroot : rootNode < st.1.length) :
    (st.1.node (MCTS.promisingNode ext rootNode st)).children = [] :=
  select_leaf_ordered ext st.1.length st.1 rootNode h hroot (by omega)

/-- The `expand_node` step of a pass keeps the shape of the heap and the crediting of its
nodes. -/
theorem expanded_shape (ext : Externals) (rootNode : Nat) (st : Arena × Nat)
    (h : st.1.ordered) (hl : st.1.linkedFrom rootNode) (hroot : rootNode < st.1.length) :
    (MCTS.expanded ext rootNode st).ordered
      ∧ (MCTS.expanded ext rootNode st).linkedFrom rootNode
      ∧ st.1.length ≤ (MCTS.expanded ext rootNode st).length
      ∧ (st.1.credited → (MCTS.expanded ext rootNode st).credited) := by
  obtain ⟨hp1, hp2⟩ := promisingNode_bounds ext rootNode st h hroot
  unfold MCTS.expanded
  split
  · exact ⟨expand_ordered st.1 _ hp2 h, expand_linkedFrom st.1 _ _ hp2 hp1 h hl,
      by rw [(expand_fields st.1 _ hp2).1]; omega, expand_credited st.1 _ hp2 h⟩
  · exact ⟨h, hl, le_refl _, fun hc => hc⟩

/-- What `simulate_playout` and `backpropagate` leave alone: the length of the heap and, in
every node, the parent pointer, the children, the state and the credited player are after a
pass what they are after its `expand_node` step. -/
theorem iteration_frame_all (ext : Externals) (rand : Nat → Nat) (opponent : Int)
    (rootNode : Nat) (st : Arena × Nat) :
    (MCTS.iteration ext rand opponent rootNode st).1.length
        = (MCTS.expanded ext rootNode st).length
      ∧ ∀ k, ((MCTS.iteration ext rand opponent rootNode st).1.node k).parent
            = ((MCTS.expanded ext rootNode st).node k).parent
          ∧ ((MCTS.iteration ext rand opponent rootNode st).1.node k).children
            = ((MCTS.expanded ext rootNode st).node k).children
          ∧ ((MCTS.iteration ext rand opponent rootNode st).1.node k).board
            = ((MCTS.expanded ext rootNode st).node k).board
          ∧ ((MCTS.iteration ext rand opponent rootNode st).1.node k).playerNo
            = ((MCTS.expanded ext rootNode st).node k).playerNo := by
  rw [iteration_eq]
  simp only []
  obtain ⟨hbl, hbk⟩ := backpropagate_frame
    (MCTS.simulate_playout ext rand opponent (MCTS.expanded ext rootNode st)
      (MCTS.nodeToExplore ext rand rootNode st).1
      (MCTS.nodeToExplore ext rand rootNode st).2).1.length
    (MCTS.simulate_playout ext rand opponent (MCTS.expanded ext rootNode st)
      (MCTS.nodeToExplore ext rand rootNode st).1
      (MCTS.nodeToExplore ext rand rootNode st).2).1
    (some (MCTS.nodeToExplore ext rand rootNode st).1)
    (MCTS.simulate_playout ext rand opponent (MCTS.expanded ext rootNode st)
      (MCTS.nodeToExplore ext rand rootNode st).1
      (MCTS.nodeToExplore ext rand rootNode st).2).2.1
  obtain ⟨hsl, hsk⟩ := simulate_playout_frame ext rand opponent (MCTS.expanded ext rootNode st)
    (MCTS.nodeToExplore ext rand rootNode st).1 (MCTS.nodeToExplore ext rand rootNode st).2
  refine ⟨by rw [hbl, hsl], ?_⟩
  intro k
  obtain ⟨b1, b2, b3, b4⟩ := hbk k
  obtain ⟨s1, s2, _⟩ := hsk k
  obtain ⟨s3, s4⟩ := simulate_playout_board ext rand opponent (MCTS.expanded ext rootNode st)
    (MCTS.nodeToExplore ext rand rootNode st).1 (MCTS.nodeToExplore ext rand rootNode st).2 k
  rw [b1, b2, b3, b4, s1, s2, s3, s4]
  exact ⟨rfl, rfl, rfl, rfl⟩

/-- A pass of the search loop keeps the shape of the heap and the crediting of its nodes. -/
theorem iteration_shape (ext : Externals) (rand : Nat → Nat) (opponent : Int)
    (rootNode : Nat) (st : Arena × Nat)
    (h : st.1.ordered) (hl : st.1.linkedFrom rootNode) (hroot : rootNode < st.1.length) :
    (MCTS.iteration ext rand opponent rootNode st).1.ordered
      ∧ (MCTS.iteration ext rand opponent rootNode st).1.linkedFrom rootNode
      ∧ st.1.length ≤ (MCTS.iteration ext rand opponent rootNode st).1.length
      ∧ (st.1.credited → (MCTS.iteration ext rand opponent rootNode st).1.credited) := by
  obtain ⟨h1, h2, h3, h4⟩ := expanded_shape ext rootNode st h hl hroot
  obtain ⟨hlen, hk⟩ := iteration_frame_all ext rand opponent rootNode st
  refine ⟨ordered_of_same_children _ _ (by omega) (fun k => (hk k).2.1) h1,
    linkedFrom_of_same_links _ _ _ (fun k => (hk k).1) (fun k => (hk k).2.1) h2,
    by omega, ?_⟩
  intro hc
  exact credited_of_same_fields _ _ hlen (fun k => (hk k).2.1) (fun k => (hk k).2.2.1)
    (fun k => (hk k).2.2.2) (h4 hc)

theorem iterate_shape (ext : Externals) (rand : Nat → Nat) (opponent : Int)
    (rootNode : Nat) (N : Nat) (st : Arena × Nat)
    (h : st.1.ordered) (hl : st.1.linkedFrom rootNode) (hroot : rootNode < st.1.length) :
    (Nat.iterate (MCTS.iteration ext rand opponent rootNode) N st).1.ordered
      ∧ (Nat.iterate (MCTS.iteration ext rand opponent rootNode) N st).1.linkedFrom rootNode
      ∧ st.1.length ≤ (Nat.iterate (MCTS.iteration ext rand opponent rootNode) N st).1.length
      ∧ (st.1.credited →
          (Nat.iterate (MCTS.iteration ext rand opponent rootNode) N st).1.credited) := by
  induction N generalizing st with
  | zero => exact ⟨h, hl, le_refl _, fun hc => hc⟩
  | succ n ih =>
    obtain ⟨h1, h2, h3, h4⟩ := iteration_shape ext rand opponent rootNode st h hl hroot
    obtain ⟨i1, i2, i3, i4⟩ := ih _ h1 h2 (by omega)
    simp only [Nat.iterate]
    exact ⟨i1, i2, by omega, fun hc => i4 (h4 hc)⟩

/-- The node chosen for simulation in a pass from a root that has children or whose state is
not game over: it is not the root and its parent pointer points to a node of the heap; and
after the pass the root has children. -/
theorem nodeToExplore_has_parent (ext : Externals) (rand : Nat → Nat) (opponent : Int)
    (rootNode : Nat) (st : Arena × Nat)
    (h : st.1.ordered) (hl : st.1.linkedFrom rootNode) (hroot : rootNode < st.1.length)
    (hq : (st.1.node rootNode).children ≠ []
      ∨ (st.1.node rootNode).board.is_game_over = false) :
    (MCTS.nodeToExplore ext rand rootNode st).1 ≠ rootNode
      ∧ (∃ q, ((MCTS.expanded ext rootNode st).node
            (MCTS.nodeToExplore ext rand rootNode st).1).parent = some q
          ∧ q < (MCTS.expanded ext rootNode st).length)
      ∧ ((MCTS.iteration ext rand opponent rootNode st).1.node rootNode).children ≠ [] := by
  obtain ⟨hp1, hp2⟩ := promisingNode_bounds ext rootNode st h hroot
  have hleaf := promisingNode_leaf_ordered ext rootNode st h hroot
  have hsel := select_start_or_child ext st.1.length st.1 rootNode h hroot
  rw [(iteration_frame_all ext rand opponent rootNode st).2 rootNode |>.2.1]
  cases hgo : (st.1.node (MCTS.promisingNode ext rootNode st)).board.is_game_over with
  | false =>
    have hexp : MCTS.expanded ext rootNode st
        = TreeNode.expand st.1 (MCTS.promisingNode ext rootNode st) := by
      unfold MCTS.expanded
      simp only [hgo, Bool.not_false, if_true]
    have hne := legal_moves_ne_nil_of_not_game_over _ hgo
    obtain ⟨hlen, hf⟩ := expand_fields st.1 _ hp2
    have hch : ((MCTS.expanded ext rootNode st).node
        (MCTS.promisingNode ext rootNode st)).children
        = List.range' st.1.length
            (st.1.node (MCTS.promisingNode ext rootNode st)).board.legal_moves.length := by
      rw [hexp, (hf _).2.2.1, if_pos rfl, hleaf, List.nil_append]
    have hchlen : ((MCTS.expanded ext rootNode st).node
        (MCTS.promisingNode ext rootNode st)).children.length
        = (st.1.node (MCTS.promisingNode ext rootNode st)).board.legal_moves.length := by
      rw [hch, List.length_range']
    have hlt : rand st.2 % ((MCTS.expanded ext rootNode st).node
        (MCTS.promisingNode ext rootNode st)).children.length
        < ((MCTS.expanded ext rootNode st).node
          (MCTS.promisingNode ext rootNode st)).children.length :=
      Nat.mod_lt _ (by omega)
    have hnte : (MCTS.nodeToExplore ext rand rootNode st).1
        = ((MCTS.expanded ext rootNode st).node
            (MCTS.promisingNode ext rootNode st)).children[rand st.2
              % ((MCTS.expanded ext rootNode st).node
                (MCTS.promisingNode ext rootNode st)).children.length] := by
      have hb : (((MCTS.expanded ext rootNode st).node
          (MCTS.promisingNode ext rootNode st)).children.length != 0) = true := by
        simp only [bne_iff_ne, ne_eq]
        omega
      unfold MCTS.nodeToExplore
      simp only [hb, if_true]
      unfold TreeNode.random_child
      rw [List.getElem?_eq_getElem hlt]
      rfl
    have hmem : (MCTS.nodeToExplore ext rand rootNode st).1
        ∈ List.range' st.1.length
            (st.1.node (MCTS.promisingNode ext rootNode st)).board.legal_moves.length := by
      rw [hnte, ← hch]
      exact List.getElem_mem hlt
    rw [List.mem_range'_1] at hmem
    refine ⟨by omega, ⟨MCTS.promisingNode ext rootNode st, ?_, ?_⟩, ?_⟩
    · rw [hexp, (hf _).2.2.2, if_pos hmem]
    · rw [hexp, hlen]
      omega
    · rcases hsel with hs | ⟨hs, _⟩
      · have hs' : MCTS.promisingNode ext rootNode st = rootNode := hs
        rw [hs'] at hch hne
        rw [hch]
        intro hnil
        have := congrArg List.length hnil
        rw [List.length_range'] at this
        exact hne this
      · rw [hexp, (hf rootNode).2.2.1]
        by_cases hrp : rootNode = MCTS.promisingNode ext rootNode st
        · rw [hrp] at hs
          exact absurd hleaf hs
        · rw [if_neg hrp]
          exact hs
  | true =>
    have hexp : MCTS.expanded ext rootNode st = st.1 := by
      unfold MCTS.expanded
      simp only [hgo, Bool.not_true, Bool.false_eq_true, if_false]
    have hnte : MCTS.nodeToExplore ext rand rootNode st
        = (MCTS.promisingNode ext rootNode st, st.2) := by
      unfold MCTS.nodeToExplore
      rw [hexp, hleaf]
      rfl
    rw [hnte, hexp]
    simp only []
    rcases hsel with hs | ⟨hs, e, he1, he2, he3⟩
    · have hs' : MCTS.promisingNode ext rootNode st = rootNode := hs
      rw [hs'] at hleaf hgo
      rcases hq with hq | hq
      · exact absurd hleaf hq
      · rw [hq] at hgo
        cases hgo
    · have he3' : MCTS.promisingNode ext rootNode st ∈ (st.1.node e).children := he3
      have hpar := hl e he1 he2 _ he3'
      have hlt := (h e he2 _ he3').1
      exact ⟨by omega, ⟨e, hpar, he2⟩, hs⟩

/-- What `prune` does to a heap whose child pointers point forward: the heap keeps its length,
its children, states and credited players; a node it returns is a child of `P` whose state
equals the target, and from that node on the parent pointers still point back. -/
theorem prune_shape (ext : Externals) (t : Arena) (P : Nat) (target : State)
    (h : t.ordered) (hP : P < t.length) (hl : t.linkedFrom P) :
    (MCTS.prune ext t P target).1.length = t.length
      ∧ (MCTS.prune ext t P target).1.ordered
      ∧ (t.credited → (MCTS.prune ext t P target).1.credited)
      ∧ (∀ k, ((MCTS.prune ext t P target).1.node k).children = (t.node k).children
          ∧ ((MCTS.prune ext t P target).1.node k).board = (t.node k).board)
      ∧ (∀ out, (MCTS.prune ext t P target).2 = some out →
          out < t.length ∧ P < out ∧ (MCTS.prune ext t P target).1.linkedFrom out
            ∧ ext.state_eq (t.node out).board target = true) := by
  have hupd : ∀ (out k : Nat),
      ((t.update out (fun nd => { nd with parent := none })).node k).children
          = (t.node k).children
        ∧ ((t.update out (fun nd => { nd with parent := none })).node k).board = (t.node k).board
        ∧ ((t.update out (fun nd => { nd with parent := none })).node k).playerNo
          = (t.node k).playerNo
        ∧ (k ≠ out → ((t.update out (fun nd => { nd with parent := none })).node k).parent
          = (t.node k).parent) := by
    intro out k
    rw [Arena.node_update]
    split
    · rename_i hk
      rw [hk.1]
      exact ⟨rfl, rfl, rfl, fun hne => absurd rfl hne⟩
    · exact ⟨rfl, rfl, rfl, fun _ => rfl⟩
  unfold MCTS.prune
  cases hfind : (t.node P).children.find? (fun child => ext.state_eq (t.node child).board target)
    with
  | none =>
    refine ⟨rfl, h, fun hc => hc, fun k => ⟨rfl, rfl⟩, ?_⟩
    intro out hout
    cases hout
  | some out =>
    simp only []
    have hmem := List.mem_of_find?_eq_some hfind
    have hfound := List.find?_some hfind
    have hout := h P hP out hmem
    refine ⟨Arena.length_update _ _ _,
      ordered_of_same_children _ _ (by rw [Arena.length_update]) (fun k => (hupd out k).1) h,
      fun hc => credited_of_same_fields _ _ (Arena.length_update _ _ _)
        (fun k => (hupd out k).1) (fun k => (hupd out k).2.1) (fun k => (hupd out k).2.2.1) hc,
      fun k => ⟨(hupd out k).1, (hupd out k).2.1⟩, ?_⟩
    intro out' hout'
    simp only [Option.some.injEq] at hout'
    subst hout'
    refine ⟨hout.2, hout.1, ?_, hfound⟩
    intro k hrk hk c hc
    rw [Arena.length_update] at hk
    rw [(hupd out k).1] at hc
    have hck := h k hk c hc
    rw [(hupd out c).2.2.2 (by omega)]
    exact hl k (by omega) hk c hc

theorem append_root_shape (t : Arena) (nd : TreeNode) (hch : nd.children = [])
    (hpl : nd.playerNo = -nd.board.turn) (h : t.ordered) :
    (t ++ [nd]).ordered ∧ (t ++ [nd]).linkedFrom t.length
      ∧ (t.credited → (t ++ [nd]).credited) ∧ (t ++ [nd]).node t.length = nd := by
  have hnode : ∀ k, k < t.length → (t ++ [nd]).node k = t.node k := by
    intro k hk
    rw [Arena.node_append, if_pos hk]
  have hlast : (t ++ [nd]).node t.length = nd := by
    rw [Arena.node_append, if_neg (lt_irrefl _), if_pos rfl]
  have hlen : (t ++ [nd]).length = t.length + 1 := by simp
  refine ⟨?_, ?_, ?_, hlast⟩
  · intro k hk c hc
    rw [hlen] at hk ⊢
    by_cases hk' : k < t.length
    · rw [hnode k hk'] at hc
      have := h k hk' c hc
      omega
    · have hkl : k = t.length := by omega
      rw [hkl, hlast, hch] at hc
      cases hc
  · intro k hrk hk c hc
    rw [hlen] at hk
    have hkl : k = t.length := by omega
    rw [hkl, hlast, hch] at hc
    cases hc
  · intro hc
    constructor
    · intro k hk
      rw [hlen] at hk
      by_cases hk' : k < t.length
      · rw [hnode k hk']
        exact hc.1 k hk'
      · have hkl : k = t.length := by omega
        rw [hkl, hlast]
        exact hpl
    · intro k hk c hcm
      rw [hlen] at hk
      by_cases hk' : k < t.length
      · rw [hnode k hk'] at hcm ⊢
        rw [hnode c (h k hk' c hcm).2]
        exact hc.2 k hk' c hcm
      · have hkl : k = t.length := by omega
        rw [hkl, hlast, hch] at hcm
        cases hcm

/-- The root that `find_best_next_board` sets up on a retained tree: a node of the heap from
which the parent pointers point back; it is a fresh node without children wrapping the position,
or a retained node whose state equals the position. -/
theorem root_setup_shape (ext : Externals) (t : Arena) (preservedNode : Option Nat)
    (board : State) (h : t.ordered)
    (hpn : ∀ p, preservedNode = some p → p < t.length ∧ t.linkedFrom p) :
    (MCTS.root_setup ext t preservedNode board).1.ordered
      ∧ (MCTS.root_setup ext t preservedNode board).2
          < (MCTS.root_setup ext t preservedNode board).1.length
      ∧ (MCTS.root_setup ext t preservedNode board).1.linkedFrom
          (MCTS.root_setup ext t preservedNode board).2
      ∧ (t.credited → (MCTS.root_setup ext t preservedNode board).1.credited)
      ∧ (((MCTS.root_setup ext t preservedNode board).1.node
            (MCTS.root_setup ext t preservedNode board).2).board = board
          ∨ ext.state_eq ((MCTS.root_setup ext t preservedNode board).1.node
              (MCTS.root_setup ext t preservedNode board).2).board board = true) := by
  have hfresh : ∀ t' : Arena, t'.ordered →
      (t' ++ [{ TreeNode.new board with playerNo := -board.turn }]).ordered
        ∧ t'.length < (t' ++ [{ TreeNode.new board with playerNo := -board.turn }]).length
        ∧ (t' ++ [{ TreeNode.new board with playerNo := -board.turn }]).linkedFrom t'.length
        ∧ (t'.credited →
            (t' ++ [{ TreeNode.new board with playerNo := -board.turn }]).credited)
        ∧ (((t' ++ [{ TreeNode.new board with playerNo := -board.turn }]).node
              t'.length).board = board
            ∨ ext.state_eq ((t' ++ [{ TreeNode.new board with playerNo := -board.turn }]).node
                t'.length).board board = true) := by
    intro t' ht'
    obtain ⟨a, b, c, d⟩ := append_root_shape t'
      { TreeNode.new board with playerNo := -board.turn } rfl rfl ht'
    refine ⟨a, by simp, b, c, Or.inl ?_⟩
    rw [d]
    rfl
  unfold MCTS.root_setup
  cases preservedNode with
  | none =>
    simp only []
    exact hfresh t h
  | some p =>
    obtain ⟨hp, hlp⟩ := hpn p rfl
    obtain ⟨p1, p2, p3, p4, p5⟩ := prune_shape ext t p board h hp hlp
    simp only []
    cases hpr : (MCTS.prune ext t p board).2 with
    | none =>
      simp only []
      obtain ⟨f1, f2, f3, f4, f5⟩ := hfresh _ p2
      exact ⟨f1, f2, f3, fun hc => f4 (p3 hc), f5⟩
    | some r =>
      simp only []
      obtain ⟨q1, q2, q3, q4⟩ := p5 r hpr
      refine ⟨p2, by rw [p1]; exact q1, q3, p3, Or.inr ?_⟩
      rw [(p4 r).2]
      exact q4

/-- The tree and the `preservedNode` that `find_best_next_board` leaves, from the root set-up,
the passes of the loop and the final `prune`. -/
theorem find_best_next_board_tree (ext : Externals) (rand : Nat → Nat) (iterations : Nat)
    (t : Arena) (preservedNode : Option Nat) (board : State) :
    ((MCTS.find_best_next_board ext rand iterations t preservedNode board).tree,
        (MCTS.find_best_next_board ext rand iterations t preservedNode board).preservedNode)
      = (match TreeNode.best_child
            (Nat.iterate (MCTS.iteration ext rand (-board.turn)
                (MCTS.root_setup ext t preservedNode board).2) iterations
              ((MCTS.root_setup ext t preservedNode board).1, 0)).1
            (MCTS.root_setup ext t preservedNode board).2 with
        | none =>
          ((Nat.iterate (MCTS.iteration ext rand (-board.turn)
                (MCTS.root_setup ext t preservedNode board).2) iterations
              ((MCTS.root_setup ext t preservedNode board).1, 0)).1, none)
        | some best =>
          MCTS.prune ext
            (Nat.iterate (MCTS.iteration ext rand (-board.turn)
                (MCTS.root_setup ext t preservedNode board).2) iterations
              ((MCTS.root_setup ext t preservedNode board).1, 0)).1
            (MCTS.root_setup ext t preservedNode board).2
            ((Nat.iterate (MCTS.iteration ext rand (-board.turn)
                (MCTS.root_setup ext t preservedNode board).2) iterations
              ((MCTS.root_setup ext t preservedNode board).1, 0)).1.node best).board) := by
  unfold MCTS.find_best_next_board MCTS.root_setup
  cases preservedNode with
  | none =>
    simp only []
    split <;> rfl
  | some p =>
    simp only []
    cases hp : (MCTS.prune ext t p board).2 with
    | none =>
      simp only []
      split <;> rfl
    | some r =>
      simp only []
      split <;> rfl

/-- The shape of every state of a search object: child pointers point forward inside the heap,
every node is credited to minus the turn of its state and to the opposite of its parent's
credited player, and `preservedNode`, when set, is a node of the heap from which the parent
pointers point back. -/
theorem retained_shape (ext : Externals) (t : Arena) (preservedNode : Option Nat)
    (h : MCTS.Retained ext t preservedNode) :
    t.ordered ∧ t.credited
      ∧ ∀ p, preservedNode = some p → p < t.length ∧ t.linkedFrom p := by
  induction h with
  | fresh =>
    refine ⟨?_, ⟨?_, ?_⟩, ?_⟩
    · intro k hk
      simp at hk
    · intro k hk
      simp at hk
    · intro k hk
      simp at hk
    · intro p hp
      cases hp
  | call t pn rand N board _ ih =>
    obtain ⟨i1, i2, i3⟩ := ih
    obtain ⟨r1, r2, r3, r4, _⟩ := root_setup_shape ext t pn board i1 i3
    obtain ⟨s1, s2, s3, s4⟩ := iterate_shape ext rand (-board.turn)
      (MCTS.root_setup ext t pn board).2 N ((MCTS.root_setup ext t pn board).1, 0) r1 r3 r2
    have heq := find_best_next_board_tree ext rand N t pn board
    have htree := congrArg Prod.fst heq
    have hpres := congrArg Prod.snd heq
    simp only [] at htree hpres
    rw [htree, hpres]
    cases hb : TreeNode.best_child
        (Nat.iterate (MCTS.iteration ext rand (-board.turn)
            (MCTS.root_setup ext t pn board).2) N
          ((MCTS.root_setup ext t pn board).1, 0)).1
        (MCTS.root_setup ext t pn board).2 with
    | none =>
      simp only []
      refine ⟨s1, s4 (r4 i2), ?_⟩
      intro p hp
      cases hp
    | some best =>
      simp only []
      have hr : (MCTS.root_setup ext t pn board).2
          < (Nat.iterate (MCTS.iteration ext rand (-board.turn)
              (MCTS.root_setup ext t pn board).2) N
            ((MCTS.root_setup ext t pn board).1, 0)).1.length := by
        have : (MCTS.root_setup ext t pn board).2
            < (MCTS.root_setup ext t pn board).1.length := r2
        simp only [] at s3
        omega
      obtain ⟨p1, p2, p3, _, p5⟩ := prune_shape ext _ _
        ((Nat.iterate (MCTS.iteration ext rand (-board.turn)
            (MCTS.root_setup ext t pn board).2) N
          ((MCTS.root_setup ext t pn board).1, 0)).1.node best).board s1 hr s2
      refine ⟨p2, p3 (s4 (r4 i2)), ?_⟩
      intro p hp
      obtain ⟨q1, _, q3, _⟩ := p5 p hp
      exact ⟨by rw [p1]; exact q1, q3⟩

/-! ## Invariants of the search across calls and passes -/

/-- C31. For every state of a search object (the tree retained after any sequence of calls of
`find_best_next_board`, from a fresh object), every position passed to the next call, every
sequence of values of `rand()` and every number `i` of passes of the loop: in the tree after
the root set-up and `i` passes, every node is credited to minus the turn of the state it wraps,
and every child of every node is credited to the opposite of the player that node is credited
to. -/
theorem nodes_credited_to_mover (ext : Externals) (t : Arena) (preservedNode : Option Nat)
    (hret : MCTS.Retained ext t preservedNode) (rand : Nat → Nat) (board : State) (i : Nat)
    (T : Arena)
    (hT : T = (Nat.iterate (MCTS.iteration ext rand (-board.turn)
        (MCTS.root_setup ext t preservedNode board).2) i
      ((MCTS.root_setup ext t preservedNode board).1, 0)).1) :
    (∀ k, k < T.length → (T.node k).playerNo = -(T.node k).board.turn)
      ∧ (∀ k, k < T.length → ∀ c ∈ (T.node k).children,
          (T.node c).playerNo = -(T.node k).playerNo) := by
  obtain ⟨i1, i2, i3⟩ := retained_shape ext t preservedNode hret
  obtain ⟨r1, r2, r3, r4, _⟩ := root_setup_shape ext t preservedNode board i1 i3
  obtain ⟨_, _, _, s4⟩ := iterate_shape ext rand (-board.turn)
    (MCTS.root_setup ext t preservedNode board).2 i
    ((MCTS.root_setup ext t preservedNode board).1, 0) r1 r3 r2
  rw [hT]
  exact s4 (r4 i2)

/-- Witness of C31: the search object after a first call for the initial position (two passes,
`rand()` always 1, `operator==` equality of states), which retains the root's first child; the
second call, for the position after the moves 0 and 1, takes that node's child at heap index 82
as its root; after one pass the new node at heap index 91 is credited to player -1, the
opposite of the player its parent is credited to, and its state has turn 1. -/
theorem nodes_credited_to_mover_witness :
    MCTS.Retained exactExternals firstSearch.tree firstSearch.preservedNode
      ∧ 91 < ((Nat.iterate (MCTS.iteration exactExternals (fun _ => 1) (-secondBoard.turn)
          (MCTS.root_setup exactExternals firstSearch.tree firstSearch.preservedNode
            secondBoard).2) 1
        ((MCTS.root_setup exactExternals firstSearch.tree firstSearch.preservedNode
            secondBoard).1, 0)).1).length
      ∧ (((Nat.iterate (MCTS.iteration exactExternals (fun _ => 1) (-secondBoard.turn)
          (MCTS.root_setup exactExternals firstSearch.tree firstSearch.preservedNode
            secondBoard).2) 1
        ((MCTS.root_setup exactExternals firstSearch.tree firstSearch.preservedNode
            secondBoard).1, 0)).1).node 91).playerNo
        = -(((Nat.iterate (MCTS.iteration exactExternals (fun _ => 1) (-secondBoard.turn)
          (MCTS.root_setup exactExternals firstSearch.tree firstSearch.preservedNode
            secondBoard).2) 1
        ((MCTS.root_setup exactExternals firstSearch.tree firstSearch.preservedNode
            secondBoard).1, 0)).1).node 91).board.turn :=
  ⟨MCTS.Retained.call [] none (fun _ => 1) 2 State.init MCTS.Retained.fresh, by decide!,
    (nodes_credited_to_mover exactExternals firstSearch.tree firstSearch.preservedNode
      (MCTS.Retained.call [] none (fun _ => 1) 2 State.init MCTS.Retained.fresh)
      (fun _ => 1) secondBoard 1 _ rfl).1 91 (by decide!)⟩

theorem iterate_root_open (ext : Externals) (rand : Nat → Nat) (opponent : Int)
    (rootNode : Nat) (N : Nat) (st : Arena × Nat)
    (h : st.1.ordered) (hl : st.1.linkedFrom rootNode) (hroot : rootNode < st.1.length)
    (hq : (st.1.node rootNode).children ≠ []
      ∨ (st.1.node rootNode).board.is_game_over = false) :
    (Nat.iterate (MCTS.iteration ext rand opponent rootNode) N st).1.ordered
      ∧ (Nat.iterate (MCTS.iteration ext rand opponent rootNode) N st).1.linkedFrom rootNode
      ∧ rootNode < (Nat.iterate (MCTS.iteration ext rand opponent rootNode) N st).1.length
      ∧ (((Nat.iterate (MCTS.iteration ext rand opponent rootNode) N st).1.node
              rootNode).children ≠ []
          ∨ ((Nat.iterate (MCTS.iteration ext rand opponent rootNode) N st).1.node
              rootNode).board.is_game_over = false) := by
  induction N generalizing st with
  | zero => exact ⟨h, hl, hroot, hq⟩
  | succ n ih =>
    obtain ⟨h1, h2, h3, _⟩ := iteration_shape ext rand opponent rootNode st h hl hroot
    simp only [Nat.iterate]
    exact ih _ h1 h2 (by omega)
      (Or.inl (nodeToExplore_has_parent ext rand opponent rootNode st h hl hroot hq).2.2)

theorem state_eq_exact (a b : State) (h : exactExternals.state_eq a b = true) : a = b := by
  unfold exactExternals at h
  simp only [Bool.and_eq_true, List.all_eq_true, decide_eq_true_eq] at h
  obtain ⟨⟨⟨h1, h2⟩, h3⟩, h4⟩ := h
  cases a
  cases b
  simp only [State.mk.injEq]
  exact ⟨funext (fun j => h1 j (mem_boards j)), h2, h3, h4⟩

/-- C32. For every state of a search object (the tree retained after any sequence of calls of
`find_best_next_board`, from a fresh object) and every call of `find_best_next_board` with a
position that is not game over, the object being fresh or `operator==` holding of no state that
is game over and this position: in every pass of the loop the node passed to
`simulate_playout` is not the root, and its parent pointer is set and points to a node of the
heap. -/
theorem simulated_node_has_parent (ext : Externals) (t : Arena) (preservedNode : Option Nat)
    (hret : MCTS.Retained ext t preservedNode) (rand : Nat → Nat) (board : State)
    (hboard : board.is_game_over = false)
    (hEq : preservedNode = none
      ∨ ∀ a, ext.state_eq a board = true → a.is_game_over = false) (i : Nat) :
    (MCTS.nodeToExplore ext rand (MCTS.root_setup ext t preservedNode board).2
        (Nat.iterate (MCTS.iteration ext rand (-board.turn)
            (MCTS.root_setup ext t preservedNode board).2) i
          ((MCTS.root_setup ext t preservedNode board).1, 0))).1
        ≠ (MCTS.root_setup ext t preservedNode board).2
      ∧ ∃ q, ((MCTS.expanded ext (MCTS.root_setup ext t preservedNode board).2
          (Nat.iterate (MCTS.iteration ext rand (-board.turn)
              (MCTS.root_setup ext t preservedNode board).2) i
            ((MCTS.root_setup ext t preservedNode board).1, 0))).node
          (MCTS.nodeToExplore ext rand (MCTS.root_setup ext t preservedNode board).2
            (Nat.iterate (MCTS.iteration ext rand (-board.turn)
                (MCTS.root_setup ext t preservedNode board).2) i
              ((MCTS.root_setup ext t preservedNode board).1, 0))).1).parent = some q
        ∧ q < (MCTS.expanded ext (MCTS.root_setup ext t preservedNode board).2
          (Nat.iterate (MCTS.iteration ext rand (-board.turn)
              (MCTS.root_setup ext t preservedNode board).2) i
            ((MCTS.root_setup ext t preservedNode board).1, 0))).length := by
  obtain ⟨i1, _, i3⟩ := retained_shape ext t preservedNode hret
  obtain ⟨r1, r2, r3, _, r5⟩ := root_setup_shape ext t preservedNode board i1 i3
  have hq : ((MCTS.root_setup ext t preservedNode board).1.node
      (MCTS.root_setup ext t preservedNode board).2).board.is_game_over = false := by
    rcases hEq with hnone | hE
    · rw [hnone]
      have hrs : MCTS.root_setup ext t none board
          = (t ++ [{ TreeNode.new board with playerNo := -board.turn }], t.length) := rfl
      rw [hrs]
      simp only []
      rw [Arena.node_append, if_neg (lt_irrefl _), if_pos rfl]
      exact hboard
    · rcases r5 with hb | hb
      · rw [hb]
        exact hboard
      · exact hE _ hb
  obtain ⟨s1, s2, s3, s4⟩ := iterate_root_open ext rand (-board.turn)
    (MCTS.root_setup ext t preservedNode board).2 i
    ((MCTS.root_setup ext t preservedNode board).1, 0) r1 r3 r2 (Or.inr hq)
  obtain ⟨a, b, _⟩ := nodeToExplore_has_parent ext rand (-board.turn)
    (MCTS.root_setup ext t preservedNode board).2 _ s1 s2 s3 s4
  exact ⟨a, b⟩

/-- Witness of C32: the search object after a first call for the initial position (two passes,
`rand()` always 1, `operator==` equality of states) retains the root's first child; the second
call, for the position after the moves 0 and 1, takes that node's child at heap index 82 as its
root, whose parent pointer `prune` has cleared; the node simulated in its first pass is the new
node at heap index 91. -/
theorem simulated_node_has_parent_witness :
    MCTS.Retained exactExternals firstSearch.tree firstSearch.preservedNode
      ∧ secondBoard.is_game_over = false
      ∧ firstSearch.preservedNode = some 1
      ∧ (MCTS.root_setup exactExternals firstSearch.tree firstSearch.preservedNode
          secondBoard).2 = 82
      ∧ ((MCTS.root_setup exactExternals firstSearch.tree firstSearch.preservedNode
          secondBoard).1.node 82).parent = none
      ∧ (MCTS.nodeToExplore exactExternals (fun _ => 1) 82
          ((MCTS.root_setup exactExternals firstSearch.tree firstSearch.preservedNode
            secondBoard).1, 0)).1 = 91
      ∧ (MCTS.nodeToExplore exactExternals (fun _ => 1)
          (MCTS.root_setup exactExternals firstSearch.tree firstSearch.preservedNode
            secondBoard).2
          (Nat.iterate (MCTS.iteration exactExternals (fun _ => 1) (-secondBoard.turn)
              (MCTS.root_setup exactExternals firstSearch.tree firstSearch.preservedNode
                secondBoard).2) 0
            ((MCTS.root_setup exactExternals firstSearch.tree firstSearch.preservedNode
              secondBoard).1, 0))).1
        ≠ (MCTS.root_setup exactExternals firstSearch.tree firstSearch.preservedNode
            secondBoard).2 :=
  ⟨MCTS.Retained.call [] none (fun _ => 1) 2 State.init MCTS.Retained.fresh, by decide!,
    by decide!, by decide!, by decide!, by decide!,
    (simulated_node_has_parent exactExternals firstSearch.tree firstSearch.preservedNode
      (MCTS.Retained.call [] none (fun _ => 1) 2 State.init MCTS.Retained.fresh)
      (fun _ => 1) secondBoard (by decide!)
      (Or.inr (fun a h =>
        (congrArg State.is_game_over (state_eq_exact a secondBoard h)).trans (by decide!)))
      0).1⟩

theorem ordered_of_rooted (t : Arena) (h : t.rooted) (hl : t.linked) :
    t.ordered ∧ t.linkedFrom 0 := by
  constructor
  · intro k hk c hc
    have hcl := h.2.2.2 k hk c hc
    have hpar := hl.1 k hk c hc
    refine ⟨?_, hcl⟩
    by_cases hc0 : c = 0
    · rw [hc0, h.2.1] at hpar
      cases hpar
    · obtain ⟨q, hq, hqc⟩ := h.2.2.1 c (by omega) hcl
      rw [hq] at hpar
      cases hpar
      exact hqc
  · intro k _ hk c hc
    exact hl.1 k hk c hc

/-- After any number of passes of the search loop from the root of a search tree that has
children or whose state is not game over, the visit count of the root is still the sum of the
visit counts of its children when it was before. -/
theorem iterate_root_balance (ext : Externals) (rand : Nat → Nat) (opponent : Int)
    (N : Nat) (st : Arena × Nat) (h : st.1.rooted) (hl : st.1.linked)
    (hq : (st.1.node 0).children ≠ [] ∨ (st.1.node 0).board.is_game_over = false)
    (h0 : st.1.childVisits 0 = (st.1.node 0).visits) :
    (Nat.iterate (MCTS.iteration ext rand opponent 0) N st).1.childVisits 0
      = ((Nat.iterate (MCTS.iteration ext rand opponent 0) N st).1.node 0).visits := by
  induction N generalizing st with
  | zero => exact h0
  | succ n ih =>
    obtain ⟨hr1, hl1, _, hd⟩ := iteration_invariant ext rand opponent 0 st h hl h.1
    obtain ⟨ho, hlf⟩ := ordered_of_rooted st.1 h hl
    obtain ⟨hx, _, hch⟩ := nodeToExplore_has_parent ext rand opponent 0 st ho hlf h.1 hq
    simp only [Nat.iterate]
    apply ih _ hr1 hl1 (Or.inl hch)
    have := hd 0
    rw [if_neg (fun e => hx e.symm)] at this
    omega

/-- C33. After any number of complete passes of the search loop from a fresh root wrapping a
position that is not game over, for every sequence of values of `rand()` and every choice of the
parts the sources do not define: the visit count of every node is greater than or equal to the
sum of the visit counts of its children, and the visit count of the root is equal to it; the
same holds in the tree that `find_best_next_board` leaves. -/
theorem root_visits_eq_children_visits (ext : Externals) (rand : Nat → Nat) (N : Nat)
    (board : State) (hboard : board.is_game_over = false) :
    ((∀ k, (Nat.iterate (MCTS.iteration ext rand (-board.turn) 0) N
          ([{ TreeNode.new board with playerNo := -board.turn }], 0)).1.childVisits k
        ≤ ((Nat.iterate (MCTS.iteration ext rand (-board.turn) 0) N
          ([{ TreeNode.new board with playerNo := -board.turn }], 0)).1.node k).visits)
      ∧ (Nat.iterate (MCTS.iteration ext rand (-board.turn) 0) N
          ([{ TreeNode.new board with playerNo := -board.turn }], 0)).1.childVisits 0
        = ((Nat.iterate (MCTS.iteration ext rand (-board.turn) 0) N
          ([{ TreeNode.new board with playerNo := -board.turn }], 0)).1.node 0).visits)
      ∧ ((∀ k, (MCTS.find_best_next_board ext rand N [] none board).tree.childVisits k
        ≤ ((MCTS.find_best_next_board ext rand N [] none board).tree.node k).visits)
      ∧ (MCTS.find_best_next_board ext rand N [] none board).tree.childVisits 0
        = ((MCTS.find_best_next_board ext rand N [] none board).tree.node 0).visits) := by
  have hmain := (iterate_invariant ext rand (-board.turn) 0 N
    ([{ TreeNode.new board with playerNo := -board.turn }], 0) (fresh_root_rooted board)
    (fresh_root_linked _ rfl rfl) (by simp) (fresh_root_childVisits _ rfl rfl)).2.2.2
  have hroot := iterate_root_balance ext rand (-board.turn) N
    ([{ TreeNode.new board with playerNo := -board.turn }], 0) (fresh_root_rooted board)
    (fresh_root_linked _ rfl rfl) (Or.inr hboard) rfl
  refine ⟨⟨hmain, hroot⟩, ?_⟩
  unfold MCTS.find_best_next_board
  simp only [List.nil_append, List.length_nil]
  split
  · exact ⟨hmain, hroot⟩
  · simp only []
    constructor
    · intro k
      rw [prune_visits,
        childVisits_congr _ _ (prune_children ext _ _ _) (prune_visits ext _ _ _) k]
      exact hmain k
    · rw [prune_visits,
        childVisits_congr _ _ (prune_children ext _ _ _) (prune_visits ext _ _ _) 0]
      exact hroot

/-- Witness of C33: the initial position, three passes, `rand()` always 1: the root has three
visits and so have its children together. -/
theorem root_visits_eq_children_visits_witness :
    State.init.is_game_over = false
      ∧ (MCTS.find_best_next_board sampleExternals (fun _ => 1) 3 [] none
          State.init).tree.childVisits 0
        = ((MCTS.find_best_next_board sampleExternals (fun _ => 1) 3 [] none
          State.init).tree.node 0).visits
      ∧ ((MCTS.find_best_next_board sampleExternals (fun _ => 1) 3 [] none
          State.init).tree.node 0).visits = 3 :=
  ⟨by decide!,
    (root_visits_eq_children_visits sampleExternals (fun _ => 1) 3 State.init
      (by decide!)).2.2,
    by decide!⟩
